import Mathlib

/-!
# Quaternion library of the Luau VM (`libs/luau-696/VM/src/lquatlib.cpp`)

A shallow embedding of the quaternion library and the properties its specification states.

Conventions of the embedding:

* A compressed quaternion (`const short* q`) is a record of four integer lanes; the 16-bit range
  is the predicate `Quaternion.valid`.
* Working-precision values (`float`) are elements of an ordered field `F`.  The definitions are
  generic in `F`, so the purely arithmetic ones evaluate over `ℚ`; the theorems are stated over
  `ℝ`, i.e. over exact arithmetic without rounding of intermediate results.
* The C library functions the source calls (`sqrtf`, `sinf`, `cosf`, `acosf`, `asinf`, `atan2f`)
  and the constant `PI` are the fields of the class `LibM`; over `ℝ` they are the exact functions.
* Every operation that ends in `lua_pushquaternion(L, x, y, z, w)` is split in two: `f_work`
  is the 4-tuple handed to `lua_pushquaternion`, and `f` is the compressed result.
-/

namespace LuauQuat

/-! ## Data model -/

/-- Compressed quaternion: the four `short` lanes `q[0]`, `q[1]`, `q[2]`, `q[3]`. -/
structure Quaternion where
  q0 : Int
  q1 : Int
  q2 : Int
  q3 : Int
deriving DecidableEq

/-- Range of a signed 16-bit lane. -/
def isShort (n : Int) : Prop := -32768 ≤ n ∧ n ≤ 32767

instance (n : Int) : Decidable (isShort n) := by
  unfold isShort
  exact inferInstance

/-- All four lanes of a compressed quaternion are in the 16-bit range. -/
def Quaternion.valid (q : Quaternion) : Prop :=
  isShort q.q0 ∧ isShort q.q1 ∧ isShort q.q2 ∧ isShort q.q3

instance (q : Quaternion) : Decidable q.valid := by
  unfold Quaternion.valid
  exact inferInstance

/-- Working-precision quaternion `(x, y, z, w)`. -/
structure Quat4 (F : Type) where
  x : F
  y : F
  z : F
  w : F

/-- Three-component vector `(x, y, z)` (the first three floats of a Luau vector). -/
structure Vector3 (F : Type) where
  x : F
  y : F
  z : F

/-- The four numbers returned by `quaternion_toangleaxis`. -/
structure AngleAxis (F : Type) where
  angle : F
  x : F
  y : F
  z : F

/-- C library functions used by `lquatlib.cpp`, and the constant of its macro `PI` (line 11). -/
class LibM (F : Type) where
  sqrtf : F → F
  sinf : F → F
  cosf : F → F
  acosf : F → F
  asinf : F → F
  atan2f : F → F → F
  PI : F

/-- Exact real-number reading of the C library: `atan2f y x` is the argument of `x + y i`
(range `(-π, π]`, value `0` at the origin), and `PI`, whose macro spells `π` to 21 digits, is
`π`. -/
noncomputable instance instLibMReal : LibM ℝ where
  sqrtf := Real.sqrt
  sinf := Real.sin
  cosf := Real.cos
  acosf := Real.arccos
  asinf := Real.arcsin
  atan2f := fun y x => Complex.arg ⟨x, y⟩
  PI := Real.pi

section Arith

variable {F : Type} [LinearOrderedField F] [FloorRing F]

/-- Modelled from the spec: the macro `luaui_maxf` is not part of the sources at hand; the spec
reads `luaui_maxf(v, -1.f)` as `max(v, -1)`. -/
def luaui_maxf (a b : F) : F := max a b

/-- Decode of one lane, the expression `luaui_maxf(q[i] / 32767.f, -1.f)` that every operation
repeats. -/
def decode (lane : Int) : F := luaui_maxf ((lane : F) / 32767) (-1)

/-- The data model's decode as the spec words it: `value = clamp(lane / 32767, -1, 1)`. -/
def decode_spec (lane : Int) : F := max (-1) (min ((lane : F) / 32767) 1)

/-- Modelled from the spec: `lua_pushquaternion` is declared in the VM API and not part of the
sources at hand; the spec says it quantizes each component to a 16-bit signed fixed-point lane by
`round(component * 32767)`, here rounding to the nearest integer. -/
def lua_pushquaternion (x y z w : F) : Quaternion :=
  ⟨round (x * 32767), round (y * 32767), round (z * 32767), round (w * 32767)⟩

/-- Push of a working-precision 4-tuple. -/
def pushQuat (q : Quat4 F) : Quaternion := lua_pushquaternion q.x q.y q.z q.w

/-- The four decoded components of a compressed quaternion, the first four statements of every
operation that takes a quaternion. -/
def decodeQuat (q : Quaternion) : Quat4 F :=
  ⟨decode q.q0, decode q.q1, decode q.q2, decode q.q3⟩

/-- Squared norm `x*x + y*y + z*z + w*w`. -/
def Quat4.norm2 (q : Quat4 F) : F := q.x * q.x + q.y * q.y + q.z * q.z + q.w * q.w

/-- Dot product of two 4-tuples. -/
def Quat4.dot (q r : Quat4 F) : F := q.x * r.x + q.y * r.y + q.z * r.z + q.w * r.w

/-- Component-wise negation of a 4-tuple. -/
def Quat4.neg (q : Quat4 F) : Quat4 F := ⟨-q.x, -q.y, -q.z, -q.w⟩

/-- Quaternion conjugate `(-x, -y, -z, w)`. -/
def Quat4.conj (q : Quat4 F) : Quat4 F := ⟨-q.x, -q.y, -q.z, q.w⟩

/-- Hamilton product of two quaternions. -/
def Quat4.mul (p q : Quat4 F) : Quat4 F :=
  ⟨p.w * q.x + p.x * q.w + p.y * q.z - p.z * q.y,
   p.w * q.y - p.x * q.z + p.y * q.w + p.z * q.x,
   p.w * q.z + p.x * q.y - p.y * q.x + p.z * q.w,
   p.w * q.w - p.x * q.x - p.y * q.y - p.z * q.z⟩

/-- Rotation of the vector `v` by the quaternion `q`: the vector part of `q * (v, 0) * conj q`. -/
def rotate (q : Quat4 F) (v : Vector3 F) : Vector3 F :=
  let r := Quat4.mul (Quat4.mul q ⟨v.x, v.y, v.z, 0⟩) (Quat4.conj q)
  ⟨r.x, r.y, r.z⟩

/-- Dot product of two vectors. -/
def Vector3.dot (a b : Vector3 F) : F := a.x * b.x + a.y * b.y + a.z * b.z

/-- Cross product of two vectors. -/
def Vector3.cross (a b : Vector3 F) : Vector3 F :=
  ⟨a.y * b.z - a.z * b.y, a.z * b.x - a.x * b.z, a.x * b.y - a.y * b.x⟩

/-- The constant `identity = (0, 0, 0, 1)` as pushed by the library. -/
def identity : Quaternion := lua_pushquaternion (0 : ℚ) 0 0 1

/-! ## Operations without C library calls -/

/-- `quaternion_unpack` (lines 41-53): the four numbers pushed. -/
def quaternion_unpack (q : Quaternion) : Quat4 F :=
  let x := luaui_maxf ((q.q0 : F) / 32767) (-1)
  let y := luaui_maxf ((q.q1 : F) / 32767) (-1)
  let z := luaui_maxf ((q.q2 : F) / 32767) (-1)
  let w := luaui_maxf ((q.q3 : F) / 32767) (-1)
  ⟨x, y, z, w⟩

/-- `quaternion_conjugate` (lines 55-64): the 4-tuple handed to `lua_pushquaternion`. -/
def quaternion_conjugate_work (q : Quaternion) : Quat4 F :=
  let x : F := decode q.q0
  let y : F := decode q.q1
  let z : F := decode q.q2
  let w : F := decode q.q3
  ⟨-x, -y, -z, w⟩

/-- `quaternion_direction`, lines 274-276, on already decoded components. -/
def direction_work (q : Quat4 F) : Vector3 F :=
  let x := -2 * q.x * q.z - 2 * q.w * q.y
  let y := -2 * q.y * q.z + 2 * q.w * q.x
  let z := -1 + 2 * q.x * q.x + 2 * q.y * q.y
  ⟨x, y, z⟩

/-- `quaternion_direction` (lines 267-283); with `LUA_VECTOR_SIZE == 4` the pushed vector has a
fourth component `0`, which is not represented. -/
def quaternion_direction (q : Quaternion) : Vector3 F :=
  direction_work (decodeQuat q)

end Arith

section WithLibM

variable {F : Type} [LinearOrderedField F] [FloorRing F] [LibM F]

/-! ## Operations calling the C library -/

/-- `quaternion_pack`, lines 26-36: the 4-tuple handed to `lua_pushquaternion`, with the
arithmetic of the field `F` (exact at `F = ℝ`). The same statements with the rounding, overflow
and underflow of `float` are `quaternion_pack_work_f32`. -/
def quaternion_pack_work (x y z w : F) : Quat4 F :=
  let length2 := x * x + y * y + z * z + w * w
  if length2 < 1e-10 then
    ⟨0, 0, 0, 1⟩
  else
    let length := LibM.sqrtf length2
    ⟨x / length, y / length, z / length, w / length⟩

/-- `quaternion_pack` on four numbers (lines 21-38). -/
def quaternion_pack (x y z w : F) : Quaternion := pushQuat (quaternion_pack_work x y z w)

/-- `quaternion_pack` when the first argument is absent or nil (lines 15-19). -/
def quaternion_pack_nil (F : Type) [LinearOrderedField F] [FloorRing F] : Quaternion :=
  lua_pushquaternion (0 : F) 0 0 1

/-- `quaternion_conjugate` (lines 55-64), computed in the field `F`. -/
def quaternion_conjugate (F : Type) [LinearOrderedField F] [FloorRing F] (q : Quaternion) :
    Quaternion :=
  pushQuat (quaternion_conjugate_work q : Quat4 F)

/-- `quaternion_angleaxis` (lines 66-80): the 4-tuple handed to `lua_pushquaternion`. -/
def quaternion_angleaxis_work (angle ax ay az : F) : Quat4 F :=
  let s := LibM.sinf (angle * 0.5)
  let c := LibM.cosf (angle * 0.5)
  let length := LibM.sqrtf (ax * ax + ay * ay + az * az)
  let s := if length > 0 then s / length else s
  ⟨s * ax, s * ay, s * az, c⟩

/-- `quaternion_angleaxis` (lines 66-80). -/
def quaternion_angleaxis (angle ax ay az : F) : Quaternion :=
  pushQuat (quaternion_angleaxis_work angle ax ay az)

/-- `quaternion_toangleaxis`, lines 89-94, on already decoded components. -/
def toangleaxis_work (q : Quat4 F) : AngleAxis F :=
  let s := LibM.sqrtf (1 - q.w * q.w)
  let s := if s < 0.0001 then 1 else 1 / s
  ⟨2 * LibM.acosf q.w, q.x * s, q.y * s, q.z * s⟩

/-- `quaternion_toangleaxis` (lines 82-96). -/
def quaternion_toangleaxis (q : Quaternion) : AngleAxis F :=
  toangleaxis_work (decodeQuat q)

/-- `quaternion_euler` (lines 98-119): the 4-tuple handed to `lua_pushquaternion`. -/
def quaternion_euler_work (x y z : F) : Quat4 F :=
  let cx := LibM.cosf (x * 0.5)
  let sx := LibM.sinf (x * 0.5)
  let cy := LibM.cosf (y * 0.5)
  let sy := LibM.sinf (y * 0.5)
  let cz := LibM.cosf (z * 0.5)
  let sz := LibM.sinf (z * 0.5)
  ⟨cy * sx * cz + sy * cx * sz,
   sy * cx * cz - cy * sx * sz,
   cy * cx * sz - sy * sx * cz,
   cy * cx * cz + sy * sx * sz⟩

/-- `quaternion_euler` (lines 98-119). -/
def quaternion_euler (x y z : F) : Quaternion := pushQuat (quaternion_euler_work x y z)

/-- `quaternion_toeuler`, lines 130-152, on already decoded components: the three angles
`(ax, ay, az)` pushed. -/
def toeuler_work (q : Quat4 F) : Vector3 F :=
  let x := q.x
  let y := q.y
  let z := q.z
  let w := q.w
  let unit := x * x + y * y + z * z + w * w
  let test := x * w - y * z
  let eps : F := 1e-7
  if test > (0.5 - eps) * unit then
    ⟨LibM.PI / 2, 2 * LibM.atan2f y x, 0⟩
  else if test < -(0.5 - eps) * unit then
    ⟨-LibM.PI / 2, -2 * LibM.atan2f y x, 0⟩
  else
    ⟨LibM.asinf (2 * (w * x - y * z)),
     LibM.atan2f (2 * w * y + 2 * z * x) (1 - 2 * (x * x + y * y)),
     LibM.atan2f (2 * w * z + 2 * x * y) (1 - 2 * (z * z + x * x))⟩

/-- `quaternion_toeuler` (lines 121-154). -/
def quaternion_toeuler (q : Quaternion) : Vector3 F := toeuler_work (decodeQuat q)

/-- `quaternion_between` (lines 156-178): the 4-tuple handed to `lua_pushquaternion`. -/
def quaternion_between_work (a b : Vector3 F) : Quat4 F :=
  let dot := a.x * b.x + a.y * b.y + a.z * b.z
  if dot > 0.99999 ∨ dot < -0.99999 then
    ⟨0, 0, 0, 1⟩
  else
    let x := a.y * b.z - a.z * b.y
    let y := a.z * b.x - a.x * b.z
    let z := a.x * b.y - a.y * b.x
    let w := 1 + dot
    let length := LibM.sqrtf (x * x + y * y + z * z + w * w)
    ⟨x / length, y / length, z / length, w / length⟩

/-- `quaternion_between` (lines 156-178). -/
def quaternion_between (a b : Vector3 F) : Quaternion := pushQuat (quaternion_between_work a b)

/-- The default up hint `yup = { 0.f, 1.f, 0.f }` of `quaternion_lookdir`. -/
def yup : Vector3 F := ⟨0, 1, 0⟩

/-- `quaternion_lookdir`, lines 221-259: the four-branch extraction of `(x, y, z, w)` from the
matrix with rows `X`, `Y`, `Z`. -/
def lookdir_extract (X Y Z : Vector3 F) : Quat4 F :=
  let m00 := X.x
  let m01 := X.y
  let m02 := X.z
  let m10 := Y.x
  let m11 := Y.y
  let m12 := Y.z
  let m20 := Z.x
  let m21 := Z.y
  let m22 := Z.z
  if m22 < 0 then
    if m00 > m11 then
      let t := 1 + m00 - m11 - m22
      let s := 0.5 / LibM.sqrtf t
      ⟨t * s, (m01 + m10) * s, (m20 + m02) * s, (m12 - m21) * s⟩
    else
      let t := 1 - m00 + m11 - m22
      let s := 0.5 / LibM.sqrtf t
      ⟨(m01 + m10) * s, t * s, (m12 + m21) * s, (m20 - m02) * s⟩
  else
    if m00 < -m11 then
      let t := 1 - m00 - m11 + m22
      let s := 0.5 / LibM.sqrtf t
      ⟨(m20 + m02) * s, (m12 + m21) * s, t * s, (m01 - m10) * s⟩
    else
      let t := 1 + m00 + m11 + m22
      let s := 0.5 / LibM.sqrtf t
      ⟨(m12 - m21) * s, (m20 - m02) * s, (m01 - m10) * s, t * s⟩

/-- `quaternion_lookdir`, lines 198-217: the right basis vector `X` from the up hint and the
unit vector `Z`, with the fallback for a degenerate cross product, with the arithmetic of the
field `F` (exact at `F = ℝ`). In `float` arithmetic these lines are part of
`quaternion_lookdir_work_f32`, and their cross product is `lookdir_cross_f32`. -/
def lookdir_right (up Z : Vector3 F) : Vector3 F :=
  let X : Vector3 F :=
    ⟨up.y * Z.z - up.z * Z.y, up.z * Z.x - up.x * Z.z, up.x * Z.y - up.y * Z.x⟩
  let length := LibM.sqrtf (X.x * X.x + X.y * X.y + X.z * X.z)
  let X : Vector3 F :=
    if length = 0 then
      if |Z.x| < 0.9 then ⟨0, Z.z, -Z.y⟩ else ⟨Z.z, 0, -Z.x⟩
    else X
  let length :=
    if length = 0 then LibM.sqrtf (X.x * X.x + X.y * X.y + X.z * X.z) else length
  ⟨X.x / length, X.y / length, X.z / length⟩

/-- `quaternion_lookdir` (lines 180-265) with both vectors given: the 4-tuple handed to
`lua_pushquaternion`, with the arithmetic of the field `F` (exact at `F = ℝ`). The same
statements with the rounding, overflow and underflow of `float` are
`quaternion_lookdir_work_f32`. -/
def quaternion_lookdir_work (dir up : Vector3 F) : Quat4 F :=
  let Z : Vector3 F := ⟨-dir.x, -dir.y, -dir.z⟩
  let length := LibM.sqrtf (Z.x * Z.x + Z.y * Z.y + Z.z * Z.z)
  if length = 0 then
    ⟨0, 0, 0, 1⟩
  else
    let Z : Vector3 F := ⟨Z.x / length, Z.y / length, Z.z / length⟩
    let X := lookdir_right up Z
    let Y : Vector3 F :=
      ⟨Z.y * X.z - Z.z * X.y, Z.z * X.x - Z.x * X.z, Z.x * X.y - Z.y * X.x⟩
    let q := lookdir_extract X Y Z
    let length := LibM.sqrtf (q.x * q.x + q.y * q.y + q.z * q.z + q.w * q.w)
    ⟨q.x / length, q.y / length, q.z / length, q.w / length⟩

/-- `quaternion_lookdir` (lines 180-265); an absent second argument is `yup`. -/
def quaternion_lookdir (dir : Vector3 F) (up : Option (Vector3 F)) : Quaternion :=
  pushQuat (quaternion_lookdir_work dir (up.getD yup))

/-- `quaternion_slerp` (lines 285-337), with the arithmetic of the field `F` (exact at
`F = ℝ`). The early return of line 303 leaves the first argument on the stack, so the result is
the compressed `q` itself. The same statements with the rounding of `float`, on which the two
branch tests of lines 301 and 317 depend, are `quaternion_slerp_f32`. -/
def quaternion_slerp (q r : Quaternion) (t : F) : Quaternion :=
  let qx : F := decode q.q0
  let qy : F := decode q.q1
  let qz : F := decode q.q2
  let qw : F := decode q.q3
  let rx : F := decode r.q0
  let ry : F := decode r.q1
  let rz : F := decode r.q2
  let rw : F := decode r.q3
  let dot := qx * rx + qy * ry + qz * rz + qw * rw
  if |dot| ≥ 1 then
    q
  else
    let flip : Bool := decide (dot < 0)
    let dot := if flip then dot * -1 else dot
    let qx := if flip then qx * -1 else qx
    let qy := if flip then qy * -1 else qy
    let qz := if flip then qz * -1 else qz
    let qw := if flip then qw * -1 else qw
    let halfTheta := LibM.acosf dot
    let sinHalfTheta := LibM.sqrtf (1 - dot * dot)
    if |sinHalfTheta| < 0.001 then
      lua_pushquaternion (qx * 0.5 + rx * 0.5) (qy * 0.5 + ry * 0.5) (qz * 0.5 + rz * 0.5)
        (qw * 0.5 + rw * 0.5)
    else
      let a := LibM.sinf ((1 - t) * halfTheta) / sinHalfTheta
      let b := LibM.sinf (t * halfTheta) / sinHalfTheta
      lua_pushquaternion (qx * a + rx * b) (qy * a + ry * b) (qz * a + rz * b) (qw * a + rw * b)

end WithLibM

/-! ## Dispatch and field access -/

/-- The C functions of `lquatlib.cpp`, as the values stored in the library tables. -/
inductive CFunction where
  | pack
  | unpack
  | conjugate
  | angleaxis
  | toangleaxis
  | euler
  | toeuler
  | between
  | lookdir
  | direction
  | slerp
  | call
  | index
  | namecall
deriving DecidableEq

/-- The array `quaternionlib` (lines 417-430), without its `{NULL, NULL}` terminator. -/
def quaternionlib : List (String × CFunction) :=
  [("pack", CFunction.pack), ("unpack", CFunction.unpack), ("conjugate", CFunction.conjugate),
   ("angleaxis", CFunction.angleaxis), ("toangleaxis", CFunction.toangleaxis),
   ("euler", CFunction.euler), ("toeuler", CFunction.toeuler), ("between", CFunction.between),
   ("lookdir", CFunction.lookdir), ("direction", CFunction.direction),
   ("slerp", CFunction.slerp)]

/-- The metatable that `luaopen_quaternion` gives to quaternions (lines 450-459): the functions of
`quaternionlib` registered by `luaL_register(L, NULL, quaternionlib)`, then the fields `__index`
and `__namecall`. -/
def quaternion_metatable : List (String × CFunction) :=
  quaternionlib ++ [("__index", CFunction.index), ("__namecall", CFunction.namecall)]

/-- A name as the C API reads it through `const char*`: the characters before the first NUL.
The characters of a name stand for its bytes. -/
def cstr (name : String) : String := ⟨name.data.takeWhile (fun c => c ≠ Char.ofNat 0)⟩

/-- `lua_getfield` on a table of C functions: the value stored under the key, `none` for nil. -/
def lua_getfield (t : List (String × CFunction)) (k : String) : Option CFunction :=
  (t.find? (fun e => e.1 = k)).map (fun e => e.2)

/-- The lane `q[ic]` for an index `0 ≤ ic < 4`. -/
def Quaternion.lane (q : Quaternion) (ic : Int) : Int :=
  if ic = 0 then q.q0 else if ic = 1 then q.q1 else if ic = 2 then q.q2 else q.q3

/-- What `quaternion_index` leaves to its caller. -/
inductive IndexResult (F : Type) where
  | number (v : F)
  | func (f : CFunction)
  | error (msg : String)

/-- The lane index that the fast path of `quaternion_index` (lines 362-368) derives from the
single character of a name: `ic = (name[0] | ' ') - 'x'`, with `-1` replaced by `3`, accepted
when `unsigned(ic) < 4`, i.e. when `0 ≤ ic < 4`. -/
def index_lane (c : Char) : Option Int :=
  let ic : Int := ((c.toNat ||| 32 : Nat) : Int) - 120
  let ic := if ic = -1 then 3 else ic
  if 0 ≤ ic ∧ ic < 4 then some ic else none

/-- `quaternion_index` (lines 353-384) for a string key. -/
def quaternion_index {F : Type} [LinearOrderedField F] (q : Quaternion) (name : String) :
    IndexResult F :=
  let fast : Option Int :=
    match name.data with
    | [c] => index_lane c
    | _ => none
  match fast with
  | some ic => IndexResult.number (luaui_maxf ((q.lane ic : F) / 32767) (-1))
  | none =>
    match lua_getfield quaternion_metatable (cstr name) with
    | some f => IndexResult.func f
    | none => IndexResult.error ("attempt to index quaternion with '" ++ cstr name ++ "'")

/-- What `quaternion_namecall` does: it tail-calls one of the operations, or raises the error of
`luaL_error`, or the error that `luaL_checkstring(L, 1)` raised. -/
inductive NamecallResult (E : Type) where
  | call (f : CFunction)
  | error (msg : String)
  | argerror (e : E)

/-- The `strcmp` chain of `quaternion_namecall` (lines 390-411). -/
def namecall_dispatch (str : String) : Option CFunction :=
  if str = "pack" then some CFunction.pack
  else if str = "unpack" then some CFunction.unpack
  else if str = "conjugate" then some CFunction.conjugate
  else if str = "angleaxis" then some CFunction.angleaxis
  else if str = "toangleaxis" then some CFunction.toangleaxis
  else if str = "euler" then some CFunction.euler
  else if str = "toeuler" then some CFunction.toeuler
  else if str = "between" then some CFunction.between
  else if str = "lookdir" then some CFunction.lookdir
  else if str = "direction" then some CFunction.direction
  else if str = "slerp" then some CFunction.slerp
  else none

/-- `quaternion_namecall` (lines 386-415). `atom` is the result of `lua_namecallatom`, the name
of the method called; `arg1` is the value in stack slot 1, the receiver of the method call; the
API function `luaL_checkstring`, not part of the sources at hand, is an argument: it returns the
string in a stack slot or raises an error. -/
def quaternion_namecall {V E : Type} (luaL_checkstring : V → Except E String) (arg1 : V)
    (atom : Option String) : NamecallResult E :=
  match atom.bind namecall_dispatch with
  | some f => NamecallResult.call f
  | none =>
    match luaL_checkstring arg1 with
    | Except.ok s => NamecallResult.error (s ++ " is not a valid method of quaternion")
    | Except.error e => NamecallResult.argerror e

/-! ## Pieces of `quaternion_lookdir` named for the properties -/

/-- `quaternion_lookdir`, lines 186-196: the vector `Z`, the negated `dir` divided by its
length, as computed when that length is not `0`. -/
def lookdir_Z {F : Type} [LinearOrderedField F] [LibM F] (dir : Vector3 F) : Vector3 F :=
  let Z : Vector3 F := ⟨-dir.x, -dir.y, -dir.z⟩
  let length := LibM.sqrtf (Z.x * Z.x + Z.y * Z.y + Z.z * Z.z)
  ⟨Z.x / length, Z.y / length, Z.z / length⟩

/-- `quaternion_lookdir`, lines 202-210: the right vector chosen when `cross(up, Z)` has length
`0`, before it is divided by its length. -/
def lookdir_fallback {F : Type} [LinearOrderedField F] (Z : Vector3 F) : Vector3 F :=
  if |Z.x| < 0.9 then ⟨0, Z.z, -Z.y⟩ else ⟨Z.z, 0, -Z.x⟩

/-! ## The shorter-arc rule of `slerp` as the specification words it -/

/-- The weighted sum that the specification describes for a negative dot product: `r` negated,
`q` kept, `theta = acos(-dot)`, weights `sin((1-t)*theta)/sin(theta)` and
`sin(t*theta)/sin(theta)`, handed to the quantizer. It is compared with `quaternion_slerp`. -/
def slerp_negated_r_spec {F : Type} [LinearOrderedField F] [FloorRing F] [LibM F]
    (q r : Quaternion) (t : F) : Quaternion :=
  let dot : F := decode q.q0 * decode r.q0 + decode q.q1 * decode r.q1
    + decode q.q2 * decode r.q2 + decode q.q3 * decode r.q3
  let theta := LibM.acosf (-dot)
  let a := LibM.sinf ((1 - t) * theta) / LibM.sinf theta
  let b := LibM.sinf (t * theta) / LibM.sinf theta
  lua_pushquaternion (a * decode q.q0 + b * -decode r.q0) (a * decode q.q1 + b * -decode r.q1)
    (a * decode q.q2 + b * -decode r.q2) (a * decode q.q3 + b * -decode r.q3)

/-! ## Float arithmetic

The operations of `lquatlib.cpp` compute in the C type `float`. The definitions above read its
arithmetic as exact; the definitions of this part keep the rounding, the overflow to infinity
and the underflow of IEEE-754 binary32 (round to nearest, ties to even), for the properties that
depend on them. -/

/-- Values of the C type `float` (IEEE-754 binary32): a finite value `(-1)^s * m * 2^e`, an
infinity, or a NaN. Finite values are kept in canonical form: `m < 2^24`, `-149 ≤ e ≤ 104`,
and `2^23 ≤ m` unless `e = -149` (subnormal numbers and the two zeros). -/
inductive F32 where
  | fin (s : Bool) (m : Nat) (e : Int)
  | inf (s : Bool)
  | nan
deriving DecidableEq

namespace F32

/-- The largest `k` with `2^k ≤ n`, for `1 ≤ n < 2^1024`; `0` for `n = 0`. -/
def ilog2 (n : Nat) : Nat :=
  [512, 256, 128, 64, 32, 16, 8, 4, 2, 1].foldl
    (fun k p => if 2 ^ (k + p) ≤ n then k + p else k) 0

/-- Rounding to nearest, ties to even, of the positive rational `n / d * 2^e` with sign `s`:
the exponent `E` of the result is chosen so that the quotient has 24 binary digits, but not
below `-149`; a result beyond the largest finite value becomes an infinity. -/
def round (s : Bool) (n d : Nat) (e : Int) : F32 :=
  if n = 0 then fin s 0 (-149)
  else
    let scaled : Int → Nat × Nat := fun k =>
      if 0 ≤ k then (n * 2 ^ k.toNat, d) else (n, d * 2 ^ (-k).toNat)
    let E1 : Int := e + (ilog2 n : Int) - (ilog2 d : Int) - 24
    let E2 : Int := if 2 ^ 24 ≤ (scaled (e - E1)).1 / (scaled (e - E1)).2 then E1 + 1 else E1
    let E : Int := if E2 < -149 then -149 else E2
    let N := (scaled (e - E)).1
    let D := (scaled (e - E)).2
    let q := N / D
    let r := N % D
    let q := if D < 2 * r ∨ (2 * r = D ∧ q % 2 = 1) then q + 1 else q
    let E := if q = 2 ^ 24 then E + 1 else E
    let q := if q = 2 ^ 24 then 2 ^ 23 else q
    if 104 < E then inf s else fin s q E

/-- Conversion of an integer, as in `q[0] / 32767.f` where `q[0]` is a `short`. -/
def ofInt (n : Int) : F32 := round (decide (n < 0)) n.natAbs 1 0

/-- Unary minus. -/
def neg : F32 → F32
  | fin s m e => fin (!s) m e
  | inf s => inf (!s)
  | nan => nan

/-- The C function `fabsf`. -/
def abs : F32 → F32
  | fin _ m e => fin false m e
  | inf _ => inf false
  | nan => nan

/-- Addition: the exact sum of two finite values, rounded. -/
def add : F32 → F32 → F32
  | fin sa ma ea, fin sb mb eb =>
    let e := if ea ≤ eb then ea else eb
    let a : Int := (if sa then -1 else 1) * ((ma * 2 ^ (ea - e).toNat : Nat) : Int)
    let b : Int := (if sb then -1 else 1) * ((mb * 2 ^ (eb - e).toNat : Nat) : Int)
    if a + b = 0 then fin (sa && sb) 0 (-149)
    else round (decide (a + b < 0)) (a + b).natAbs 1 e
  | fin _ _ _, inf s => inf s
  | inf s, fin _ _ _ => inf s
  | inf sa, inf sb => if sa = sb then inf sa else nan
  | _, _ => nan

/-- Multiplication: the exact product of two finite values, rounded. -/
def mul : F32 → F32 → F32
  | fin sa ma ea, fin sb mb eb => round (xor sa sb) (ma * mb) 1 (ea + eb)
  | fin sa ma _, inf sb => if ma = 0 then nan else inf (xor sa sb)
  | inf sa, fin sb mb _ => if mb = 0 then nan else inf (xor sa sb)
  | inf sa, inf sb => inf (xor sa sb)
  | _, _ => nan

/-- Division: the exact quotient of two finite values, rounded; division by zero gives an
infinity, `0 / 0` and `inf / inf` give NaN. -/
def div : F32 → F32 → F32
  | fin sa ma ea, fin sb mb eb =>
    if mb = 0 then (if ma = 0 then nan else inf (xor sa sb))
    else round (xor sa sb) ma mb (ea - eb)
  | fin sa _ _, inf sb => fin (xor sa sb) 0 (-149)
  | inf sa, fin sb _ _ => inf (xor sa sb)
  | _, _ => nan

/-- The largest `r` with `r * r ≤ n`, for `n < 2^128`, found digit by digit. -/
def isqrt (n : Nat) : Nat :=
  (List.range 64).foldl
    (fun r i => if (r + 2 ^ (63 - i)) * (r + 2 ^ (63 - i)) ≤ n then r + 2 ^ (63 - i) else r) 0

/-- The C function `sqrtf`, correctly rounded: for `m * 2^e > 0` the integer square root of
`m * 2^(52 + e mod 2)` carries more than 26 digits, and one more digit records whether the
root is exact. -/
def sqrt : F32 → F32
  | fin s m e =>
    if m = 0 then fin s 0 (-149)
    else if s then nan
    else
      let k : Int := e % 2
      let n : Nat := m * 2 ^ (52 + k.toNat)
      let r := isqrt n
      round false (2 * r + (if r * r = n then 0 else 1)) 2 ((e - k) / 2 - 26)
  | inf s => if s then nan else inf false
  | nan => nan

/-- The comparison `a < b` of C: false when either side is a NaN; the two zeros are equal. -/
def lt : F32 → F32 → Bool
  | fin sa ma ea, fin sb mb eb =>
    let e := if ea ≤ eb then ea else eb
    let a : Int := (if sa then -1 else 1) * ((ma * 2 ^ (ea - e).toNat : Nat) : Int)
    let b : Int := (if sb then -1 else 1) * ((mb * 2 ^ (eb - e).toNat : Nat) : Int)
    decide (a < b)
  | fin _ _ _, inf s => !s
  | inf s, fin _ _ _ => s
  | inf sa, inf sb => sa && !sb
  | _, _ => false

/-- The comparison `a == b` of C: false when either side is a NaN; the two zeros are equal. -/
def feq : F32 → F32 → Bool
  | fin sa ma ea, fin sb mb eb => (ma = 0 ∧ mb = 0) ∨ (sa = sb ∧ ma = mb ∧ ea = eb)
  | inf sa, inf sb => sa = sb
  | _, _ => false

/-- The comparison `a <= b` of C. -/
def le (a b : F32) : Bool := lt a b || feq a b

instance : Add F32 := ⟨add⟩
instance : Mul F32 := ⟨mul⟩
instance : Div F32 := ⟨div⟩
instance : Neg F32 := ⟨neg⟩
instance : Sub F32 := ⟨fun a b => add a (neg b)⟩
instance : LT F32 := ⟨fun a b => lt a b = true⟩
instance : LE F32 := ⟨fun a b => le a b = true⟩
instance (a b : F32) : Decidable (a < b) := inferInstanceAs (Decidable (lt a b = true))
instance (a b : F32) : Decidable (a ≤ b) := inferInstanceAs (Decidable (le a b = true))
instance (n : Nat) : OfNat F32 n := ⟨round false n 1 0⟩
instance : OfScientific F32 :=
  ⟨fun m s e => if s then round false m (10 ^ e) 0 else round false (m * 10 ^ e) 1 0⟩

/-- The rational value of a finite `float`; `0` for the infinities and NaN. -/
def toRat : F32 → ℚ
  | fin s m e =>
    (if s then -1 else 1) * (if 0 ≤ e then (m * 2 ^ e.toNat : ℚ) else (m : ℚ) / 2 ^ (-e).toNat)
  | _ => 0

end F32



deriving instance DecidableEq for Quat4

deriving instance DecidableEq for Vector3

/-! ## Operations in float arithmetic -/

/-- Modelled from the spec: the macro `luaui_maxf` is not part of the sources at hand; the spec
reads `luaui_maxf(v, -1.f)` as `max(v, -1)`. On `float` values it is taken as the usual
`a > b ? a : b`. -/
def luaui_maxf_f32 (a b : F32) : F32 := if b < a then a else b

/-- Decode of one lane in `float` arithmetic, `luaui_maxf(q[i] / 32767.f, -1.f)`. -/
def decode_f32 (lane : Int) : F32 := luaui_maxf_f32 (F32.ofInt lane / 32767) (-1)

/-- Modelled from the spec: `lua_pushquaternion` is not part of the sources at hand; the spec
says it quantizes each component by `round(component * 32767)`. Here the quantizer of the
exact-arithmetic model is applied to the exact values of the four `float` components. -/
def pushQuat_f32 (q : Quat4 F32) : Quaternion :=
  lua_pushquaternion q.x.toRat q.y.toRat q.z.toRat q.w.toRat

/-- `quaternion_lookdir` (lines 180-265) in `float` arithmetic with both vectors given: the
4-tuple handed to `lua_pushquaternion`. -/
def quaternion_lookdir_work_f32 (dir up : Vector3 F32) : Quat4 F32 :=
  let Z : Vector3 F32 := ⟨-dir.x, -dir.y, -dir.z⟩
  let length := F32.sqrt (Z.x * Z.x + Z.y * Z.y + Z.z * Z.z)
  if F32.feq length 0 then
    ⟨0, 0, 0, 1⟩
  else
    let Z : Vector3 F32 := ⟨Z.x / length, Z.y / length, Z.z / length⟩
    let X : Vector3 F32 :=
      ⟨up.y * Z.z - up.z * Z.y, up.z * Z.x - up.x * Z.z, up.x * Z.y - up.y * Z.x⟩
    let length := F32.sqrt (X.x * X.x + X.y * X.y + X.z * X.z)
    let X : Vector3 F32 :=
      if F32.feq length 0 then
        if F32.abs Z.x < 0.9 then ⟨0, Z.z, -Z.y⟩ else ⟨Z.z, 0, -Z.x⟩
      else X
    let length :=
      if F32.feq length 0 then F32.sqrt (X.x * X.x + X.y * X.y + X.z * X.z) else length
    let X : Vector3 F32 := ⟨X.x / length, X.y / length, X.z / length⟩
    let Y : Vector3 F32 :=
      ⟨Z.y * X.z - Z.z * X.y, Z.z * X.x - Z.x * X.z, Z.x * X.y - Z.y * X.x⟩
    let m00 := X.x
    let m01 := X.y
    let m02 := X.z
    let m10 := Y.x
    let m11 := Y.y
    let m12 := Y.z
    let m20 := Z.x
    let m21 := Z.y
    let m22 := Z.z
    let q : Quat4 F32 :=
      if m22 < 0 then
        if m11 < m00 then
          let t := 1 + m00 - m11 - m22
          let s := 0.5 / F32.sqrt t
          ⟨t * s, (m01 + m10) * s, (m20 + m02) * s, (m12 - m21) * s⟩
        else
          let t := 1 - m00 + m11 - m22
          let s := 0.5 / F32.sqrt t
          ⟨(m01 + m10) * s, t * s, (m12 + m21) * s, (m20 - m02) * s⟩
      else
        if m00 < -m11 then
          let t := 1 - m00 - m11 + m22
          let s := 0.5 / F32.sqrt t
          ⟨(m20 + m02) * s, (m12 + m21) * s, t * s, (m01 - m10) * s⟩
        else
          let t := 1 + m00 + m11 + m22
          let s := 0.5 / F32.sqrt t
          ⟨(m12 - m21) * s, (m20 - m02) * s, (m01 - m10) * s, t * s⟩
    let length := F32.sqrt (q.x * q.x + q.y * q.y + q.z * q.z + q.w * q.w)
    ⟨q.x / length, q.y / length, q.z / length, q.w / length⟩

/-- What `quaternion_slerp` leaves on the stack: the first argument itself (line 304), or the
quaternion that `lua_pushquaternion` makes of a 4-tuple of `float` values. -/
inductive SlerpResult where
  | kept (q : Quaternion)
  | pushed (x y z w : F32)
deriving DecidableEq

/-- `quaternion_slerp` (lines 285-337) in `float` arithmetic. The C library functions `acosf`
and `sinf` are parameters: the result is stated for whatever values they return. `t` is the
third argument after its conversion to `float`. -/
def quaternion_slerp_f32 (acosf sinf : F32 → F32) (q r : Quaternion) (t : F32) : SlerpResult :=
  let qx := luaui_maxf_f32 (F32.ofInt q.q0 / 32767) (-1)
  let qy := luaui_maxf_f32 (F32.ofInt q.q1 / 32767) (-1)
  let qz := luaui_maxf_f32 (F32.ofInt q.q2 / 32767) (-1)
  let qw := luaui_maxf_f32 (F32.ofInt q.q3 / 32767) (-1)
  let rx := luaui_maxf_f32 (F32.ofInt r.q0 / 32767) (-1)
  let ry := luaui_maxf_f32 (F32.ofInt r.q1 / 32767) (-1)
  let rz := luaui_maxf_f32 (F32.ofInt r.q2 / 32767) (-1)
  let rw := luaui_maxf_f32 (F32.ofInt r.q3 / 32767) (-1)
  let dot := qx * rx + qy * ry + qz * rz + qw * rw
  if 1 ≤ F32.abs dot then
    SlerpResult.kept q
  else
    let flip : Bool := decide (dot < 0)
    let dot := if flip then dot * -1 else dot
    let qx := if flip then qx * -1 else qx
    let qy := if flip then qy * -1 else qy
    let qz := if flip then qz * -1 else qz
    let qw := if flip then qw * -1 else qw
    let halfTheta := acosf dot
    let sinHalfTheta := F32.sqrt (1 - dot * dot)
    if F32.abs sinHalfTheta < 0.001 then
      SlerpResult.pushed (qx * 0.5 + rx * 0.5) (qy * 0.5 + ry * 0.5) (qz * 0.5 + rz * 0.5)
        (qw * 0.5 + rw * 0.5)
    else
      let a := sinf ((1 - t) * halfTheta) / sinHalfTheta
      let b := sinf (t * halfTheta) / sinHalfTheta
      SlerpResult.pushed (qx * a + rx * b) (qy * a + ry * b) (qz * a + rz * b) (qw * a + rw * b)

/-! ## Pieces of the float operations named for the properties -/

/-- The value `dot` of line 301 of `quaternion_slerp`, in `float` arithmetic. -/
def slerp_dot_f32 (q r : Quaternion) : F32 :=
  decode_f32 q.q0 * decode_f32 r.q0 + decode_f32 q.q1 * decode_f32 r.q1
    + decode_f32 q.q2 * decode_f32 r.q2 + decode_f32 q.q3 * decode_f32 r.q3

/-- The value `sinHalfTheta` of line 317 of `quaternion_slerp`, in `float` arithmetic, computed
from the dot product after the sign flip of lines 308-314. -/
def slerp_sinHalfTheta_f32 (q r : Quaternion) : F32 :=
  let dot := slerp_dot_f32 q r
  let dot := if dot < 0 then dot * -1 else dot
  F32.sqrt (1 - dot * dot)

/-- The vector `Z` of lines 186-196 of `quaternion_lookdir`, in `float` arithmetic. -/
def lookdir_Z_f32 (dir : Vector3 F32) : Vector3 F32 :=
  let Z : Vector3 F32 := ⟨-dir.x, -dir.y, -dir.z⟩
  let length := F32.sqrt (Z.x * Z.x + Z.y * Z.y + Z.z * Z.z)
  ⟨Z.x / length, Z.y / length, Z.z / length⟩

/-- The cross product `X` of line 198 of `quaternion_lookdir`, in `float` arithmetic. -/
def lookdir_cross_f32 (dir up : Vector3 F32) : Vector3 F32 :=
  let Z := lookdir_Z_f32 dir
  ⟨up.y * Z.z - up.z * Z.y, up.z * Z.x - up.x * Z.z, up.x * Z.y - up.y * Z.x⟩

/-- The `length` of line 199 of `quaternion_lookdir`, which the test of line 201 compares with
zero, in `float` arithmetic. -/
def lookdir_cross_length_f32 (dir up : Vector3 F32) : F32 :=
  let X := lookdir_cross_f32 dir up
  F32.sqrt (X.x * X.x + X.y * X.y + X.z * X.z)

/-! ## Notions used to state the properties -/

/-- The matrix with rows `X`, `Y`, `Z` is a rotation matrix: the rows are orthonormal and every
entry equals its cofactor. -/
structure IsRotationRows (X Y Z : Vector3 ℝ) : Prop where
  r0 : X.x * X.x + X.y * X.y + X.z * X.z = 1
  r1 : Y.x * Y.x + Y.y * Y.y + Y.z * Y.z = 1
  r2 : Z.x * Z.x + Z.y * Z.y + Z.z * Z.z = 1
  r01 : X.x * Y.x + X.y * Y.y + X.z * Y.z = 0
  r02 : X.x * Z.x + X.y * Z.y + X.z * Z.z = 0
  r12 : Y.x * Z.x + Y.y * Z.y + Y.z * Z.z = 0
  c00 : X.x = Y.y * Z.z - Y.z * Z.y
  c01 : X.y = Y.z * Z.x - Y.x * Z.z
  c02 : X.z = Y.x * Z.y - Y.y * Z.x
  c10 : Y.x = Z.y * X.z - Z.z * X.y
  c11 : Y.y = Z.z * X.x - Z.x * X.z
  c12 : Y.z = Z.x * X.y - Z.y * X.x
  c20 : Z.x = X.y * Y.z - X.z * Y.y
  c21 : Z.y = X.z * Y.x - X.x * Y.z
  c22 : Z.z = X.x * Y.y - X.y * Y.x

/-- Two 4-tuples agree within `eps` in each component. -/
def Quat4.within (eps : ℝ) (a b : Quat4 ℝ) : Prop :=
  |a.x - b.x| ≤ eps ∧ |a.y - b.y| ≤ eps ∧ |a.z - b.z| ≤ eps ∧ |a.w - b.w| ≤ eps

/-! ## Lemmas on the quantizer and the decode -/

/-- Above lane `-32768` the lower clamp of the decode is inactive. -/
theorem decode_eq_of_ge {F : Type} [LinearOrderedField F] {lane : Int} (h : -32767 ≤ lane) :
    (decode lane : F) = (lane : F) / 32767 := by
  unfold decode luaui_maxf
  apply max_eq_left
  rw [le_div_iff₀ (by norm_num)]
  have : ((-32767 : Int) : F) ≤ (lane : F) := by exact_mod_cast h
  push_cast at this
  linarith

/-- The lane of a component `c ≥ -1` is at least `-32767`. -/
theorem round_mul_ge_of_ge {F : Type} [LinearOrderedField F] [FloorRing F] {c : F}
    (h : -1 ≤ c) : -32767 ≤ round (c * 32767) := by
  have h1 : ((-32767 : Int) : F) ≤ c * 32767 := by push_cast; linarith
  have h2 := round_le (c * 32767) (-32767)
  by_contra hlt
  push_neg at hlt
  have h3 : round (c * 32767) ≤ -32768 := by omega
  have h4 : ((round (c * 32767) : Int) : F) ≤ ((-32768 : Int) : F) := by exact_mod_cast h3
  push_cast at h1 h2 h4
  rw [abs_of_nonneg (by linarith), abs_of_nonneg (by linarith)] at h2
  linarith

/-- Quantizing a component `c ≥ -1` and decoding it again moves it by at most `1/65534`. -/
theorem decode_round_close {F : Type} [LinearOrderedField F] [FloorRing F] {c : F} (h : -1 ≤ c) :
    |(decode (round (c * 32767)) : F) - c| ≤ 1 / 65534 := by
  rw [decode_eq_of_ge (round_mul_ge_of_ge h)]
  have h1 := abs_sub_round (c * 32767)
  rw [abs_le] at h1 ⊢
  constructor
  · rw [le_sub_iff_add_le, le_div_iff₀ (by norm_num)]
    linarith [h1.1, h1.2]
  · rw [sub_le_iff_le_add, div_le_iff₀ (by norm_num)]
    linarith [h1.1, h1.2]

/-- Each component of a unit quaternion is at most `1` in absolute value. -/
theorem abs_le_one_of_norm2 {F : Type} [LinearOrderedField F] {x y z w : F}
    (h : x * x + y * y + z * z + w * w = 1) : |x| ≤ 1 := by
  rw [abs_le]
  constructor <;> nlinarith [mul_self_nonneg y, mul_self_nonneg z, mul_self_nonneg w,
    mul_self_nonneg (x - 1), mul_self_nonneg (x + 1)]

/-! ## Simplification lemmas for the exact C library -/

/-- `sqrtf` over `ℝ` is the real square root. -/
theorem sqrtf_real (x : ℝ) : LibM.sqrtf x = Real.sqrt x := rfl

/-- `sinf` over `ℝ` is the real sine. -/
theorem sinf_real (x : ℝ) : LibM.sinf x = Real.sin x := rfl

/-- `cosf` over `ℝ` is the real cosine. -/
theorem cosf_real (x : ℝ) : LibM.cosf x = Real.cos x := rfl

/-- `acosf` over `ℝ` is the real arc cosine. -/
theorem acosf_real (x : ℝ) : LibM.acosf x = Real.arccos x := rfl

/-- `asinf` over `ℝ` is the real arc sine. -/
theorem asinf_real (x : ℝ) : LibM.asinf x = Real.arcsin x := rfl

/-- `atan2f y x` over `ℝ` is the argument of the complex number `x + y i`. -/
theorem atan2f_real (y x : ℝ) : LibM.atan2f y x = Complex.arg ⟨x, y⟩ := rfl

/-- `PI` over `ℝ` is `π`. -/
theorem PI_real : (LibM.PI : ℝ) = Real.pi := rfl

/-! ## Representation and quantization: C1, C2, C3 -/

/-- C1. Round-trip quantization: for every unit quaternion `(x, y, z, w)`, `pack` quantizes each
component to the lane `round(component * 32767)`, and each component of `unpack(pack(x,y,z,w))`
differs from the corresponding input component by at most `1/32767`. -/
theorem pack_unpack_roundtrip (x y z w : ℝ) (h : x ^ 2 + y ^ 2 + z ^ 2 + w ^ 2 = 1) :
    quaternion_pack x y z w
        = ⟨round (x * 32767), round (y * 32767), round (z * 32767), round (w * 32767)⟩
      ∧ |(quaternion_unpack (quaternion_pack x y z w) : Quat4 ℝ).x - x| ≤ 1 / 32767
      ∧ |(quaternion_unpack (quaternion_pack x y z w) : Quat4 ℝ).y - y| ≤ 1 / 32767
      ∧ |(quaternion_unpack (quaternion_pack x y z w) : Quat4 ℝ).z - z| ≤ 1 / 32767
      ∧ |(quaternion_unpack (quaternion_pack x y z w) : Quat4 ℝ).w - w| ≤ 1 / 32767 := by
  have hn : x * x + y * y + z * z + w * w = 1 := by nlinarith [h]
  have hp : quaternion_pack x y z w
      = ⟨round (x * 32767), round (y * 32767), round (z * 32767), round (w * 32767)⟩ := by
    simp only [quaternion_pack, quaternion_pack_work, pushQuat, lua_pushquaternion, hn,
      sqrtf_real, Real.sqrt_one, div_one]
    norm_num
  have hx : -1 ≤ x := (abs_le.mp (abs_le_one_of_norm2 hn)).1
  have hy : -1 ≤ y :=
    (abs_le.mp (abs_le_one_of_norm2 (x := y) (y := x) (z := z) (w := w) (by linarith))).1
  have hz : -1 ≤ z :=
    (abs_le.mp (abs_le_one_of_norm2 (x := z) (y := x) (z := y) (w := w) (by linarith))).1
  have hw : -1 ≤ w :=
    (abs_le.mp (abs_le_one_of_norm2 (x := w) (y := x) (z := y) (w := z) (by linarith))).1
  have e : (1 : ℝ) / 65534 ≤ 1 / 32767 := by norm_num
  refine ⟨hp, ?_, ?_, ?_, ?_⟩
  · rw [hp]; exact le_trans (decode_round_close hx) e
  · rw [hp]; exact le_trans (decode_round_close hy) e
  · rw [hp]; exact le_trans (decode_round_close hz) e
  · rw [hp]; exact le_trans (decode_round_close hw) e

/-- Witness for C1 at the unit quaternion `(0, 0, 0, 1)`. -/
theorem pack_unpack_roundtrip_witness :
    ((0 : ℝ) ^ 2 + 0 ^ 2 + 0 ^ 2 + 1 ^ 2 = 1)
      ∧ |(quaternion_unpack (quaternion_pack (0 : ℝ) 0 0 1) : Quat4 ℝ).w - 1| ≤ 1 / 32767 :=
  ⟨by norm_num, (pack_unpack_roundtrip 0 0 0 1 (by norm_num)).2.2.2.2⟩

/-- C3. For every signed 16-bit lane the decode `max(lane/32767, -1)` lies in `[-1, 1]` and
equals the two-sided `clamp(lane/32767, -1, 1)` of the data model; lane `-32768` decodes to
exactly `-1` and lane `32767` to exactly `1`; `unpack` returns this decode of each lane. -/
theorem decode_refines_clamp (lane : Int) (h : isShort lane) :
    -1 ≤ (decode lane : ℝ) ∧ (decode lane : ℝ) ≤ 1
      ∧ (decode lane : ℝ) = decode_spec lane
      ∧ (decode (-32768) : ℝ) = -1 ∧ (decode 32767 : ℝ) = 1
      ∧ ∀ q : Quaternion, (quaternion_unpack q : Quat4 ℝ)
          = ⟨decode q.q0, decode q.q1, decode q.q2, decode q.q3⟩ := by
  obtain ⟨h1, h2⟩ := h
  have hle : (lane : ℝ) / 32767 ≤ 1 := by
    rw [div_le_iff₀ (by norm_num)]
    have : ((lane : Int) : ℝ) ≤ ((32767 : Int) : ℝ) := by exact_mod_cast h2
    push_cast at this
    linarith
  refine ⟨?_, ?_, ?_, ?_, ?_, ?_⟩
  · exact le_max_right _ _
  · exact max_le hle (by norm_num)
  · simp only [decode, decode_spec, luaui_maxf, min_eq_left hle]
    exact max_comm _ _
  · simp only [decode, luaui_maxf]
    norm_num
  · simp only [decode, luaui_maxf]
    norm_num
  · intro q
    rfl

/-- Witness for C3 at the lane `-32768`. -/
theorem decode_refines_clamp_witness :
    isShort (-32768) ∧ (decode (-32768) : ℝ) = decode_spec (-32768) :=
  ⟨by decide, (decode_refines_clamp (-32768) (by decide)).2.2.1⟩

/-! ## Effect of quantization on products of components -/

/-- Products of two components move by less than `1/16000` under quantization. -/
theorem prod_close (a b a' b' : ℝ) (ha : |a| ≤ 1) (hb : |b| ≤ 1)
    (ha' : |a' - a| ≤ 1 / 65534) (hb' : |b' - b| ≤ 1 / 65534) :
    |a' * b' - a * b| ≤ 1 / 16000 := by
  have e : a' * b' - a * b = (a' - a) * (b' - b) + (a' - a) * b + a * (b' - b) := by ring
  have h1 : |(a' - a) * (b' - b)| ≤ 1 / 65534 * (1 / 65534) := by
    rw [abs_mul]
    exact mul_le_mul ha' hb' (abs_nonneg _) (by norm_num)
  have h2 : |(a' - a) * b| ≤ 1 / 65534 * 1 := by
    rw [abs_mul]
    exact mul_le_mul ha' hb (abs_nonneg _) (by norm_num)
  have h3 : |a * (b' - b)| ≤ 1 * (1 / 65534) := by
    rw [abs_mul]
    exact mul_le_mul ha hb' (abs_nonneg _) (by norm_num)
  rw [e]
  refine le_trans (abs_add_three _ _ _) ?_
  norm_num at h1 h2 h3 ⊢
  linarith

/-- Closed form of the rotation of a vector by a quaternion. -/
theorem rotate_closed (x y z w : ℝ) (a : Vector3 ℝ) :
    rotate ⟨x, y, z, w⟩ a
      = ⟨(w * w + x * x - y * y - z * z) * a.x + 2 * (x * y - w * z) * a.y
            + 2 * (x * z + w * y) * a.z,
         2 * (x * y + w * z) * a.x + (w * w - x * x + y * y - z * z) * a.y
            + 2 * (y * z - w * x) * a.z,
         2 * (x * z - w * y) * a.x + 2 * (y * z + w * x) * a.y
            + (w * w - x * x - y * y + z * z) * a.z⟩ := by
  simp only [rotate, Quat4.mul, Quat4.conj, Vector3.mk.injEq]
  refine ⟨?_, ?_, ?_⟩ <;> ring

/-- Each component of a unit vector is at most `1` in absolute value. -/
theorem abs_le_one_of_unit {a b c : ℝ} (h : a * a + b * b + c * c = 1) : |a| ≤ 1 := by
  rw [abs_le]
  constructor <;> nlinarith [mul_self_nonneg b, mul_self_nonneg c, mul_self_nonneg (a - 1),
    mul_self_nonneg (a + 1)]

/-- A combination of three unit-vector components with coefficients bounded by `1/4000`
stays below `1e-3`. -/
theorem combo_close {A B C ax ay az : ℝ} (hA : |A| ≤ 1 / 4000) (hB : |B| ≤ 1 / 4000)
    (hC : |C| ≤ 1 / 4000) (hax : |ax| ≤ 1) (hay : |ay| ≤ 1) (haz : |az| ≤ 1) :
    |A * ax + B * ay + C * az| ≤ 1e-3 := by
  have t1 : |A * ax| ≤ 1 / 4000 * 1 := by
    rw [abs_mul]
    exact mul_le_mul hA hax (abs_nonneg _) (by norm_num)
  have t2 : |B * ay| ≤ 1 / 4000 * 1 := by
    rw [abs_mul]
    exact mul_le_mul hB hay (abs_nonneg _) (by norm_num)
  have t3 : |C * az| ≤ 1 / 4000 * 1 := by
    rw [abs_mul]
    exact mul_le_mul hC haz (abs_nonneg _) (by norm_num)
  refine le_trans (abs_add_three _ _ _) ?_
  norm_num at t1 t2 t3 ⊢
  linarith only [t1, t2, t3]

/-- Four signed terms, each bounded by `1/16000`, sum to at most `1/4000`. -/
theorem four_close {p1 p2 p3 p4 : ℝ} (h1 : |p1| ≤ 1 / 16000) (h2 : |p2| ≤ 1 / 16000)
    (h3 : |p3| ≤ 1 / 16000) (h4 : |p4| ≤ 1 / 16000) :
    |p1 + p2 - p3 - p4| ≤ 1 / 4000 ∧ |p1 - p2 + p3 - p4| ≤ 1 / 4000
      ∧ |p1 - p2 - p3 + p4| ≤ 1 / 4000 := by
  rw [abs_le] at h1 h2 h3 h4
  refine ⟨abs_le.mpr ⟨?_, ?_⟩, abs_le.mpr ⟨?_, ?_⟩, abs_le.mpr ⟨?_, ?_⟩⟩ <;>
    linarith only [h1.1, h1.2, h2.1, h2.2, h3.1, h3.2, h4.1, h4.2]

/-- Twice the sum or the difference of two terms bounded by `1/16000` is at most `1/4000`. -/
theorem two_close {p1 p2 : ℝ} (h1 : |p1| ≤ 1 / 16000) (h2 : |p2| ≤ 1 / 16000) :
    |2 * (p1 + p2)| ≤ 1 / 4000 ∧ |2 * (p1 - p2)| ≤ 1 / 4000 := by
  rw [abs_le] at h1 h2
  refine ⟨abs_le.mpr ⟨?_, ?_⟩, abs_le.mpr ⟨?_, ?_⟩⟩ <;>
    linarith only [h1.1, h1.2, h2.1, h2.2]

/-- Quantizing a unit quaternion moves each component of the rotation of a unit vector by at
most `1e-3`. -/
theorem rotate_quantized_close (q : Quat4 ℝ) (a : Vector3 ℝ) (h : q.norm2 = 1)
    (ha : a.dot a = 1) :
    |(rotate (decodeQuat (pushQuat q)) a).x - (rotate q a).x| ≤ 1e-3
      ∧ |(rotate (decodeQuat (pushQuat q)) a).y - (rotate q a).y| ≤ 1e-3
      ∧ |(rotate (decodeQuat (pushQuat q)) a).z - (rotate q a).z| ≤ 1e-3 := by
  obtain ⟨x, y, z, w⟩ := q
  obtain ⟨ax, ay, az⟩ := a
  simp only [Quat4.norm2] at h
  simp only [Vector3.dot] at ha
  have hax := abs_le_one_of_unit ha
  have hay := abs_le_one_of_unit (a := ay) (b := ax) (c := az) (by linarith only [ha])
  have haz := abs_le_one_of_unit (a := az) (b := ax) (c := ay) (by linarith only [ha])
  have hx := abs_le_one_of_norm2 h
  have hy := abs_le_one_of_norm2 (x := y) (y := x) (z := z) (w := w) (by linarith only [h])
  have hz := abs_le_one_of_norm2 (x := z) (y := x) (z := y) (w := w) (by linarith only [h])
  have hw := abs_le_one_of_norm2 (x := w) (y := x) (z := y) (w := z) (by linarith only [h])
  have cx := decode_round_close (abs_le.mp hx).1
  have cy := decode_round_close (abs_le.mp hy).1
  have cz := decode_round_close (abs_le.mp hz).1
  have cw := decode_round_close (abs_le.mp hw).1
  simp only [decodeQuat, pushQuat, lua_pushquaternion, rotate_closed]
  generalize (decode (round (x * 32767)) : ℝ) = x' at cx
  generalize (decode (round (y * 32767)) : ℝ) = y' at cy
  generalize (decode (round (z * 32767)) : ℝ) = z' at cz
  generalize (decode (round (w * 32767)) : ℝ) = w' at cw
  have pxx := prod_close x x x' x' hx hx cx cx
  have pyy := prod_close y y y' y' hy hy cy cy
  have pzz := prod_close z z z' z' hz hz cz cz
  have pww := prod_close w w w' w' hw hw cw cw
  have pxy := prod_close x y x' y' hx hy cx cy
  have pxz := prod_close x z x' z' hx hz cx cz
  have pyz := prod_close y z y' z' hy hz cy cz
  have pwx := prod_close w x w' x' hw hx cw cx
  have pwy := prod_close w y w' y' hw hy cw cy
  have pwz := prod_close w z w' z' hw hz cw cz
  obtain ⟨d1, d2, d3⟩ := four_close pww pxx pyy pzz
  refine ⟨?_, ?_, ?_⟩
  · have e : (w' * w' + x' * x' - y' * y' - z' * z') * ax + 2 * (x' * y' - w' * z') * ay
          + 2 * (x' * z' + w' * y') * az
        - ((w * w + x * x - y * y - z * z) * ax + 2 * (x * y - w * z) * ay
          + 2 * (x * z + w * y) * az)
        = ((w' * w' - w * w) + (x' * x' - x * x) - (y' * y' - y * y) - (z' * z' - z * z)) * ax
          + (2 * ((x' * y' - x * y) - (w' * z' - w * z))) * ay
          + (2 * ((x' * z' - x * z) + (w' * y' - w * y))) * az := by ring
    rw [e]
    exact combo_close d1 (two_close pxy pwz).2 (two_close pxz pwy).1 hax hay haz
  · have e : 2 * (x' * y' + w' * z') * ax + (w' * w' - x' * x' + y' * y' - z' * z') * ay
          + 2 * (y' * z' - w' * x') * az
        - (2 * (x * y + w * z) * ax + (w * w - x * x + y * y - z * z) * ay
          + 2 * (y * z - w * x) * az)
        = (2 * ((x' * y' - x * y) + (w' * z' - w * z))) * ax
          + ((w' * w' - w * w) - (x' * x' - x * x) + (y' * y' - y * y) - (z' * z' - z * z)) * ay
          + (2 * ((y' * z' - y * z) - (w' * x' - w * x))) * az := by ring
    rw [e]
    exact combo_close (two_close pxy pwz).1 d2 (two_close pyz pwx).2 hax hay haz
  · have e : 2 * (x' * z' - w' * y') * ax + 2 * (y' * z' + w' * x') * ay
          + (w' * w' - x' * x' - y' * y' + z' * z') * az
        - (2 * (x * z - w * y) * ax + 2 * (y * z + w * x) * ay
          + (w * w - x * x - y * y + z * z) * az)
        = (2 * ((x' * z' - x * z) - (w' * y' - w * y))) * ax
          + (2 * ((y' * z' - y * z) + (w' * x' - w * x))) * ay
          + ((w' * w' - w * w) - (x' * x' - x * x) - (y' * y' - y * y) + (z' * z' - z * z))
            * az := by
      ring
    rw [e]
    exact combo_close (two_close pxz pwy).2 (two_close pyz pwx).1 d3 hax hay haz

/-! ## Shortest-arc rotation between two vectors: C4 -/

/-- Closed form of the rotation by a quaternion whose four components are divided by `L`. -/
theorem rotate_div (x y z w L : ℝ) (a : Vector3 ℝ) (hL : L ≠ 0) :
    rotate ⟨x / L, y / L, z / L, w / L⟩ a
      = ⟨((w * w + x * x - y * y - z * z) * a.x + 2 * (x * y - w * z) * a.y
            + 2 * (x * z + w * y) * a.z) / (L * L),
         (2 * (x * y + w * z) * a.x + (w * w - x * x + y * y - z * z) * a.y
            + 2 * (y * z - w * x) * a.z) / (L * L),
         (2 * (x * z - w * y) * a.x + 2 * (y * z + w * x) * a.y
            + (w * w - x * x - y * y + z * z) * a.z) / (L * L)⟩ := by
  simp only [rotate, Quat4.mul, Quat4.conj, Vector3.mk.injEq]
  refine ⟨?_, ?_, ?_⟩ <;> field_simp <;> ring

/-- A 4-tuple divided by its own length has squared norm `1`. -/
theorem norm2_div (x y z w L : ℝ) (hL : L ≠ 0) (h : x * x + y * y + z * z + w * w = L * L) :
    (⟨x / L, y / L, z / L, w / L⟩ : Quat4 ℝ).norm2 = 1 := by
  simp only [Quat4.norm2]
  field_simp
  linear_combination h

/-- Polynomial identities behind `between`: for unit `a`, `b` the tuple `(cross(a,b), 1 + dot)`
has squared length `2 * (1 + dot)` and its unnormalized rotation sends `a` to that multiple
of `b`. -/
theorem between_core (ax ay az bx b_y bz : ℝ)
    (ha : ax * ax + ay * ay + az * az = 1) (hb : bx * bx + b_y * b_y + bz * bz = 1) :
    (ay * bz - az * b_y) * (ay * bz - az * b_y) + (az * bx - ax * bz) * (az * bx - ax * bz)
        + (ax * b_y - ay * bx) * (ax * b_y - ay * bx)
        + (1 + (ax * bx + ay * b_y + az * bz)) * (1 + (ax * bx + ay * b_y + az * bz))
      = 2 * (1 + (ax * bx + ay * b_y + az * bz))
    ∧ ((1 + (ax * bx + ay * b_y + az * bz)) * (1 + (ax * bx + ay * b_y + az * bz))
          + (ay * bz - az * b_y) * (ay * bz - az * b_y)
          - (az * bx - ax * bz) * (az * bx - ax * bz)
          - (ax * b_y - ay * bx) * (ax * b_y - ay * bx)) * ax
        + 2 * ((ay * bz - az * b_y) * (az * bx - ax * bz)
          - (1 + (ax * bx + ay * b_y + az * bz)) * (ax * b_y - ay * bx)) * ay
        + 2 * ((ay * bz - az * b_y) * (ax * b_y - ay * bx)
          + (1 + (ax * bx + ay * b_y + az * bz)) * (az * bx - ax * bz)) * az
      = bx * (2 * (1 + (ax * bx + ay * b_y + az * bz)))
    ∧ 2 * ((ay * bz - az * b_y) * (az * bx - ax * bz)
          + (1 + (ax * bx + ay * b_y + az * bz)) * (ax * b_y - ay * bx)) * ax
        + ((1 + (ax * bx + ay * b_y + az * bz)) * (1 + (ax * bx + ay * b_y + az * bz))
          - (ay * bz - az * b_y) * (ay * bz - az * b_y)
          + (az * bx - ax * bz) * (az * bx - ax * bz)
          - (ax * b_y - ay * bx) * (ax * b_y - ay * bx)) * ay
        + 2 * ((az * bx - ax * bz) * (ax * b_y - ay * bx)
          - (1 + (ax * bx + ay * b_y + az * bz)) * (ay * bz - az * b_y)) * az
      = b_y * (2 * (1 + (ax * bx + ay * b_y + az * bz)))
    ∧ 2 * ((ay * bz - az * b_y) * (ax * b_y - ay * bx)
          - (1 + (ax * bx + ay * b_y + az * bz)) * (az * bx - ax * bz)) * ax
        + 2 * ((az * bx - ax * bz) * (ax * b_y - ay * bx)
          + (1 + (ax * bx + ay * b_y + az * bz)) * (ay * bz - az * b_y)) * ay
        + ((1 + (ax * bx + ay * b_y + az * bz)) * (1 + (ax * bx + ay * b_y + az * bz))
          - (ay * bz - az * b_y) * (ay * bz - az * b_y)
          - (az * bx - ax * bz) * (az * bx - ax * bz)
          + (ax * b_y - ay * bx) * (ax * b_y - ay * bx)) * az
      = bz * (2 * (1 + (ax * bx + ay * b_y + az * bz))) := by
  refine ⟨?_, ?_, ?_, ?_⟩
  · linear_combination (bx * bx + b_y * b_y + bz * bz) * ha + hb
  · linear_combination (-(bx * bx + b_y * b_y + bz * bz) * ax
      + 2 * (1 + (ax * bx + ay * b_y + az * bz)) * bx) * ha + (-ax) * hb
  · linear_combination (-(bx * bx + b_y * b_y + bz * bz) * ay
      + 2 * (1 + (ax * bx + ay * b_y + az * bz)) * b_y) * ha + (-ay) * hb
  · linear_combination (-(bx * bx + b_y * b_y + bz * bz) * az
      + 2 * (1 + (ax * bx + ay * b_y + az * bz)) * bz) * ha + (-az) * hb

/-- Over exact arithmetic `between` normalizes `(cross(a,b), 1 + dot(a,b))` by a positive
length, and the unit quaternion so obtained rotates `a` onto `b`. -/
theorem between_work_spec (a b : Vector3 ℝ) (ha : a.dot a = 1) (hb : b.dot b = 1)
    (hlo : -0.99999 ≤ a.dot b) (hhi : a.dot b ≤ 0.99999) :
    ∃ L : ℝ,
      L = Real.sqrt ((a.cross b).x ^ 2 + (a.cross b).y ^ 2 + (a.cross b).z ^ 2
            + (1 + a.dot b) ^ 2)
      ∧ 0 < L
      ∧ quaternion_between_work a b
          = ⟨(a.cross b).x / L, (a.cross b).y / L, (a.cross b).z / L, (1 + a.dot b) / L⟩
      ∧ (quaternion_between_work a b).norm2 = 1
      ∧ rotate (quaternion_between_work a b) a = b := by
  obtain ⟨ax, ay, az⟩ := a
  obtain ⟨bx, b_y, bz⟩ := b
  simp only [Vector3.dot] at ha hb hlo hhi
  obtain ⟨hS, hx, hy, hz⟩ := between_core ax ay az bx b_y bz ha hb
  have hd : 0 < 1 + (ax * bx + ay * b_y + az * bz) := by norm_num at hlo; linarith
  have hpos : 0 < 2 * (1 + (ax * bx + ay * b_y + az * bz)) := by linarith
  have hL : 0 < Real.sqrt (2 * (1 + (ax * bx + ay * b_y + az * bz))) := Real.sqrt_pos.mpr hpos
  have hLL := Real.mul_self_sqrt hpos.le
  have hbr : ¬ (ax * bx + ay * b_y + az * bz > 0.99999
      ∨ ax * bx + ay * b_y + az * bz < -0.99999) := by
    push_neg
    exact ⟨hhi, hlo⟩
  have hw : quaternion_between_work ⟨ax, ay, az⟩ ⟨bx, b_y, bz⟩
      = ⟨(ay * bz - az * b_y) / Real.sqrt (2 * (1 + (ax * bx + ay * b_y + az * bz))),
         (az * bx - ax * bz) / Real.sqrt (2 * (1 + (ax * bx + ay * b_y + az * bz))),
         (ax * b_y - ay * bx) / Real.sqrt (2 * (1 + (ax * bx + ay * b_y + az * bz))),
         (1 + (ax * bx + ay * b_y + az * bz))
            / Real.sqrt (2 * (1 + (ax * bx + ay * b_y + az * bz)))⟩ := by
    simp only [quaternion_between_work, if_neg hbr, sqrtf_real, hS]
  refine ⟨Real.sqrt (2 * (1 + (ax * bx + ay * b_y + az * bz))), ?_, hL, ?_, ?_, ?_⟩
  · congr 1
    simp only [Vector3.cross, Vector3.dot]
    linear_combination -hS
  · rw [hw]
    simp only [Vector3.cross, Vector3.dot]
  · rw [hw]
    exact norm2_div _ _ _ _ _ hL.ne' (by rw [hLL, hS])
  · rw [hw, rotate_div _ _ _ _ _ _ hL.ne', hLL, hx, hy, hz]
    simp only [Vector3.mk.injEq]
    refine ⟨?_, ?_, ?_⟩ <;> field_simp

/-- C4. For unit vectors `a`, `b` with `dot(a,b)` in `[-0.99999, 0.99999]`, `between(a,b)` hands
to the quantizer the tuple `(cross(a,b), 1 + dot(a,b))` divided by its length `L`; `L` is
strictly positive, the tuple is a unit quaternion, and rotating `a` by it (`q * a * conj q`)
gives exactly `b`. Rotating `a` by the compressed result stays within `1e-3` of `b` in each
component. -/
theorem between_rotates (a b : Vector3 ℝ) (ha : a.dot a = 1) (hb : b.dot b = 1)
    (hlo : -0.99999 ≤ a.dot b) (hhi : a.dot b ≤ 0.99999) :
    (∃ L : ℝ,
        L = Real.sqrt ((a.cross b).x ^ 2 + (a.cross b).y ^ 2 + (a.cross b).z ^ 2
              + (1 + a.dot b) ^ 2)
        ∧ 0 < L
        ∧ quaternion_between_work a b
            = ⟨(a.cross b).x / L, (a.cross b).y / L, (a.cross b).z / L, (1 + a.dot b) / L⟩)
      ∧ (quaternion_between_work a b).norm2 = 1
      ∧ rotate (quaternion_between_work a b) a = b
      ∧ |(rotate (decodeQuat (quaternion_between a b)) a).x - b.x| ≤ 1e-3
      ∧ |(rotate (decodeQuat (quaternion_between a b)) a).y - b.y| ≤ 1e-3
      ∧ |(rotate (decodeQuat (quaternion_between a b)) a).z - b.z| ≤ 1e-3 := by
  obtain ⟨L, h1, h2, h3, h4, h5⟩ := between_work_spec a b ha hb hlo hhi
  obtain ⟨qx, qy, qz⟩ := rotate_quantized_close (quaternion_between_work a b) a h4 ha
  rw [h5] at qx qy qz
  exact ⟨⟨L, h1, h2, h3⟩, h4, h5, qx, qy, qz⟩

/-- Witness for C4 at `a = (1, 0, 0)`, `b = (0, 1, 0)`. -/
theorem between_rotates_witness :
    rotate (quaternion_between_work (⟨1, 0, 0⟩ : Vector3 ℝ) ⟨0, 1, 0⟩) ⟨1, 0, 0⟩
      = (⟨0, 1, 0⟩ : Vector3 ℝ) :=
  (between_rotates (⟨1, 0, 0⟩ : Vector3 ℝ) ⟨0, 1, 0⟩
    (by norm_num [Vector3.dot]) (by norm_num [Vector3.dot]) (by norm_num [Vector3.dot])
    (by norm_num [Vector3.dot])).2.2.1

/-! ## Forward direction: C10 -/

/-- A real within half a unit of an integer rounds to that integer. -/
theorem round_eq_of_bounds {x : ℝ} {n : ℤ} (h1 : (n : ℝ) - 1 / 2 ≤ x) (h2 : x < n + 1 / 2) :
    round x = n := by
  rw [round_eq, Int.floor_eq_iff]
  constructor <;> linarith

/-- The lane of `√2 / 2`. -/
theorem round_sqrt_two_half : round (Real.sqrt 2 / 2 * 32767) = 23170 := by
  have h1 : (1.4142 : ℝ) < Real.sqrt 2 := by
    rw [Real.lt_sqrt (by norm_num)]
    norm_num
  have h2 : Real.sqrt 2 < 1.41425 := by
    rw [Real.sqrt_lt' (by norm_num)]
    norm_num
  apply round_eq_of_bounds
  · push_cast
    norm_num at h1 ⊢
    linarith
  · push_cast
    norm_num at h2 ⊢
    linarith

/-- On a unit quaternion the formula of `direction` is the rotation of `(0, 0, -1)`. -/
theorem direction_work_eq_rotate (q : Quat4 ℝ) (h : q.norm2 = 1) :
    direction_work q = rotate q ⟨0, 0, -1⟩ := by
  obtain ⟨x, y, z, w⟩ := q
  simp only [Quat4.norm2] at h
  simp only [direction_work, rotate, Quat4.mul, Quat4.conj, Vector3.mk.injEq]
  refine ⟨by ring, by ring, ?_⟩
  linear_combination h

/-- The tuple that `angleaxis(π/2, 0, 1, 0)` hands to the quantizer. -/
theorem angleaxis_work_quarter_y :
    quaternion_angleaxis_work (Real.pi / 2) 0 1 0
      = (⟨0, Real.sqrt 2 / 2, 0, Real.sqrt 2 / 2⟩ : Quat4 ℝ) := by
  have e : Real.pi / 2 * 0.5 = Real.pi / 4 := by ring
  simp only [quaternion_angleaxis_work, sinf_real, cosf_real, sqrtf_real, e,
    Real.sin_pi_div_four, Real.cos_pi_div_four]
  norm_num

/-- The compressed quaternion `angleaxis(π/2, 0, 1, 0)`. -/
theorem angleaxis_quarter_y :
    quaternion_angleaxis (Real.pi / 2) 0 1 0 = ⟨0, 23170, 0, 23170⟩ := by
  simp only [quaternion_angleaxis, angleaxis_work_quarter_y, pushQuat, lua_pushquaternion,
    round_sqrt_two_half, zero_mul, round_zero]

/-- Through the quantizer the value is approximate: the first component of
`direction(angleaxis(π/2, 0, 1, 0))` is `-2 * (23170/32767)^2`, not exactly `-1`. -/
theorem direction_angleaxis_quarter_y_ne :
    (quaternion_direction (quaternion_angleaxis (Real.pi / 2) 0 1 0) : Vector3 ℝ)
      ≠ ⟨-1, 0, 0⟩ := by
  rw [angleaxis_quarter_y]
  simp only [quaternion_direction, direction_work, decodeQuat, decode, luaui_maxf, ne_eq,
    Vector3.mk.injEq, not_and]
  intro h
  norm_num at h

/-- C10. For every compressed quaternion whose decoded components form a unit quaternion,
`direction(q)` is the rotation of `(0, 0, -1)` by it, the vector part of
`q * (0,0,-1) * conj q`. In particular the tuple that `angleaxis(π/2, 0, 1, 0)` hands to the
quantizer has direction exactly `(-1, 0, 0)`, and `direction(angleaxis(π/2, 0, 1, 0))`, taken
through the quantizer, is `(-1, 0, 0)` to within `1/32767` in each component. -/
theorem direction_is_rotated_forward :
    (∀ q : Quaternion, (decodeQuat q : Quat4 ℝ).norm2 = 1 →
        (quaternion_direction q : Vector3 ℝ) = rotate (decodeQuat q) ⟨0, 0, -1⟩)
      ∧ direction_work (quaternion_angleaxis_work (Real.pi / 2) 0 1 0)
          = (⟨-1, 0, 0⟩ : Vector3 ℝ)
      ∧ |(quaternion_direction (quaternion_angleaxis (Real.pi / 2) 0 1 0) : Vector3 ℝ).x - (-1)|
          ≤ 1 / 32767
      ∧ (quaternion_direction (quaternion_angleaxis (Real.pi / 2) 0 1 0) : Vector3 ℝ).y = 0
      ∧ |(quaternion_direction (quaternion_angleaxis (Real.pi / 2) 0 1 0) : Vector3 ℝ).z - 0|
          ≤ 1 / 32767 := by
  refine ⟨?_, ?_, ?_, ?_, ?_⟩
  · intro q h
    exact direction_work_eq_rotate _ h
  · rw [angleaxis_work_quarter_y]
    simp only [direction_work, Vector3.mk.injEq]
    have h2 : Real.sqrt 2 * Real.sqrt 2 = 2 := Real.mul_self_sqrt (by norm_num)
    refine ⟨?_, by ring, ?_⟩
    · linear_combination (-1 / 2) * h2
    · linear_combination (1 / 2) * h2
  · rw [angleaxis_quarter_y]
    simp only [quaternion_direction, direction_work, decodeQuat, decode, luaui_maxf]
    norm_num [abs_le]
  · rw [angleaxis_quarter_y]
    simp only [quaternion_direction, direction_work, decodeQuat, decode, luaui_maxf]
    norm_num
  · rw [angleaxis_quarter_y]
    simp only [quaternion_direction, direction_work, decodeQuat, decode, luaui_maxf]
    norm_num [abs_le]

/-- Witness for C10: the compressed identity `(0, 0, 0, 32767)` decodes to a unit quaternion,
and its direction is the rotated forward vector. -/
theorem direction_is_rotated_forward_witness :
    (decodeQuat ⟨0, 0, 0, 32767⟩ : Quat4 ℝ).norm2 = 1
      ∧ (quaternion_direction ⟨0, 0, 0, 32767⟩ : Vector3 ℝ)
          = rotate (decodeQuat ⟨0, 0, 0, 32767⟩) ⟨0, 0, -1⟩ :=
  ⟨by norm_num [decodeQuat, decode, luaui_maxf, Quat4.norm2],
   direction_is_rotated_forward.1 ⟨0, 0, 0, 32767⟩
     (by norm_num [decodeQuat, decode, luaui_maxf, Quat4.norm2])⟩

/-! ## Spherical interpolation: C6, C7 -/

/-- Quantizing a decoded lane and decoding it again gives the same value. -/
theorem decode_round_decode (lane : Int) :
    (decode (round ((decode lane : ℝ) * 32767)) : ℝ) = decode lane := by
  by_cases h : -32767 ≤ lane
  · rw [decode_eq_of_ge h]
    have e : (lane : ℝ) / 32767 * 32767 = ((lane : Int) : ℝ) := by field_simp
    rw [e, round_intCast, decode_eq_of_ge h]
  · push_neg at h
    have hl : (lane : ℝ) ≤ -32767 := by
      have : ((lane : Int) : ℝ) ≤ ((-32767 : Int) : ℝ) := by exact_mod_cast h.le
      push_cast at this
      exact this
    have hd : (decode lane : ℝ) = -1 := by
      unfold decode luaui_maxf
      apply max_eq_right
      rw [div_le_iff₀ (by norm_num)]
      linarith
    rw [hd]
    have e : (-1 : ℝ) * 32767 = ((-32767 : Int) : ℝ) := by push_cast; norm_num
    rw [e, round_intCast]
    unfold decode luaui_maxf
    push_cast
    norm_num

/-- Quantizing the negation of a decoded 16-bit lane and decoding it gives the negation. -/
theorem decode_round_neg_decode (lane : Int) (h : lane ≤ 32767) :
    (decode (round (-(decode lane : ℝ) * 32767)) : ℝ) = -decode lane := by
  by_cases h' : -32767 ≤ lane
  · rw [decode_eq_of_ge h']
    have e : -((lane : ℝ) / 32767) * 32767 = ((-lane : Int) : ℝ) := by push_cast; field_simp
    rw [e, round_intCast, decode_eq_of_ge (by omega)]
    push_cast
    ring
  · push_neg at h'
    have hl : (lane : ℝ) ≤ -32767 := by
      have : ((lane : Int) : ℝ) ≤ ((-32767 : Int) : ℝ) := by exact_mod_cast h'.le
      push_cast at this
      exact this
    have hd : (decode lane : ℝ) = -1 := by
      unfold decode luaui_maxf
      apply max_eq_right
      rw [div_le_iff₀ (by norm_num)]
      linarith
    rw [hd]
    have e : -(-1 : ℝ) * 32767 = ((32767 : Int) : ℝ) := by push_cast; norm_num
    rw [e, round_intCast]
    unfold decode luaui_maxf
    push_cast
    norm_num

/-- The early return of `slerp`: with `|dot| ≥ 1` the first operand comes back. -/
theorem slerp_early (q r : Quaternion) (t : ℝ)
    (h : 1 ≤ |(decodeQuat q : Quat4 ℝ).dot (decodeQuat r)|) :
    quaternion_slerp q r t = q := by
  simp only [decodeQuat, Quat4.dot] at h
  simp only [quaternion_slerp, ge_iff_le, h, if_true]

/-- The weighted-sum branch of `slerp` for a non-negative dot product `d`. -/
theorem slerp_trig_nonneg (q r : Quaternion) (t d : ℝ)
    (hd : (decodeQuat q : Quat4 ℝ).dot (decodeQuat r) = d)
    (h0 : 0 ≤ d) (h1 : |d| < 1) (h2 : 0.001 ≤ Real.sqrt (1 - d * d)) :
    quaternion_slerp q r t
      = lua_pushquaternion
          ((decode q.q0 : ℝ) * (Real.sin ((1 - t) * Real.arccos d) / Real.sqrt (1 - d * d))
            + decode r.q0 * (Real.sin (t * Real.arccos d) / Real.sqrt (1 - d * d)))
          ((decode q.q1 : ℝ) * (Real.sin ((1 - t) * Real.arccos d) / Real.sqrt (1 - d * d))
            + decode r.q1 * (Real.sin (t * Real.arccos d) / Real.sqrt (1 - d * d)))
          ((decode q.q2 : ℝ) * (Real.sin ((1 - t) * Real.arccos d) / Real.sqrt (1 - d * d))
            + decode r.q2 * (Real.sin (t * Real.arccos d) / Real.sqrt (1 - d * d)))
          ((decode q.q3 : ℝ) * (Real.sin ((1 - t) * Real.arccos d) / Real.sqrt (1 - d * d))
            + decode r.q3 * (Real.sin (t * Real.arccos d) / Real.sqrt (1 - d * d))) := by
  simp only [decodeQuat, Quat4.dot] at hd
  have hs : ¬ |Real.sqrt (1 - d * d)| < 0.001 := by
    rw [abs_of_nonneg (Real.sqrt_nonneg _)]
    exact not_lt.mpr h2
  simp only [quaternion_slerp, hd, ge_iff_le, not_le.mpr h1, if_false, not_lt.mpr h0,
    decide_False, sqrtf_real, acosf_real, sinf_real, hs, Bool.false_eq_true]

/-- The weighted-sum branch of `slerp` for a negative dot product `d`: the components of the
first operand and the dot product are multiplied by `-1`. -/
theorem slerp_trig_neg (q r : Quaternion) (t d : ℝ)
    (hd : (decodeQuat q : Quat4 ℝ).dot (decodeQuat r) = d)
    (h0 : d < 0) (h1 : |d| < 1) (h2 : 0.001 ≤ Real.sqrt (1 - d * d)) :
    quaternion_slerp q r t
      = lua_pushquaternion
          ((decode q.q0 : ℝ) * -1
              * (Real.sin ((1 - t) * Real.arccos (-d)) / Real.sqrt (1 - d * d))
            + decode r.q0 * (Real.sin (t * Real.arccos (-d)) / Real.sqrt (1 - d * d)))
          ((decode q.q1 : ℝ) * -1
              * (Real.sin ((1 - t) * Real.arccos (-d)) / Real.sqrt (1 - d * d))
            + decode r.q1 * (Real.sin (t * Real.arccos (-d)) / Real.sqrt (1 - d * d)))
          ((decode q.q2 : ℝ) * -1
              * (Real.sin ((1 - t) * Real.arccos (-d)) / Real.sqrt (1 - d * d))
            + decode r.q2 * (Real.sin (t * Real.arccos (-d)) / Real.sqrt (1 - d * d)))
          ((decode q.q3 : ℝ) * -1
              * (Real.sin ((1 - t) * Real.arccos (-d)) / Real.sqrt (1 - d * d))
            + decode r.q3 * (Real.sin (t * Real.arccos (-d)) / Real.sqrt (1 - d * d))) := by
  simp only [decodeQuat, Quat4.dot] at hd
  have e1 : d * -1 = -d := by ring
  have e2 : 1 - -d * -d = 1 - d * d := by ring
  have hs : ¬ |Real.sqrt (1 - d * d)| < 0.001 := by
    rw [abs_of_nonneg (Real.sqrt_nonneg _)]
    exact not_lt.mpr h2
  simp only [quaternion_slerp, hd, ge_iff_le, not_le.mpr h1, if_false, h0,
    decide_True, sqrtf_real, acosf_real, sinf_real, e1, e2, hs, if_true]

/-- The two weights of `slerp` at the endpoints `t = 0` and `t = 1`. -/
theorem slerp_weights (d : ℝ) (h2 : 0.001 ≤ Real.sqrt (1 - d * d)) :
    Real.sin ((1 - 0) * Real.arccos d) / Real.sqrt (1 - d * d) = 1
      ∧ Real.sin (0 * Real.arccos d) / Real.sqrt (1 - d * d) = 0
      ∧ Real.sin ((1 - 1) * Real.arccos d) / Real.sqrt (1 - d * d) = 0
      ∧ Real.sin (1 * Real.arccos d) / Real.sqrt (1 - d * d) = 1 := by
  have hpos : 0 < Real.sqrt (1 - d * d) := lt_of_lt_of_le (by norm_num) h2
  have e : Real.sin (Real.arccos d) = Real.sqrt (1 - d * d) := by
    rw [Real.sin_arccos, pow_two]
  refine ⟨?_, ?_, ?_, ?_⟩
  · rw [sub_zero, one_mul, e, div_self hpos.ne']
  · rw [zero_mul, Real.sin_zero, zero_div]
  · rw [sub_self, zero_mul, Real.sin_zero, zero_div]
  · rw [one_mul, e, div_self hpos.ne']

/-- C6, as stated, fails: `q = (0,0,0,1)` and `r = (0,0,0,-1)` are unit quaternions, their dot
product is `-1`, `slerp(q, r, 1)` is `q` by the early return, and its `w` differs from that of
`r` by `2`. -/
theorem slerp_endpoint_one_fails :
    (decodeQuat ⟨0, 0, 0, 32767⟩ : Quat4 ℝ).norm2 = 1
      ∧ (decodeQuat ⟨0, 0, 0, -32767⟩ : Quat4 ℝ).norm2 = 1
      ∧ ¬ |(quaternion_unpack (quaternion_slerp ⟨0, 0, 0, 32767⟩ ⟨0, 0, 0, -32767⟩ (1 : ℝ))
              : Quat4 ℝ).w
            - (quaternion_unpack ⟨0, 0, 0, -32767⟩ : Quat4 ℝ).w| ≤ 1 / 32767 := by
  have hd : (1 : ℝ) ≤ |(decodeQuat ⟨0, 0, 0, 32767⟩ : Quat4 ℝ).dot
      (decodeQuat ⟨0, 0, 0, -32767⟩)| := by
    norm_num [decodeQuat, decode, luaui_maxf, Quat4.dot]
  refine ⟨?_, ?_, ?_⟩
  · norm_num [decodeQuat, decode, luaui_maxf, Quat4.norm2]
  · norm_num [decodeQuat, decode, luaui_maxf, Quat4.norm2]
  · rw [slerp_early _ _ _ hd]
    norm_num [quaternion_unpack, luaui_maxf]

/-- C6, amended. For unit quaternions `q`, `r` with dot product `d` and
`sqrt(1 - d*d) ≥ 0.05`: `slerp(q, r, 1)` equals `r`; `slerp(q, r, 0)` equals `q` when
`d ≥ 1e-5` and `-q` (all four components negated) when `d ≤ -1e-5`, and one of the two in
between; component by component within the quantization epsilon `1/32767`. The margins keep
the `float` code on the weighted-sum branch, with the sign of its dot product settled. -/
theorem slerp_endpoints (q r : Quaternion) (d : ℝ) (hq : q.valid)
    (_hqu : (decodeQuat q : Quat4 ℝ).norm2 = 1) (_hru : (decodeQuat r : Quat4 ℝ).norm2 = 1)
    (hd : (decodeQuat q : Quat4 ℝ).dot (decodeQuat r) = d)
    (h2 : 0.05 ≤ Real.sqrt (1 - d * d)) :
    Quat4.within (1 / 32767) (quaternion_unpack (quaternion_slerp q r (1 : ℝ)))
        (quaternion_unpack r)
      ∧ (1e-5 ≤ d →
          Quat4.within (1 / 32767) (quaternion_unpack (quaternion_slerp q r (0 : ℝ)))
            (quaternion_unpack q))
      ∧ (d ≤ -1e-5 →
          Quat4.within (1 / 32767) (quaternion_unpack (quaternion_slerp q r (0 : ℝ)))
            (quaternion_unpack q : Quat4 ℝ).neg)
      ∧ (Quat4.within (1 / 32767) (quaternion_unpack (quaternion_slerp q r (0 : ℝ)))
            (quaternion_unpack q)
          ∨ Quat4.within (1 / 32767) (quaternion_unpack (quaternion_slerp q r (0 : ℝ)))
            (quaternion_unpack q : Quat4 ℝ).neg) := by
  have hrefl : ∀ a b : Quat4 ℝ, a = b → Quat4.within (1 / 32767) a b := by
    intro a b h
    rw [h]
    simp only [Quat4.within, sub_self, abs_zero]
    norm_num
  have h2' : (0.001 : ℝ) ≤ Real.sqrt (1 - d * d) := le_trans (by norm_num) h2
  have hpos : 0 < 1 - d * d := by
    by_contra hn
    rw [Real.sqrt_eq_zero_of_nonpos (not_lt.mp hn)] at h2
    norm_num at h2
  have h1 : |d| < 1 := by
    rw [abs_lt]
    constructor <;> nlinarith
  have key : (quaternion_unpack (quaternion_slerp q r (1 : ℝ)) : Quat4 ℝ) = quaternion_unpack r
      ∧ (quaternion_unpack (quaternion_slerp q r (0 : ℝ)) : Quat4 ℝ)
          = if d < 0 then (quaternion_unpack q : Quat4 ℝ).neg else quaternion_unpack q := by
    by_cases h0 : d < 0
    · have e2 : 1 - -d * -d = 1 - d * d := by ring
      have hw := slerp_weights (-d) (by rw [e2]; exact h2')
      rw [e2] at hw
      obtain ⟨w1, w2, w3, w4⟩ := hw
      have e0 : ∀ a b : ℝ, a * -1 * 1 + b * 0 = -a := fun a b => by ring
      have e1 : ∀ a b : ℝ, a * -1 * 0 + b * 1 = b := fun a b => by ring
      rw [slerp_trig_neg q r 1 d hd h0 h1 h2', slerp_trig_neg q r 0 d hd h0 h1 h2', if_pos h0]
      simp only [w1, w2, w3, w4, e0, e1]
      obtain ⟨⟨-, a0⟩, ⟨-, a1⟩, ⟨-, a2⟩, ⟨-, a3⟩⟩ := hq
      constructor
      · simp only [quaternion_unpack, lua_pushquaternion, Quat4.mk.injEq]
        exact ⟨decode_round_decode _, decode_round_decode _, decode_round_decode _,
          decode_round_decode _⟩
      · simp only [quaternion_unpack, lua_pushquaternion, Quat4.neg, Quat4.mk.injEq]
        exact ⟨decode_round_neg_decode _ a0, decode_round_neg_decode _ a1,
          decode_round_neg_decode _ a2, decode_round_neg_decode _ a3⟩
    · obtain ⟨w1, w2, w3, w4⟩ := slerp_weights d h2'
      have e0 : ∀ a b : ℝ, a * 1 + b * 0 = a := fun a b => by ring
      have e1 : ∀ a b : ℝ, a * 0 + b * 1 = b := fun a b => by ring
      rw [slerp_trig_nonneg q r 1 d hd (not_lt.mp h0) h1 h2',
        slerp_trig_nonneg q r 0 d hd (not_lt.mp h0) h1 h2', if_neg h0]
      simp only [w1, w2, w3, w4, e0, e1]
      constructor
      · simp only [quaternion_unpack, lua_pushquaternion, Quat4.mk.injEq]
        exact ⟨decode_round_decode _, decode_round_decode _, decode_round_decode _,
          decode_round_decode _⟩
      · simp only [quaternion_unpack, lua_pushquaternion, Quat4.mk.injEq]
        exact ⟨decode_round_decode _, decode_round_decode _, decode_round_decode _,
          decode_round_decode _⟩
  obtain ⟨k1, k0⟩ := key
  refine ⟨hrefl _ _ k1, ?_, ?_, ?_⟩
  · intro hge
    rw [if_neg (not_lt.mpr (le_trans (by norm_num) hge))] at k0
    exact hrefl _ _ k0
  · intro hle
    rw [if_pos (lt_of_le_of_lt hle (by norm_num))] at k0
    exact hrefl _ _ k0
  · by_cases h0 : d < 0
    · rw [if_pos h0] at k0
      exact Or.inr (hrefl _ _ k0)
    · rw [if_neg h0] at k0
      exact Or.inl (hrefl _ _ k0)

/-- Witness for C6 at `q = (0,0,0,1)`, `r = (2/7, 3/7, 0, 6/7)` (lanes
`(9362, 14043, 0, 28086)`), whose dot product is `6/7`. -/
theorem slerp_endpoints_witness :
    Quat4.within (1 / 32767)
        (quaternion_unpack (quaternion_slerp ⟨0, 0, 0, 32767⟩ ⟨9362, 14043, 0, 28086⟩ (1 : ℝ)))
        (quaternion_unpack ⟨9362, 14043, 0, 28086⟩)
      ∧ Quat4.within (1 / 32767)
        (quaternion_unpack (quaternion_slerp ⟨0, 0, 0, 32767⟩ ⟨9362, 14043, 0, 28086⟩ (0 : ℝ)))
        (quaternion_unpack ⟨0, 0, 0, 32767⟩) := by
  have hd : ∀ n : Int, -32767 ≤ n → (decode n : ℝ) = n / 32767 := fun n h => decode_eq_of_ge h
  have h := slerp_endpoints ⟨0, 0, 0, 32767⟩ ⟨9362, 14043, 0, 28086⟩ (6 / 7) (by decide)
    (by
      simp only [decodeQuat, Quat4.norm2]
      rw [hd 0 (by norm_num), hd 32767 (by norm_num)]
      norm_num)
    (by
      simp only [decodeQuat, Quat4.norm2]
      rw [hd 0 (by norm_num), hd 9362 (by norm_num), hd 14043 (by norm_num),
        hd 28086 (by norm_num)]
      norm_num)
    (by
      simp only [decodeQuat, Quat4.dot]
      rw [hd 0 (by norm_num), hd 9362 (by norm_num), hd 14043 (by norm_num),
        hd 28086 (by norm_num), hd 32767 (by norm_num)]
      norm_num)
    (Real.le_sqrt_of_sq_le (by norm_num))
  exact ⟨h.1, h.2.1 (by norm_num)⟩

/-- C7. Slerp identity law: for every compressed quaternion `q` whose decoded components form a
unit quaternion and every `t` (in particular every `t` in `[0, 1]`), the dot product of `q` with
itself is `1`, the early return `|dot| ≥ 1` is taken, and `slerp(q, q, t)` is `q` unchanged. -/
theorem slerp_self (q : Quaternion) (t : ℝ) (h : (decodeQuat q : Quat4 ℝ).norm2 = 1)
    (_ht0 : 0 ≤ t) (_ht1 : t ≤ 1) :
    (decodeQuat q : Quat4 ℝ).dot (decodeQuat q) = 1 ∧ quaternion_slerp q q t = q := by
  have hd : (decodeQuat q : Quat4 ℝ).dot (decodeQuat q) = 1 := h
  exact ⟨hd, slerp_early q q t (by rw [hd]; norm_num)⟩

/-- Witness for C7 at the compressed identity and `t = 1/2`. -/
theorem slerp_self_witness :
    quaternion_slerp ⟨0, 0, 0, 32767⟩ ⟨0, 0, 0, 32767⟩ (1 / 2 : ℝ) = ⟨0, 0, 0, 32767⟩ :=
  (slerp_self ⟨0, 0, 0, 32767⟩ (1 / 2)
    (by norm_num [decodeQuat, decode, luaui_maxf, Quat4.norm2]) (by norm_num) (by norm_num)).2

/-! ## Angle-axis round trip: C9 -/

/-- The lane of `cos(0.00525)` is `32767`. -/
theorem round_cos_small : round (Real.cos 0.00525 * 32767) = 32767 := by
  have h1 : 1 - (0.00525 : ℝ) ^ 2 / 2 ≤ Real.cos 0.00525 := Real.one_sub_sq_div_two_le_cos
  have h2 : Real.cos 0.00525 ≤ 1 := Real.cos_le_one _
  apply round_eq_of_bounds
  · push_cast
    norm_num at h1 ⊢
    linarith
  · push_cast
    linarith

/-- C9, as stated, fails after quantization: the axis `(1, 0, 0)` has magnitude `1 > 0.01`, the
angle `0.0105` lies in `(0.01, π - 0.01)`, the `w` lane of `angleaxis(0.0105, 1, 0, 0)` is
`32767`, and `toangleaxis` returns the angle `0`, which is not within `1e-3` of `0.0105`. -/
theorem angleaxis_roundtrip_fails :
    (0.01 : ℝ) < Real.sqrt (1 * 1 + 0 * 0 + 0 * 0)
      ∧ (0.01 : ℝ) < 0.0105 ∧ (0.0105 : ℝ) < Real.pi - 0.01
      ∧ (quaternion_angleaxis (0.0105 : ℝ) 1 0 0).q3 = 32767
      ∧ (quaternion_toangleaxis (quaternion_angleaxis (0.0105 : ℝ) 1 0 0) : AngleAxis ℝ).angle
          = 0
      ∧ ¬ |(quaternion_toangleaxis (quaternion_angleaxis (0.0105 : ℝ) 1 0 0)
              : AngleAxis ℝ).angle - 0.0105| ≤ 1e-3 := by
  have e : (0.0105 : ℝ) * 0.5 = 0.00525 := by norm_num
  have hw : (quaternion_angleaxis (0.0105 : ℝ) 1 0 0).q3 = 32767 := by
    simp only [quaternion_angleaxis, quaternion_angleaxis_work, pushQuat, lua_pushquaternion,
      cosf_real, e, round_cos_small]
  have ha : (quaternion_toangleaxis (quaternion_angleaxis (0.0105 : ℝ) 1 0 0)
      : AngleAxis ℝ).angle = 0 := by
    simp only [quaternion_toangleaxis, toangleaxis_work, decodeQuat, hw, acosf_real]
    have hd : (decode 32767 : ℝ) = 1 := by
      simp only [decode, luaui_maxf]
      norm_num
    rw [hd, Real.arccos_one, mul_zero]
  refine ⟨?_, by norm_num, ?_, hw, ha, ?_⟩
  · norm_num
  · have := Real.pi_gt_three
    norm_num
    linarith
  · rw [ha]
    norm_num [abs_le]

/-- Lower bound on `sin` on `[0.005, π/2]`. -/
theorem sin_half_angle_lower {h : ℝ} (h1 : 0.005 < h) (h2 : h < Real.pi / 2) :
    0.0001 < Real.sin h := by
  have hs : (0.005 : ℝ) - 0.005 ^ 3 / 4 < Real.sin 0.005 :=
    Real.sin_gt_sub_cube (by norm_num) (by norm_num)
  have hpi := Real.pi_gt_three
  have hm : Real.sin 0.005 ≤ Real.sin h :=
    Real.sin_le_sin_of_le_of_le_pi_div_two (by linarith) h2.le h1.le
  norm_num at hs
  linarith

/-- Over exact real arithmetic, before quantization: for every axis of magnitude `> 0.01` and
every angle in `(0.01, π - 0.01)`, the arithmetic of `toangleaxis` applied to the tuple built by
`angleaxis(angle, ax, ay, az)` returns the same angle and the unit axis
`(ax, ay, az) / |(ax, ay, az)|`. -/
theorem angleaxis_roundtrip_exact (angle ax ay az : ℝ)
    (hlen : 0.01 < Real.sqrt (ax * ax + ay * ay + az * az))
    (h1 : 0.01 < angle) (h2 : angle < Real.pi - 0.01) :
    toangleaxis_work (quaternion_angleaxis_work angle ax ay az)
      = ⟨angle, ax / Real.sqrt (ax * ax + ay * ay + az * az),
          ay / Real.sqrt (ax * ax + ay * ay + az * az),
          az / Real.sqrt (ax * ax + ay * ay + az * az)⟩ := by
  have hL : 0 < Real.sqrt (ax * ax + ay * ay + az * az) := lt_trans (by norm_num) hlen
  have hh1 : 0.005 < angle * 0.5 := by norm_num at h1 ⊢; linarith
  have hh2 : angle * 0.5 < Real.pi / 2 := by norm_num at h2 ⊢; linarith
  have hsin := sin_half_angle_lower hh1 hh2
  have hsin0 : 0 < Real.sin (angle * 0.5) := lt_trans (by norm_num) hsin
  have hsq : Real.sqrt (1 - Real.cos (angle * 0.5) * Real.cos (angle * 0.5))
      = Real.sin (angle * 0.5) := by
    have : 1 - Real.cos (angle * 0.5) * Real.cos (angle * 0.5) = Real.sin (angle * 0.5) ^ 2 := by
      have := Real.sin_sq_add_cos_sq (angle * 0.5)
      linear_combination -this
    rw [this, Real.sqrt_sq hsin0.le]
  have hac : 2 * Real.arccos (Real.cos (angle * 0.5)) = angle := by
    rw [Real.arccos_cos (by linarith) (by linarith [Real.pi_pos])]
    ring
  simp only [toangleaxis_work, quaternion_angleaxis_work, sqrtf_real, sinf_real, cosf_real,
    acosf_real, gt_iff_lt, hL, if_true, hsq, not_lt.mpr hsin.le, if_false, hac,
    AngleAxis.mk.injEq, true_and]
  refine ⟨?_, ?_, ?_⟩ <;> field_simp <;> ring

/-! ## Euler angles round trip: C8 -/

/-- The tuple that `euler(0, 2π, 0)` hands to the quantizer. -/
theorem euler_work_full_turn_y :
    quaternion_euler_work 0 (2 * Real.pi) 0 = (⟨0, 0, 0, -1⟩ : Quat4 ℝ) := by
  have e : 2 * Real.pi * 0.5 = Real.pi := by ring
  simp only [quaternion_euler_work, sinf_real, cosf_real, e, zero_mul, Real.sin_zero,
    Real.cos_zero, Real.sin_pi, Real.cos_pi]
  norm_num

/-- Outside the range of `atan2` the second angle comes back reduced by a full turn: `x = 0`
satisfies `|x| < π/2 - 0.01`, and `toeuler(euler(0, 2π, 0))` is `(0, 0, 0)`, whose second angle
differs from `2π` by more than `1e-4`. -/
theorem euler_roundtrip_fails :
    |(0 : ℝ)| < Real.pi / 2 - 0.01
      ∧ (quaternion_toeuler (quaternion_euler 0 (2 * Real.pi) 0) : Vector3 ℝ) = ⟨0, 0, 0⟩
      ∧ ¬ |(quaternion_toeuler (quaternion_euler 0 (2 * Real.pi) 0) : Vector3 ℝ).y
            - 2 * Real.pi| ≤ 1e-4 := by
  have hpi := Real.pi_gt_three
  have hq : quaternion_euler 0 (2 * Real.pi) 0 = ⟨0, 0, 0, -32767⟩ := by
    simp only [quaternion_euler, euler_work_full_turn_y, pushQuat, lua_pushquaternion,
      zero_mul, round_zero, Quaternion.mk.injEq, true_and]
    apply round_eq_of_bounds <;> norm_num
  have hd0 : (decode 0 : ℝ) = 0 := by simp only [decode, luaui_maxf]; norm_num
  have hd1 : (decode (-32767) : ℝ) = -1 := by simp only [decode, luaui_maxf]; norm_num
  have hz : (⟨1, 0⟩ : ℂ) = 1 := rfl
  have ht : (quaternion_toeuler (quaternion_euler 0 (2 * Real.pi) 0) : Vector3 ℝ)
      = ⟨0, 0, 0⟩ := by
    rw [hq]
    simp only [quaternion_toeuler, toeuler_work, decodeQuat, hd0, hd1, asinf_real, atan2f_real]
    norm_num [hz]
  refine ⟨?_, ht, ?_⟩
  · rw [abs_zero]
    norm_num
    linarith
  · rw [ht]
    simp only [abs_le, not_and, not_le]
    intro _
    norm_num
    linarith

/-- The exact `atan2` recovers the angle of a point given in polar form. -/
theorem atan2_polar {r θ : ℝ} (hr : 0 < r) (h1 : -Real.pi < θ) (h2 : θ ≤ Real.pi) :
    Complex.arg ⟨r * Real.cos θ, r * Real.sin θ⟩ = θ := by
  have e : (⟨r * Real.cos θ, r * Real.sin θ⟩ : ℂ)
      = (r : ℂ) * (Complex.cos θ + Complex.sin θ * Complex.I) := by
    apply Complex.ext
    · simp [← Complex.ofReal_cos, ← Complex.ofReal_sin]
    · simp [← Complex.ofReal_cos, ← Complex.ofReal_sin]
  rw [e]
  exact Complex.arg_mul_cos_add_sin_mul_I hr ⟨h1, h2⟩

/-- Half-angle product identities of the tuple built by `euler`: its squared norm and the
three expressions that `toeuler` feeds to `asinf` and `atan2f`. -/
theorem euler_core (cx sx cy sy cz sz : ℝ) (hx : sx * sx + cx * cx = 1)
    (hy : sy * sy + cy * cy = 1) (hz : sz * sz + cz * cz = 1) :
    (cy * sx * cz + sy * cx * sz) * (cy * sx * cz + sy * cx * sz)
        + (sy * cx * cz - cy * sx * sz) * (sy * cx * cz - cy * sx * sz)
        + (cy * cx * sz - sy * sx * cz) * (cy * cx * sz - sy * sx * cz)
        + (cy * cx * cz + sy * sx * sz) * (cy * cx * cz + sy * sx * sz) = 1
      ∧ (cy * sx * cz + sy * cx * sz) * (cy * cx * cz + sy * sx * sz)
          - (sy * cx * cz - cy * sx * sz) * (cy * cx * sz - sy * sx * cz) = sx * cx
      ∧ 2 * ((cy * cx * cz + sy * sx * sz) * (cy * sx * cz + sy * cx * sz)
          - (sy * cx * cz - cy * sx * sz) * (cy * cx * sz - sy * sx * cz)) = 2 * sx * cx
      ∧ 2 * (cy * cx * cz + sy * sx * sz) * (sy * cx * cz - cy * sx * sz)
          + 2 * (cy * cx * sz - sy * sx * cz) * (cy * sx * cz + sy * cx * sz)
          = (cx * cx - sx * sx) * (2 * sy * cy)
      ∧ 1 - 2 * ((cy * sx * cz + sy * cx * sz) * (cy * sx * cz + sy * cx * sz)
            + (sy * cx * cz - cy * sx * sz) * (sy * cx * cz - cy * sx * sz))
          = (cx * cx - sx * sx) * (cy * cy - sy * sy)
      ∧ 2 * (cy * cx * cz + sy * sx * sz) * (cy * cx * sz - sy * sx * cz)
          + 2 * (cy * sx * cz + sy * cx * sz) * (sy * cx * cz - cy * sx * sz)
          = (cx * cx - sx * sx) * (2 * sz * cz)
      ∧ 1 - 2 * ((cy * cx * sz - sy * sx * cz) * (cy * cx * sz - sy * sx * cz)
            + (cy * sx * cz + sy * cx * sz) * (cy * sx * cz + sy * cx * sz))
          = (cx * cx - sx * sx) * (cz * cz - sz * sz) := by
  refine ⟨?_, ?_, ?_, ?_, ?_, ?_, ?_⟩
  · linear_combination ((1) * cy ^ 2 * cz ^ 2 + (1) * cy ^ 2 * sz ^ 2 + (1) * cz ^ 2 * sy ^ 2
      + (1) * sy ^ 2 * sz ^ 2) * hx + ((1) * cz ^ 2 + (1) * sz ^ 2) * hy + ((1)) * hz
  · linear_combination (0) * hx + ((1) * cx * cz ^ 2 * sx + (1) * cx * sx * sz ^ 2) * hy
      + ((1) * cx * sx) * hz
  · linear_combination (0) * hx + ((2) * cx * cz ^ 2 * sx + (2) * cx * sx * sz ^ 2) * hy
      + ((2) * cx * sx) * hz
  · linear_combination ((2) * cy * cz ^ 2 * sy + (-2) * cy * sy + (2) * cy * sy * sz ^ 2) * hx
      + (0) * hy + ((-4) * cy * sx ^ 2 * sy + (2) * cy * sy) * hz
  · linear_combination ((-1) * cy ^ 2 + (-2) * cz ^ 2 * sy ^ 2 + (1) * sy ^ 2
      + (-2) * sy ^ 2 * sz ^ 2) * hx + ((-1) + (-2) * cz ^ 2 * sx ^ 2 + (2) * sx ^ 2
      + (-2) * sx ^ 2 * sz ^ 2) * hy + ((-2) * sx ^ 2 + (4) * sx ^ 2 * sy ^ 2
      + (-2) * sy ^ 2) * hz
  · linear_combination ((2) * cy ^ 2 * cz * sz + (2) * cz * sy ^ 2 * sz + (-2) * cz * sz) * hx
      + ((-4) * cz * sx ^ 2 * sz + (2) * cz * sz) * hy + (0) * hz
  · linear_combination ((-2) * cy ^ 2 * sz ^ 2 + (-1) * cz ^ 2 + (-2) * sy ^ 2 * sz ^ 2
      + (1) * sz ^ 2) * hx + ((-2) * cz ^ 2 * sx ^ 2 + (2) * sx ^ 2 * sz ^ 2
      + (-2) * sz ^ 2) * hy + ((-1)) * hz


/-- The Pythagorean identity with products instead of squares. -/
theorem sin_mul_self_add_cos_mul_self (a : ℝ) :
    Real.sin a * Real.sin a + Real.cos a * Real.cos a = 1 := by
  have := Real.sin_sq_add_cos_sq a
  linear_combination this

/-- Away from the poles the sine stays below the pole threshold of `toeuler`. -/
theorem sin_lt_pole {x : ℝ} (h : |x| < Real.pi / 2 - 0.01) :
    |Real.sin x| < 1 - 2e-7 := by
  have hpi := Real.pi_gt_three
  obtain ⟨h1, h2⟩ := abs_lt.mp h
  have hc : Real.cos 0.01 < 1 - 2e-7 := by
    have hb := Real.cos_bound (x := 0.01) (by norm_num [abs_le])
    rw [abs_le] at hb
    have := hb.2
    norm_num [abs_of_pos] at this ⊢
    linarith
  have e : Real.sin (Real.pi / 2 - 0.01) = Real.cos 0.01 := Real.sin_pi_div_two_sub _
  rw [abs_lt]
  constructor
  · have := Real.sin_le_sin_of_le_of_le_pi_div_two (x := -(Real.pi / 2 - 0.01)) (y := x)
      (by linarith) (by linarith) (by linarith)
    rw [Real.sin_neg, e] at this
    linarith
  · have := Real.sin_le_sin_of_le_of_le_pi_div_two (x := x) (y := Real.pi / 2 - 0.01)
      (by linarith) (by linarith) (by linarith)
    rw [e] at this
    linarith

/-- Sine and cosine of the half angle `arcsin (20/29)`, and its position below `π/4 - 0.005`. -/
theorem arcsin_twenty_facts :
    Real.sin (Real.arcsin (20 / 29)) = 20 / 29
      ∧ Real.cos (Real.arcsin (20 / 29)) = 21 / 29
      ∧ 0 ≤ Real.arcsin (20 / 29)
      ∧ Real.arcsin (20 / 29) < Real.pi / 4 - 0.005 := by
  have hpi := Real.pi_gt_three
  refine ⟨Real.sin_arcsin (by norm_num) (by norm_num), ?_, ?_, ?_⟩
  · rw [Real.cos_arcsin]
    have : (1 : ℝ) - (20 / 29) ^ 2 = (21 / 29) ^ 2 := by norm_num
    rw [this, Real.sqrt_sq (by norm_num)]
  · exact Real.arcsin_nonneg.mpr (by norm_num)
  · rw [Real.arcsin_lt_iff_lt_sin ⟨by norm_num, by norm_num⟩
      ⟨by norm_num; linarith, by norm_num; linarith⟩]
    rw [Real.sin_sub, Real.sin_pi_div_four, Real.cos_pi_div_four]
    have h1 : (1.4142 : ℝ) < Real.sqrt 2 := by
      rw [Real.lt_sqrt (by norm_num)]
      norm_num
    have h2 : 1 - (0.005 : ℝ) ^ 2 / 2 ≤ Real.cos 0.005 := Real.one_sub_sq_div_two_le_cos
    have h3 : Real.sin 0.005 ≤ 0.005 := Real.sin_le (by norm_num)
    have h4 : (0.99 : ℝ) ≤ Real.cos 0.005 - Real.sin 0.005 := by
      norm_num at h2 h3 ⊢
      linarith
    have h5 : Real.sqrt 2 / 2 * Real.cos 0.005 - Real.sqrt 2 / 2 * Real.sin 0.005
        = Real.sqrt 2 / 2 * (Real.cos 0.005 - Real.sin 0.005) := by ring
    rw [h5]
    have h6 : (1.4142 : ℝ) / 2 * 0.99 ≤ Real.sqrt 2 / 2 * (Real.cos 0.005 - Real.sin 0.005) :=
      mul_le_mul (by linarith) h4 (by norm_num) (by positivity)
    norm_num at h6 ⊢
    linarith

/-- The compressed quaternion `euler(2 * arcsin (20/29), 0, 0)`. -/
theorem euler_near_pole :
    quaternion_euler (2 * Real.arcsin (20 / 29)) 0 0 = ⟨22598, 0, 0, 23728⟩ := by
  obtain ⟨hs, hc, -, -⟩ := arcsin_twenty_facts
  have e : 2 * Real.arcsin (20 / 29) * 0.5 = Real.arcsin (20 / 29) := by ring
  have hw : quaternion_euler_work (2 * Real.arcsin (20 / 29)) 0 0
      = (⟨20 / 29, 0, 0, 21 / 29⟩ : Quat4 ℝ) := by
    simp only [quaternion_euler_work, sinf_real, cosf_real, e, hs, hc, zero_mul, Real.sin_zero,
      Real.cos_zero]
    norm_num
  simp only [quaternion_euler, hw, pushQuat, lua_pushquaternion, zero_mul, round_zero,
    Quaternion.mk.injEq, true_and, and_true]
  constructor
  · apply round_eq_of_bounds <;> norm_num
  · apply round_eq_of_bounds <;> norm_num

/-- C8, as stated, fails: the angle `x = 2 * arcsin (20/29)` satisfies `|x| < π/2 - 0.01`,
`euler(x, 0, 0)` is stored as the lanes `(22598, 0, 0, 23728)`, and the first angle returned by
`toeuler` exceeds `x` by more than `1e-4`. -/
theorem euler_roundtrip_quantized_fails :
    |2 * Real.arcsin (20 / 29)| < Real.pi / 2 - 0.01
      ∧ ¬ |(quaternion_toeuler (quaternion_euler (2 * Real.arcsin (20 / 29)) 0 0)
              : Vector3 ℝ).x - 2 * Real.arcsin (20 / 29)| ≤ 1e-4 := by
  have hpi := Real.pi_gt_three
  obtain ⟨hs, hc, h0, h4⟩ := arcsin_twenty_facts
  have hx0 : |2 * Real.arcsin (20 / 29)| < Real.pi / 2 - 0.01 := by
    rw [abs_of_nonneg (by linarith)]
    norm_num at h4 ⊢
    linarith
  refine ⟨hx0, ?_⟩
  rw [euler_near_pole]
  have hd0 : (decode 0 : ℝ) = 0 := by simp only [decode, luaui_maxf]; norm_num
  have hdx : (decode 22598 : ℝ) = 22598 / 32767 := by
    simp only [decode, luaui_maxf]; norm_num
  have hdw : (decode 23728 : ℝ) = 23728 / 32767 := by
    simp only [decode, luaui_maxf]; norm_num
  have hx : (quaternion_toeuler ⟨22598, 0, 0, 23728⟩ : Vector3 ℝ).x
      = Real.arcsin (1072410688 / 1073676289) := by
    simp only [quaternion_toeuler, toeuler_work, decodeQuat, hd0, hdx, hdw, asinf_real]
    norm_num
  rw [hx]
  -- the sine of `x + 1e-4` is still below the argument handed to `asinf`
  have hsin : Real.sin (2 * Real.arcsin (20 / 29) + 1e-4) < 1072410688 / 1073676289 := by
    rw [Real.sin_add, Real.sin_two_mul, Real.cos_two_mul, hs, hc]
    have c1 : Real.cos 1e-4 ≤ 1 := Real.cos_le_one _
    have s1 : Real.sin 1e-4 ≤ 1e-4 := Real.sin_le (by norm_num)
    norm_num at s1 ⊢
    nlinarith [c1, s1]
  have hlt : 2 * Real.arcsin (20 / 29) + 1e-4 < Real.arcsin (1072410688 / 1073676289) := by
    rw [Real.lt_arcsin_iff_sin_lt ⟨by norm_num at h4 ⊢; linarith, by norm_num at h4 ⊢; linarith⟩
      ⟨by norm_num, by norm_num⟩]
    exact hsin
  intro h
  rw [abs_le] at h
  linarith [h.2]

/-! ## Orientation from a direction: C5 -/

/-- Two orthonormal vectors `X`, `Z` and `Y = cross(Z, X)` are the rows of a rotation matrix. -/
theorem rotation_rows_of_orthonormal (X Z : Vector3 ℝ) (hX : X.x * X.x + X.y * X.y + X.z * X.z = 1)
    (hZ : Z.x * Z.x + Z.y * Z.y + Z.z * Z.z = 1) (hXZ : X.x * Z.x + X.y * Z.y + X.z * Z.z = 0) :
    IsRotationRows X
      ⟨Z.y * X.z - Z.z * X.y, Z.z * X.x - Z.x * X.z, Z.x * X.y - Z.y * X.x⟩ Z := by
  constructor
  · linear_combination hX
  · linear_combination (Z.x ^ 2 + Z.y ^ 2 + Z.z ^ 2) * hX + hZ
      + (-X.x * Z.x - X.y * Z.y - X.z * Z.z) * hXZ
  · linear_combination hZ
  · ring
  · linear_combination hXZ
  · ring
  · linear_combination (-X.x) * hZ + (Z.x) * hXZ
  · linear_combination (-X.y) * hZ + (Z.y) * hXZ
  · linear_combination (-X.z) * hZ + (Z.z) * hXZ
  · ring
  · ring
  · ring
  · linear_combination (-Z.x) * hX + (X.x) * hXZ
  · linear_combination (-Z.y) * hX + (X.y) * hXZ
  · linear_combination (-Z.z) * hX + (X.z) * hXZ

/-- Identities of the first branch of the matrix-to-quaternion extraction on a rotation
matrix: the unscaled tuple has squared length `4 * t` and reproduces the third row `Z`. -/
theorem extract_branch1 (X Y Z : Vector3 ℝ) (h : IsRotationRows X Y Z) :
    (1 + X.x - Y.y - Z.z) * (1 + X.x - Y.y - Z.z) + (X.y + Y.x) * (X.y + Y.x)
          + (Z.x + X.z) * (Z.x + X.z) + (Y.z - Z.y) * (Y.z - Z.y)
        = 4 * (1 + X.x - Y.y - Z.z)
      ∧ (1 + X.x - Y.y - Z.z) * (Z.x + X.z) + (Y.z - Z.y) * (X.y + Y.x)
        = 2 * (1 + X.x - Y.y - Z.z) * Z.x
      ∧ (X.y + Y.x) * (Z.x + X.z) - (Y.z - Z.y) * (1 + X.x - Y.y - Z.z)
        = 2 * (1 + X.x - Y.y - Z.z) * Z.y
      ∧ (1 + X.x - Y.y - Z.z) * (1 + X.x - Y.y - Z.z) + (X.y + Y.x) * (X.y + Y.x)
        = 2 * (1 + X.x - Y.y - Z.z) * (1 - Z.z) := by
  refine ⟨?_, ?_, ?_, ?_⟩
  · linear_combination h.r0 + h.r1 + h.r2 + -2 * h.c00 + 2 * h.c11 + 2 * h.c22
  · linear_combination (Z.x) * h.r1 + -1 * h.r02 + (-Y.x) * h.r12 + (X.z) * h.c00
      + (Y.z) * h.c01 + (1 - Y.y) * h.c02 + (Y.z) * h.c10 + (Z.z) * h.c20
  · linear_combination (Z.y) * h.r1 + (Y.z) * h.r2 + (1 - Y.y - Z.z) * h.r12
      + (-Y.z - Z.y) * h.c00 + (X.z + Z.x) * h.c01 + (Y.x) * h.c02 + (Y.z) * h.c11
      + (Z.z) * h.c21
  · linear_combination 2 * h.r0 + (-2 * Z.z) * h.r1 + -1 * h.r2 + (2 * Y.z) * h.r12
      + (-X.x - 2 * Y.y) * h.c00 + (-X.y + 2 * Y.x) * h.c01 + (-2 * X.z) * h.c02 + (Y.x) * h.c10
      + (Y.y) * h.c11 + (Z.x) * h.c20 + (Z.y) * h.c21

/-- Identities of the second branch of the matrix-to-quaternion extraction on a rotation
matrix: the unscaled tuple has squared length `4 * t` and reproduces the third row `Z`. -/
theorem extract_branch2 (X Y Z : Vector3 ℝ) (h : IsRotationRows X Y Z) :
    (X.y + Y.x) * (X.y + Y.x) + (1 - X.x + Y.y - Z.z) * (1 - X.x + Y.y - Z.z)
          + (Y.z + Z.y) * (Y.z + Z.y) + (Z.x - X.z) * (Z.x - X.z)
        = 4 * (1 - X.x + Y.y - Z.z)
      ∧ (X.y + Y.x) * (Y.z + Z.y) + (Z.x - X.z) * (1 - X.x + Y.y - Z.z)
        = 2 * (1 - X.x + Y.y - Z.z) * Z.x
      ∧ (1 - X.x + Y.y - Z.z) * (Y.z + Z.y) - (Z.x - X.z) * (X.y + Y.x)
        = 2 * (1 - X.x + Y.y - Z.z) * Z.y
      ∧ (X.y + Y.x) * (X.y + Y.x) + (1 - X.x + Y.y - Z.z) * (1 - X.x + Y.y - Z.z)
        = 2 * (1 - X.x + Y.y - Z.z) * (1 - Z.z) := by
  refine ⟨?_, ?_, ?_, ?_⟩
  · linear_combination h.r0 + h.r1 + h.r2 + 2 * h.c00 + -2 * h.c11 + 2 * h.c22
  · linear_combination (Z.x) * h.r1 + h.r02 + (-Y.x) * h.r12 + (X.z) * h.c00 + (Y.z) * h.c01
      + (-1 - Y.y) * h.c02 + (Y.z) * h.c10 + (Z.z) * h.c20
  · linear_combination (Z.y) * h.r1 + (-Y.z) * h.r2 + (-1 - Y.y + Z.z) * h.r12 + (-Y.z
      + Z.y) * h.c00 + (X.z - Z.x) * h.c01 + (Y.x) * h.c02 + (Y.z) * h.c11 + (Z.z) * h.c21
  · linear_combination 2 * h.r0 + (-2 * Z.z) * h.r1 + -1 * h.r2 + (2 * Y.z) * h.r12
      + (-X.x - 2 * Y.y) * h.c00 + (-X.y + 2 * Y.x) * h.c01 + (-2 * X.z) * h.c02 + (Y.x) * h.c10
      + (Y.y) * h.c11 + (Z.x) * h.c20 + (Z.y) * h.c21

/-- Identities of the third branch of the matrix-to-quaternion extraction on a rotation
matrix: the unscaled tuple has squared length `4 * t` and reproduces the third row `Z`. -/
theorem extract_branch3 (X Y Z : Vector3 ℝ) (h : IsRotationRows X Y Z) :
    (Z.x + X.z) * (Z.x + X.z) + (Y.z + Z.y) * (Y.z + Z.y)
          + (1 - X.x - Y.y + Z.z) * (1 - X.x - Y.y + Z.z) + (X.y - Y.x) * (X.y - Y.x)
        = 4 * (1 - X.x - Y.y + Z.z)
      ∧ (Z.x + X.z) * (1 - X.x - Y.y + Z.z) + (X.y - Y.x) * (Y.z + Z.y)
        = 2 * (1 - X.x - Y.y + Z.z) * Z.x
      ∧ (Y.z + Z.y) * (1 - X.x - Y.y + Z.z) - (X.y - Y.x) * (Z.x + X.z)
        = 2 * (1 - X.x - Y.y + Z.z) * Z.y
      ∧ (Z.x + X.z) * (Z.x + X.z) + (Y.z + Z.y) * (Y.z + Z.y)
        = 2 * (1 - X.x - Y.y + Z.z) * (1 - Z.z) := by
  refine ⟨?_, ?_, ?_, ?_⟩
  · linear_combination h.r0 + h.r1 + h.r2 + 2 * h.c00 + 2 * h.c11 + -2 * h.c22
  · linear_combination (Z.x) * h.r1 + h.r02 + (-Y.x) * h.r12 + (-X.z) * h.c00 + (Y.z) * h.c01
      + (1 - Y.y) * h.c02 + (-Y.z) * h.c10 + (-Z.z) * h.c20
  · linear_combination (Z.y) * h.r1 + (-Y.z) * h.r2 + (1 - Y.y + Z.z) * h.r12 + (-Y.z
      + Z.y) * h.c00 + (-X.z - Z.x) * h.c01 + (Y.x) * h.c02 + (-Y.z) * h.c11 + (-Z.z) * h.c21
  · linear_combination -1 * h.r0 + h.r1 + (2 - 2 * Y.y) * h.r2 + (2 * Z.y) * h.r12 + (2
      + X.x - 2 * Z.z) * h.c00 + (X.y) * h.c01 + (2 * X.z + 2 * Z.x) * h.c02 + (-Y.x) * h.c10
      + (-Y.y) * h.c11 + (-Z.x) * h.c20 + (-Z.y) * h.c21

/-- Identities of the fourth branch of the matrix-to-quaternion extraction on a rotation
matrix: the unscaled tuple has squared length `4 * t` and reproduces the third row `Z`. -/
theorem extract_branch4 (X Y Z : Vector3 ℝ) (h : IsRotationRows X Y Z) :
    (Y.z - Z.y) * (Y.z - Z.y) + (Z.x - X.z) * (Z.x - X.z)
          + (X.y - Y.x) * (X.y - Y.x) + (1 + X.x + Y.y + Z.z) * (1 + X.x + Y.y + Z.z)
        = 4 * (1 + X.x + Y.y + Z.z)
      ∧ (Y.z - Z.y) * (X.y - Y.x) + (1 + X.x + Y.y + Z.z) * (Z.x - X.z)
        = 2 * (1 + X.x + Y.y + Z.z) * Z.x
      ∧ (Z.x - X.z) * (X.y - Y.x) - (1 + X.x + Y.y + Z.z) * (Y.z - Z.y)
        = 2 * (1 + X.x + Y.y + Z.z) * Z.y
      ∧ (Y.z - Z.y) * (Y.z - Z.y) + (Z.x - X.z) * (Z.x - X.z)
        = 2 * (1 + X.x + Y.y + Z.z) * (1 - Z.z) := by
  refine ⟨?_, ?_, ?_, ?_⟩
  · linear_combination h.r0 + h.r1 + h.r2 + -2 * h.c00 + -2 * h.c11 + -2 * h.c22
  · linear_combination (Z.x) * h.r1 + -1 * h.r02 + (-Y.x) * h.r12 + (-X.z) * h.c00
      + (Y.z) * h.c01 + (-1 - Y.y) * h.c02 + (-Y.z) * h.c10 + (-Z.z) * h.c20
  · linear_combination (Z.y) * h.r1 + (Y.z) * h.r2 + (-1 - Y.y - Z.z) * h.r12
      + (-Y.z - Z.y) * h.c00 + (-X.z + Z.x) * h.c01 + (Y.x) * h.c02 + (-Y.z) * h.c11
      + (-Z.z) * h.c21
  · linear_combination -1 * h.r0 + h.r1 + (2 + 2 * Y.y) * h.r2 + (-2 * Z.y) * h.r12 + (-2 + X.x
      + 2 * Z.z) * h.c00 + (X.y) * h.c01 + (2 * X.z - 2 * Z.x) * h.c02 + (-Y.x) * h.c10
      + (-Y.y) * h.c11 + (-Z.x) * h.c20 + (-Z.y) * h.c21

/-- A tuple `(n1, n2, n3, n4)` scaled by `0.5 / sqrt t`, as every branch of the extraction builds
it, is a unit quaternion whose `direction` is `-Z`, given the four branch identities. -/
theorem scaled_tuple_spec (n1 n2 n3 n4 t zx zy zz : ℝ) (ht : 0 < t)
    (hN : n1 * n1 + n2 * n2 + n3 * n3 + n4 * n4 = 4 * t)
    (h1 : n1 * n3 + n4 * n2 = 2 * t * zx) (h2 : n2 * n3 - n4 * n1 = 2 * t * zy)
    (h3 : n1 * n1 + n2 * n2 = 2 * t * (1 - zz)) :
    (⟨n1 * (0.5 / Real.sqrt t), n2 * (0.5 / Real.sqrt t), n3 * (0.5 / Real.sqrt t),
        n4 * (0.5 / Real.sqrt t)⟩ : Quat4 ℝ).norm2 = 1
      ∧ direction_work (⟨n1 * (0.5 / Real.sqrt t), n2 * (0.5 / Real.sqrt t),
          n3 * (0.5 / Real.sqrt t), n4 * (0.5 / Real.sqrt t)⟩ : Quat4 ℝ)
        = ⟨-zx, -zy, -zz⟩ := by
  have hs : 0 < Real.sqrt t := Real.sqrt_pos.mpr ht
  have hss : Real.sqrt t * Real.sqrt t = t := Real.mul_self_sqrt ht.le
  have hk : (0.5 / Real.sqrt t) * (0.5 / Real.sqrt t) * (4 * t) = 1 := by
    have e : (0.5 : ℝ) = 1 / 2 := by norm_num
    rw [e]
    field_simp
    linear_combination (-4) * hss
  generalize 0.5 / Real.sqrt t = s at hk
  constructor
  · simp only [Quat4.norm2]
    linear_combination (s * s) * hN + hk
  · simp only [direction_work, Vector3.mk.injEq]
    refine ⟨?_, ?_, ?_⟩
    · linear_combination (-2 * s * s) * h1 - zx * hk
    · linear_combination (-2 * s * s) * h2 - zy * hk
    · linear_combination (2 * s * s) * h3 + (1 - zz) * hk

/-- The four-branch extraction applied to a rotation matrix with rows `X`, `Y`, `Z` yields a
unit quaternion whose `direction` is `-Z`. -/
theorem lookdir_extract_spec (X Y Z : Vector3 ℝ) (h : IsRotationRows X Y Z) :
    (lookdir_extract X Y Z).norm2 = 1
      ∧ direction_work (lookdir_extract X Y Z) = ⟨-Z.x, -Z.y, -Z.z⟩ := by
  have hz : Z.z ≤ 1 ∧ -1 ≤ Z.z := by
    constructor <;> nlinarith [h.r2, mul_self_nonneg Z.x, mul_self_nonneg Z.y,
      mul_self_nonneg (Z.z - 1), mul_self_nonneg (Z.z + 1)]
  simp only [lookdir_extract, sqrtf_real]
  split_ifs with a b c
  · obtain ⟨e0, e1, e2, e3⟩ := extract_branch1 X Y Z h
    exact scaled_tuple_spec _ _ _ _ _ _ _ _ (by linarith) e0 e1 e2 e3
  · obtain ⟨e0, e1, e2, e3⟩ := extract_branch2 X Y Z h
    exact scaled_tuple_spec _ _ _ _ _ _ _ _ (by linarith) e0 e1 e2 e3
  · obtain ⟨e0, e1, e2, e3⟩ := extract_branch3 X Y Z h
    exact scaled_tuple_spec _ _ _ _ _ _ _ _ (by linarith) e0 e1 e2 e3
  · obtain ⟨e0, e1, e2, e3⟩ := extract_branch4 X Y Z h
    exact scaled_tuple_spec _ _ _ _ _ _ _ _ (by linarith) e0 e1 e2 e3

/-- With a non-degenerate cross product `lookdir` takes `X = normalize(cross(up, Z))`. -/
theorem lookdir_right_spec (up Z : Vector3 ℝ)
    (hS : 0 < (up.y * Z.z - up.z * Z.y) * (up.y * Z.z - up.z * Z.y)
      + (up.z * Z.x - up.x * Z.z) * (up.z * Z.x - up.x * Z.z)
      + (up.x * Z.y - up.y * Z.x) * (up.x * Z.y - up.y * Z.x)) :
    lookdir_right up Z
      = ⟨(up.y * Z.z - up.z * Z.y)
            / Real.sqrt ((up.y * Z.z - up.z * Z.y) * (up.y * Z.z - up.z * Z.y)
              + (up.z * Z.x - up.x * Z.z) * (up.z * Z.x - up.x * Z.z)
              + (up.x * Z.y - up.y * Z.x) * (up.x * Z.y - up.y * Z.x)),
         (up.z * Z.x - up.x * Z.z)
            / Real.sqrt ((up.y * Z.z - up.z * Z.y) * (up.y * Z.z - up.z * Z.y)
              + (up.z * Z.x - up.x * Z.z) * (up.z * Z.x - up.x * Z.z)
              + (up.x * Z.y - up.y * Z.x) * (up.x * Z.y - up.y * Z.x)),
         (up.x * Z.y - up.y * Z.x)
            / Real.sqrt ((up.y * Z.z - up.z * Z.y) * (up.y * Z.z - up.z * Z.y)
              + (up.z * Z.x - up.x * Z.z) * (up.z * Z.x - up.x * Z.z)
              + (up.x * Z.y - up.y * Z.x) * (up.x * Z.y - up.y * Z.x))⟩ := by
  have hL := (Real.sqrt_pos.mpr hS).ne'
  simp only [lookdir_right, sqrtf_real, if_neg hL]

/-- A vector divided by its length is a unit vector orthogonal to whatever the vector is
orthogonal to. -/
theorem normalized_spec (a b c zx zy zz : ℝ) (hS : 0 < a * a + b * b + c * c)
    (ho : a * zx + b * zy + c * zz = 0) :
    (a / Real.sqrt (a * a + b * b + c * c)) * (a / Real.sqrt (a * a + b * b + c * c))
        + (b / Real.sqrt (a * a + b * b + c * c)) * (b / Real.sqrt (a * a + b * b + c * c))
        + (c / Real.sqrt (a * a + b * b + c * c)) * (c / Real.sqrt (a * a + b * b + c * c)) = 1
      ∧ (a / Real.sqrt (a * a + b * b + c * c)) * zx
        + (b / Real.sqrt (a * a + b * b + c * c)) * zy
        + (c / Real.sqrt (a * a + b * b + c * c)) * zz = 0 := by
  have hL := (Real.sqrt_pos.mpr hS).ne'
  have hLL := Real.mul_self_sqrt hS.le
  generalize Real.sqrt (a * a + b * b + c * c) = L at hL hLL
  constructor
  · field_simp
    linear_combination -hLL
  · field_simp
    linear_combination ho

/-- Over exact arithmetic `lookdir` builds a unit quaternion whose `direction` is
`normalize(dir)`, for nonzero `dir` and `up` not parallel to `dir`. -/
theorem lookdir_work_spec (dir up : Vector3 ℝ)
    (hdir : 0 < dir.x * dir.x + dir.y * dir.y + dir.z * dir.z)
    (hup : 0 < (up.cross dir).x * (up.cross dir).x + (up.cross dir).y * (up.cross dir).y
      + (up.cross dir).z * (up.cross dir).z) :
    (quaternion_lookdir_work dir up).norm2 = 1
      ∧ direction_work (quaternion_lookdir_work dir up)
        = ⟨dir.x / Real.sqrt (dir.x * dir.x + dir.y * dir.y + dir.z * dir.z),
           dir.y / Real.sqrt (dir.x * dir.x + dir.y * dir.y + dir.z * dir.z),
           dir.z / Real.sqrt (dir.x * dir.x + dir.y * dir.y + dir.z * dir.z)⟩ := by
  obtain ⟨dx, dy, dz⟩ := dir
  obtain ⟨ux, uy, uz⟩ := up
  simp only [Vector3.cross] at hup
  simp only at hdir
  have hn : 0 < Real.sqrt (dx * dx + dy * dy + dz * dz) := Real.sqrt_pos.mpr hdir
  have hnn := Real.mul_self_sqrt hdir.le
  have e : -dx * -dx + -dy * -dy + -dz * -dz = dx * dx + dy * dy + dz * dz := by ring
  simp only [quaternion_lookdir_work, sqrtf_real, e, if_neg hn.ne']
  generalize Real.sqrt (dx * dx + dy * dy + dz * dz) = n at hn hnn
  -- the unit vector Z and the cross product of the up hint with it
  have hZ : (-dx / n) * (-dx / n) + (-dy / n) * (-dy / n) + (-dz / n) * (-dz / n) = 1 := by
    field_simp
    linear_combination -hnn
  have hS : 0 < (uy * (-dz / n) - uz * (-dy / n)) * (uy * (-dz / n) - uz * (-dy / n))
      + (uz * (-dx / n) - ux * (-dz / n)) * (uz * (-dx / n) - ux * (-dz / n))
      + (ux * (-dy / n) - uy * (-dx / n)) * (ux * (-dy / n) - uy * (-dx / n)) := by
    have : (uy * (-dz / n) - uz * (-dy / n)) * (uy * (-dz / n) - uz * (-dy / n))
      + (uz * (-dx / n) - ux * (-dz / n)) * (uz * (-dx / n) - ux * (-dz / n))
      + (ux * (-dy / n) - uy * (-dx / n)) * (ux * (-dy / n) - uy * (-dx / n))
      = ((uy * dz - uz * dy) * (uy * dz - uz * dy) + (uz * dx - ux * dz) * (uz * dx - ux * dz)
        + (ux * dy - uy * dx) * (ux * dy - uy * dx)) / (n * n) := by
      field_simp
      ring
    rw [this]
    exact div_pos hup (mul_pos hn hn)
  rw [lookdir_right_spec _ _ hS]
  obtain ⟨hX, hXZ⟩ := normalized_spec _ _ _ (-dx / n) (-dy / n) (-dz / n) hS (by ring)
  have hrot := rotation_rows_of_orthonormal ⟨_, _, _⟩ ⟨-dx / n, -dy / n, -dz / n⟩ hX hZ hXZ
  obtain ⟨hq1, hq2⟩ := lookdir_extract_spec _ _ _ hrot
  simp only [Quat4.norm2] at hq1
  simp only [hq1, Real.sqrt_one, div_one]
  refine ⟨hq1, ?_⟩
  rw [hq2]
  simp only [Vector3.mk.injEq]
  refine ⟨?_, ?_, ?_⟩ <;> ring

/-- A vector other than the zero vector has positive squared length. -/
theorem sq_length_pos_of_ne (v : Vector3 ℝ) (h : v ≠ ⟨0, 0, 0⟩) :
    0 < v.x * v.x + v.y * v.y + v.z * v.z := by
  obtain ⟨a, b, c⟩ := v
  by_contra hn
  push_neg at hn
  simp only at hn
  have ha : a = 0 := by nlinarith [mul_self_nonneg a, mul_self_nonneg b, mul_self_nonneg c]
  have hb : b = 0 := by nlinarith [mul_self_nonneg a, mul_self_nonneg b, mul_self_nonneg c]
  have hc : c = 0 := by nlinarith [mul_self_nonneg a, mul_self_nonneg b, mul_self_nonneg c]
  exact h (by rw [ha, hb, hc])

/-- Quantizing a unit quaternion moves each component of its `direction` by at most `1e-3`. -/
theorem direction_quantized_close (q : Quat4 ℝ) (h : q.norm2 = 1) :
    |(quaternion_direction (pushQuat q) : Vector3 ℝ).x - (direction_work q).x| ≤ 1e-3
      ∧ |(quaternion_direction (pushQuat q) : Vector3 ℝ).y - (direction_work q).y| ≤ 1e-3
      ∧ |(quaternion_direction (pushQuat q) : Vector3 ℝ).z - (direction_work q).z| ≤ 1e-3 := by
  obtain ⟨x, y, z, w⟩ := q
  simp only [Quat4.norm2] at h
  have hx := abs_le_one_of_norm2 h
  have hy := abs_le_one_of_norm2 (x := y) (y := x) (z := z) (w := w) (by linarith)
  have hz := abs_le_one_of_norm2 (x := z) (y := x) (z := y) (w := w) (by linarith)
  have hw := abs_le_one_of_norm2 (x := w) (y := x) (z := y) (w := z) (by linarith)
  have cx := decode_round_close (abs_le.mp hx).1
  have cy := decode_round_close (abs_le.mp hy).1
  have cz := decode_round_close (abs_le.mp hz).1
  have cw := decode_round_close (abs_le.mp hw).1
  simp only [quaternion_direction, direction_work, decodeQuat, pushQuat, lua_pushquaternion]
  generalize (decode (round (x * 32767)) : ℝ) = x' at cx
  generalize (decode (round (y * 32767)) : ℝ) = y' at cy
  generalize (decode (round (z * 32767)) : ℝ) = z' at cz
  generalize (decode (round (w * 32767)) : ℝ) = w' at cw
  have pxz := abs_le.mp (prod_close x z x' z' hx hz cx cz)
  have pwy := abs_le.mp (prod_close w y w' y' hw hy cw cy)
  have pyz := abs_le.mp (prod_close y z y' z' hy hz cy cz)
  have pwx := abs_le.mp (prod_close w x w' x' hw hx cw cx)
  have pxx := abs_le.mp (prod_close x x x' x' hx hx cx cx)
  have pyy := abs_le.mp (prod_close y y y' y' hy hy cy cy)
  refine ⟨?_, ?_, ?_⟩
  · rw [abs_le]
    constructor
    · norm_num
      linarith [pxz.1, pxz.2, pwy.1, pwy.2]
    · norm_num
      linarith [pxz.1, pxz.2, pwy.1, pwy.2]
  · rw [abs_le]
    constructor
    · norm_num
      linarith [pyz.1, pyz.2, pwx.1, pwx.2]
    · norm_num
      linarith [pyz.1, pyz.2, pwx.1, pwx.2]
  · rw [abs_le]
    constructor
    · norm_num
      linarith [pxx.1, pxx.2, pyy.1, pyy.2]
    · norm_num
      linarith [pxx.1, pxx.2, pyy.1, pyy.2]

/-! ## Concrete interpolation and identity fixed points: C11, C12 -/

/-- The constant `identity` has the lanes `(0, 0, 0, 32767)`. -/
theorem identity_lanes : identity = ⟨0, 0, 0, 32767⟩ := by
  simp only [identity, lua_pushquaternion, zero_mul, round_zero, one_mul, Quaternion.mk.injEq,
    true_and]
  exact round_ofNat 32767

/-- The tuple that `angleaxis(π, 0, 0, 1)` hands to the quantizer, and its lanes. -/
theorem angleaxis_half_turn_z :
    quaternion_angleaxis_work Real.pi 0 0 1 = (⟨0, 0, 1, 0⟩ : Quat4 ℝ)
      ∧ quaternion_angleaxis Real.pi 0 0 1 = ⟨0, 0, 32767, 0⟩ := by
  have e : Real.pi * 0.5 = Real.pi / 2 := by ring
  have hw : quaternion_angleaxis_work Real.pi 0 0 1 = (⟨0, 0, 1, 0⟩ : Quat4 ℝ) := by
    simp only [quaternion_angleaxis_work, sinf_real, cosf_real, sqrtf_real, e,
      Real.sin_pi_div_two, Real.cos_pi_div_two]
    norm_num
  refine ⟨hw, ?_⟩
  simp only [quaternion_angleaxis, hw, pushQuat, lua_pushquaternion, zero_mul, round_zero,
    one_mul, Quaternion.mk.injEq, true_and, and_true]
  exact round_ofNat 32767

/-- The tuple that `angleaxis(π/2, 0, 0, 1)` hands to the quantizer, and its lanes. -/
theorem angleaxis_quarter_z :
    quaternion_angleaxis_work (Real.pi / 2) 0 0 1
        = (⟨0, 0, Real.sqrt 2 / 2, Real.sqrt 2 / 2⟩ : Quat4 ℝ)
      ∧ quaternion_angleaxis (Real.pi / 2) 0 0 1 = ⟨0, 0, 23170, 23170⟩ := by
  have e : Real.pi / 2 * 0.5 = Real.pi / 4 := by ring
  have hw : quaternion_angleaxis_work (Real.pi / 2) 0 0 1
      = (⟨0, 0, Real.sqrt 2 / 2, Real.sqrt 2 / 2⟩ : Quat4 ℝ) := by
    simp only [quaternion_angleaxis_work, sinf_real, cosf_real, sqrtf_real, e,
      Real.sin_pi_div_four, Real.cos_pi_div_four]
    norm_num
  refine ⟨hw, ?_⟩
  simp only [quaternion_angleaxis, hw, pushQuat, lua_pushquaternion, round_sqrt_two_half,
    zero_mul, round_zero]

/-- C11. `slerp(identity, angleaxis(π, 0, 0, 1), 0.5)` equals `angleaxis(π/2, 0, 0, 1)`: the two
operands are stored as `(0, 0, 0, 32767)` and `(0, 0, 32767, 0)`, the interpolation and
`angleaxis(π/2, 0, 0, 1)` are both stored as `(0, 0, 23170, 23170)`, which decodes to within
`1/32767` of `(0, 0, sqrt(2)/2, sqrt(2)/2)` in each component. -/
theorem slerp_halfway_scenario :
    identity = ⟨0, 0, 0, 32767⟩
      ∧ quaternion_angleaxis Real.pi 0 0 1 = ⟨0, 0, 32767, 0⟩
      ∧ quaternion_slerp identity (quaternion_angleaxis Real.pi 0 0 1) (0.5 : ℝ)
          = quaternion_angleaxis (Real.pi / 2) 0 0 1
      ∧ quaternion_slerp identity (quaternion_angleaxis Real.pi 0 0 1) (0.5 : ℝ)
          = ⟨0, 0, 23170, 23170⟩
      ∧ (quaternion_unpack (quaternion_slerp identity (quaternion_angleaxis Real.pi 0 0 1)
            (0.5 : ℝ)) : Quat4 ℝ).x = 0
      ∧ (quaternion_unpack (quaternion_slerp identity (quaternion_angleaxis Real.pi 0 0 1)
            (0.5 : ℝ)) : Quat4 ℝ).y = 0
      ∧ |(quaternion_unpack (quaternion_slerp identity (quaternion_angleaxis Real.pi 0 0 1)
            (0.5 : ℝ)) : Quat4 ℝ).z - Real.sqrt 2 / 2| ≤ 1 / 32767
      ∧ |(quaternion_unpack (quaternion_slerp identity (quaternion_angleaxis Real.pi 0 0 1)
            (0.5 : ℝ)) : Quat4 ℝ).w - Real.sqrt 2 / 2| ≤ 1 / 32767 := by
  have hd0 : (decode 0 : ℝ) = 0 := by simp only [decode, luaui_maxf]; norm_num
  have hd1 : (decode 32767 : ℝ) = 1 := by simp only [decode, luaui_maxf]; norm_num
  have hdot : (decodeQuat ⟨0, 0, 0, 32767⟩ : Quat4 ℝ).dot (decodeQuat ⟨0, 0, 32767, 0⟩) = 0 := by
    simp only [decodeQuat, Quat4.dot, hd0, hd1]
    norm_num
  have hs : quaternion_slerp ⟨0, 0, 0, 32767⟩ ⟨0, 0, 32767, 0⟩ (0.5 : ℝ)
      = ⟨0, 0, 23170, 23170⟩ := by
    rw [slerp_trig_nonneg _ _ _ 0 hdot le_rfl (by norm_num) (by norm_num)]
    have e : (1 - 0.5) * Real.arccos 0 = Real.pi / 4 := by
      rw [Real.arccos_zero]
      ring
    have e' : 0.5 * Real.arccos 0 = Real.pi / 4 := by
      rw [Real.arccos_zero]
      ring
    simp only [e, e', hd0, hd1, Real.sin_pi_div_four, mul_zero, sub_zero, Real.sqrt_one, div_one,
      zero_mul, zero_add, add_zero, one_mul, lua_pushquaternion, round_zero,
      round_sqrt_two_half]
  have h1 : (1.4142 : ℝ) < Real.sqrt 2 := by
    rw [Real.lt_sqrt (by norm_num)]
    norm_num
  have h2 : Real.sqrt 2 < 1.41425 := by
    rw [Real.sqrt_lt' (by norm_num)]
    norm_num
  have hc : |(23170 : ℝ) / 32767 - Real.sqrt 2 / 2| ≤ 1 / 32767 := by
    rw [abs_le]
    constructor <;> norm_num at h1 h2 ⊢ <;> linarith
  have hd2 : (decode 23170 : ℝ) = 23170 / 32767 := by
    simp only [decode, luaui_maxf]
    norm_num
  have hu : ∀ q : Quaternion, (quaternion_unpack q : Quat4 ℝ) = decodeQuat q := fun _ => rfl
  rw [identity_lanes, angleaxis_half_turn_z.2, angleaxis_quarter_z.2, hs]
  simp only [hu, decodeQuat, hd0, hd2]
  exact ⟨trivial, trivial, trivial, trivial, trivial, trivial, hc, hc⟩

/-- C12. Identity fixed points: for every nonzero axis `angleaxis(0, ax, ay, az)` hands exactly
`(0, 0, 0, 1)` to the quantizer and is the constant `identity`; for every unit vector `a`,
`between(a, a)` hands exactly `(0, 0, 0, 1)` to the quantizer and is `identity`. -/
theorem identity_fixed_points :
    (∀ ax ay az : ℝ, (⟨ax, ay, az⟩ : Vector3 ℝ) ≠ ⟨0, 0, 0⟩ →
        quaternion_angleaxis_work 0 ax ay az = ⟨0, 0, 0, 1⟩
          ∧ quaternion_angleaxis 0 ax ay az = identity)
      ∧ (∀ a : Vector3 ℝ, a.dot a = 1 →
        quaternion_between_work a a = ⟨0, 0, 0, 1⟩ ∧ quaternion_between a a = identity) := by
  have hid : pushQuat (⟨0, 0, 0, 1⟩ : Quat4 ℝ) = identity := by
    rw [identity_lanes]
    simp only [pushQuat, lua_pushquaternion, zero_mul, round_zero, one_mul, Quaternion.mk.injEq,
      true_and]
    exact round_ofNat 32767
  constructor
  · intro ax ay az _
    have hw : quaternion_angleaxis_work 0 ax ay az = (⟨0, 0, 0, 1⟩ : Quat4 ℝ) := by
      simp only [quaternion_angleaxis_work, sinf_real, cosf_real, zero_mul, Real.sin_zero,
        Real.cos_zero, zero_div, ite_self]
    exact ⟨hw, by rw [quaternion_angleaxis, hw, hid]⟩
  · intro a ha
    simp only [Vector3.dot] at ha
    have hw : quaternion_between_work a a = (⟨0, 0, 0, 1⟩ : Quat4 ℝ) := by
      have hc : a.x * a.x + a.y * a.y + a.z * a.z > 0.99999
          ∨ a.x * a.x + a.y * a.y + a.z * a.z < -0.99999 := by
        left
        rw [ha]
        norm_num
      simp only [quaternion_between_work, if_pos hc]
    exact ⟨hw, by rw [quaternion_between, hw, hid]⟩

/-- Witness for C12 at the axis `(0, 0, 2)` and the unit vector `(1, 0, 0)`. -/
theorem identity_fixed_points_witness :
    quaternion_angleaxis (0 : ℝ) 0 0 2 = identity
      ∧ quaternion_between (⟨1, 0, 0⟩ : Vector3 ℝ) ⟨1, 0, 0⟩ = identity :=
  ⟨(identity_fixed_points.1 0 0 2 (by simp)).2,
   (identity_fixed_points.2 ⟨1, 0, 0⟩ (by norm_num [Vector3.dot])).2⟩

/-! ## Field access and method dispatch: C13, C14, C15 -/

/-- The characters that the fast path of `quaternion_index` accepts: those whose code, with bit
`0x20` set, lies between `'w'` (119) and `'{'` (123). -/
theorem index_lane_isSome_iff (c : Char) :
    (index_lane c).isSome ↔ 119 ≤ c.toNat ||| 32 ∧ c.toNat ||| 32 ≤ 123 := by
  simp only [index_lane]
  split_ifs with h1 h2 h3
  · simp only [Option.isSome_some, true_iff]
    omega
  · simp only [Option.isSome_none, false_iff, Bool.false_eq_true]
    omega
  · simp only [Option.isSome_some, true_iff]
    omega
  · simp only [Option.isSome_none, false_iff, Bool.false_eq_true]
    omega

/-- A code whose value with bit `0x20` set lies between 119 and 123 is the code of one of
`W X Y Z [ w x y z {`. -/
theorem or_32_range (n : Nat) (h1 : 119 ≤ n ||| 32) (h2 : n ||| 32 ≤ 123) :
    n = 87 ∨ n = 88 ∨ n = 89 ∨ n = 90 ∨ n = 91 ∨ n = 119 ∨ n = 120 ∨ n = 121 ∨ n = 122
      ∨ n = 123 := by
  have hle : n ≤ n ||| 32 := Nat.le_of_testBit (fun i h => by simp [h])
  have hn : n < 124 := by omega
  have key : ∀ m : Fin 124, 119 ≤ m.val ||| 32 → m.val ||| 32 ≤ 123 →
      m.val = 87 ∨ m.val = 88 ∨ m.val = 89 ∨ m.val = 90 ∨ m.val = 91 ∨ m.val = 119
        ∨ m.val = 120 ∨ m.val = 121 ∨ m.val = 122 ∨ m.val = 123 := by
    decide
  exact key ⟨n, hn⟩ h1 h2

/-- A single-character name taken by the fast path is one of `W X Y Z [ w x y z {`. -/
theorem fast_path_names (name : String) (c : Char) (hd : name.data = [c])
    (h : (index_lane c).isSome) :
    name ∈ ["x", "y", "z", "w", "X", "Y", "Z", "W", "\x7b", "["] := by
  rw [index_lane_isSome_iff] at h
  have hc : c = Char.ofNat c.toNat := (Char.ofNat_toNat c).symm
  have hn : name = ⟨[c]⟩ := by
    cases name
    simp only at hd
    rw [hd]
  rcases or_32_range c.toNat h.1 h.2 with e | e | e | e | e | e | e | e | e | e <;>
    · rw [e] at hc
      rw [hn, hc]
      decide

/-- The C-string reading of a name without NUL character is the name itself. -/
theorem cstr_eq_self (name : String) (h : Char.ofNat 0 ∉ name.data) : cstr name = name := by
  cases name with
  | mk data =>
    simp only [cstr]
    congr 1
    rw [List.takeWhile_eq_self_iff]
    intro a ha
    simp only [ne_eq, decide_not, Bool.not_eq_eq_eq_not, Bool.not_true, decide_eq_false_iff_not]
    intro e
    exact h (e ▸ ha)

/-- A key that the metatable does not hold reads as nil. -/
theorem lua_getfield_none (t : List (String × CFunction)) (k : String)
    (h : k ∉ t.map Prod.fst) : lua_getfield t k = none := by
  simp only [lua_getfield, Option.map_eq_none', List.find?_eq_none, decide_eq_true_eq]
  intro e he hk
  exact h (List.mem_map.mpr ⟨e, he, hk⟩)

/-- Field access by the component names, in either case: `x`, `y`, `z`, `w` read the lanes
`0`, `1`, `2`, `3`. -/
theorem index_components (q : Quaternion) :
    (quaternion_index q "x" : IndexResult ℝ) = IndexResult.number (decode q.q0)
      ∧ (quaternion_index q "y" : IndexResult ℝ) = IndexResult.number (decode q.q1)
      ∧ (quaternion_index q "z" : IndexResult ℝ) = IndexResult.number (decode q.q2)
      ∧ (quaternion_index q "w" : IndexResult ℝ) = IndexResult.number (decode q.q3)
      ∧ (quaternion_index q "X" : IndexResult ℝ) = IndexResult.number (decode q.q0)
      ∧ (quaternion_index q "Y" : IndexResult ℝ) = IndexResult.number (decode q.q1)
      ∧ (quaternion_index q "Z" : IndexResult ℝ) = IndexResult.number (decode q.q2)
      ∧ (quaternion_index q "W" : IndexResult ℝ) = IndexResult.number (decode q.q3) :=
  ⟨rfl, rfl, rfl, rfl, rfl, rfl, rfl, rfl⟩

/-- A name of several characters is never read as a component: the fast path is skipped and the
result is what the metatable holds under the name, or the error. -/
theorem index_multichar (q : Quaternion) (name : String) (h : 2 ≤ name.data.length) :
    ∀ v : ℝ, (quaternion_index q name : IndexResult ℝ) ≠ IndexResult.number v := by
  intro v
  unfold quaternion_index
  match hd : name.data with
  | [] => simp only; split <;> simp
  | [c] => rw [hd] at h; simp at h
  | a :: b :: l => simp only; split <;> simp

/-- C13, evaluated where it fails: the single characters `{` and `[`, whose lowercased form `{`
is none of `x`, `y`, `z`, `w`, are read as the component of lane `3` instead of falling through
to the method lookup. -/
theorem index_brace_is_component (q : Quaternion) :
    ((Char.ofNat 123).toNat ||| 32 = 123 ∧ (Char.ofNat 91).toNat ||| 32 = 123)
      ∧ "\x7b" ∉ ["x", "y", "z", "w"]
      ∧ (quaternion_index q "\x7b" : IndexResult ℝ) = IndexResult.number (decode q.q3)
      ∧ (quaternion_index q "[" : IndexResult ℝ) = IndexResult.number (decode q.q3) :=
  ⟨by decide, by decide, rfl, rfl⟩

/-- C14, as stated, fails: `__index` is neither a component name nor one of the eleven operation
names, and field access by it, here on the quaternion `(0, 0, 0, 1)`, returns the function
stored in the metatable, not the error. -/
theorem index_metamethod_name :
    "__index" ∉ ["x", "y", "z", "w"]
      ∧ "__index" ∉ quaternionlib.map Prod.fst
      ∧ (quaternion_index ⟨0, 0, 0, 32767⟩ "__index" : IndexResult ℝ)
          = IndexResult.func CFunction.index
      ∧ (quaternion_index ⟨0, 0, 0, 32767⟩ "__index" : IndexResult ℝ)
          ≠ IndexResult.error "attempt to index quaternion with '__index'" := by
  refine ⟨by decide, by decide, rfl, ?_⟩
  intro h
  cases h

/-- C14, amended. For every name without NUL character that is none of the single characters
`x y z w X Y Z W { [` and none of the thirteen keys of the metatable (the eleven operation names,
`__index`, `__namecall`), field access fails with the message
`attempt to index quaternion with '<name>'`; for each of the eleven operation names it returns
the corresponding operation, and for `__index` and `__namecall` the function stored. -/
theorem index_error_or_function (q : Quaternion) :
    (∀ name : String, Char.ofNat 0 ∉ name.data →
        name ∉ ["x", "y", "z", "w", "X", "Y", "Z", "W", "\x7b", "["] →
        name ∉ quaternion_metatable.map Prod.fst →
        (quaternion_index q name : IndexResult ℝ)
          = IndexResult.error ("attempt to index quaternion with '" ++ name ++ "'"))
      ∧ (∀ e ∈ quaternionlib,
          (quaternion_index q e.1 : IndexResult ℝ) = IndexResult.func e.2)
      ∧ (quaternion_index q "__index" : IndexResult ℝ) = IndexResult.func CFunction.index
      ∧ (quaternion_index q "__namecall" : IndexResult ℝ)
          = IndexResult.func CFunction.namecall := by
  refine ⟨?_, ?_, rfl, rfl⟩
  · intro name hnul hchar hkey
    have hfast : ∀ c, name.data = [c] → index_lane c = none := by
      intro c hd
      by_contra hne
      exact hchar (fast_path_names name c hd (Option.ne_none_iff_isSome.mp hne))
    unfold quaternion_index
    simp only [cstr_eq_self name hnul, lua_getfield_none _ _ hkey]
    obtain ⟨data⟩ := name
    match data, hfast with
    | [], _ => rfl
    | [c], hfast =>
      simp only [hfast c rfl]
    | a :: b :: l, _ => rfl
  · intro e he
    simp only [quaternionlib, List.mem_cons, List.mem_singleton, List.not_mem_nil,
      or_false] at he
    rcases he with h | h | h | h | h | h | h | h | h | h | h <;>
      · rw [h]
        rfl

/-- Witness for C14 at the name `foo`. -/
theorem index_error_or_function_witness :
    (quaternion_index ⟨0, 0, 0, 32767⟩ "foo" : IndexResult ℝ)
      = IndexResult.error "attempt to index quaternion with 'foo'" :=
  (index_error_or_function ⟨0, 0, 0, 32767⟩).1 "foo" (by decide) (by decide) (by decide)

/-- The eleven operation names dispatch to their operations; any other name is not
dispatched. -/
theorem namecall_dispatch_names :
    (∀ e ∈ quaternionlib, namecall_dispatch e.1 = some e.2)
      ∧ (∀ str : String, str ∉ quaternionlib.map Prod.fst → namecall_dispatch str = none) := by
  constructor
  · intro e he
    simp only [quaternionlib, List.mem_cons, List.mem_singleton, List.not_mem_nil,
      or_false] at he
    rcases he with h | h | h | h | h | h | h | h | h | h | h <;>
      · rw [h]
        rfl
  · intro str h
    simp only [quaternionlib, List.map_cons, List.map_nil, List.mem_cons, List.mem_singleton,
      List.not_mem_nil, or_false, not_or] at h
    obtain ⟨h1, h2, h3, h4, h5, h6, h7, h8, h9, h10, h11⟩ := h
    simp only [namecall_dispatch, h1, h2, h3, h4, h5, h6, h7, h8, h9, h10, h11, if_false]

/-- C15, evaluated where it fails: for the method names `bogus` and `nonsense`, neither of them
an operation name, `quaternion_namecall` does the same whatever `luaL_checkstring` and the
receiver in stack slot 1 are, because the message is built from `luaL_checkstring(L, 1)` and
not from the name called; so it does not raise `<name> is not a valid method of quaternion`
with the name called for both of them. -/
theorem namecall_error_ignores_name {V E : Type} (luaL_checkstring : V → Except E String)
    (arg1 : V) :
    "bogus" ∉ quaternionlib.map Prod.fst ∧ "nonsense" ∉ quaternionlib.map Prod.fst
      ∧ quaternion_namecall luaL_checkstring arg1 (some "bogus")
          = quaternion_namecall luaL_checkstring arg1 (some "nonsense")
      ∧ quaternion_namecall luaL_checkstring arg1 (some "bogus")
          = (match luaL_checkstring arg1 with
            | Except.ok s => NamecallResult.error (s ++ " is not a valid method of quaternion")
            | Except.error e => NamecallResult.argerror e)
      ∧ ¬ (quaternion_namecall luaL_checkstring arg1 (some "bogus")
              = NamecallResult.error "bogus is not a valid method of quaternion"
            ∧ quaternion_namecall luaL_checkstring arg1 (some "nonsense")
              = NamecallResult.error "nonsense is not a valid method of quaternion") := by
  have h : quaternion_namecall luaL_checkstring arg1 (some "bogus")
      = quaternion_namecall luaL_checkstring arg1 (some "nonsense") := rfl
  refine ⟨by decide, by decide, h, rfl, ?_⟩
  rintro ⟨h1, h2⟩
  rw [h, h2] at h1
  simp only [NamecallResult.error.injEq] at h1
  exact absurd h1 (by decide)

/-! ## Shorter arc of the interpolation: C16 -/

/-- The decoded components of the lanes `(9362, 14043, 0, -28086)` are `(2/7, 3/7, 0, -6/7)`. -/
theorem decode_sevenths :
    (decode 9362 : ℝ) = 2 / 7 ∧ (decode 14043 : ℝ) = 3 / 7 ∧ (decode 0 : ℝ) = 0
      ∧ (decode (-28086) : ℝ) = -(6 / 7) ∧ (decode 32767 : ℝ) = 1 := by
  refine ⟨?_, ?_, ?_, ?_, ?_⟩ <;>
    · rw [decode_eq_of_ge (by norm_num)]
      norm_num

/-- C16, as stated, fails: `q = (0,0,0,1)` and `r = (2/7, 3/7, 0, -6/7)` are unit quaternions
with dot product `-6/7` and `sqrt(1 - dot^2) ≥ 0.001`; at `t = 0` the weighted sum with `q`
un-negated and `r` negated is `q`, stored as `(0,0,0,32767)`, whereas `slerp(q, r, 0)` is
`(0,0,0,-32767)`. -/
theorem slerp_negates_q_not_r :
    (decodeQuat ⟨0, 0, 0, 32767⟩ : Quat4 ℝ).norm2 = 1
      ∧ (decodeQuat ⟨9362, 14043, 0, -28086⟩ : Quat4 ℝ).norm2 = 1
      ∧ (decodeQuat ⟨0, 0, 0, 32767⟩ : Quat4 ℝ).dot (decodeQuat ⟨9362, 14043, 0, -28086⟩)
          = -(6 / 7)
      ∧ (0.001 : ℝ) ≤ Real.sqrt (1 - -(6 / 7) * -(6 / 7))
      ∧ slerp_negated_r_spec ⟨0, 0, 0, 32767⟩ ⟨9362, 14043, 0, -28086⟩ (0 : ℝ)
          = ⟨0, 0, 0, 32767⟩
      ∧ quaternion_slerp ⟨0, 0, 0, 32767⟩ ⟨9362, 14043, 0, -28086⟩ (0 : ℝ)
          = ⟨0, 0, 0, -32767⟩
      ∧ quaternion_slerp ⟨0, 0, 0, 32767⟩ ⟨9362, 14043, 0, -28086⟩ (0 : ℝ)
          ≠ slerp_negated_r_spec ⟨0, 0, 0, 32767⟩ ⟨9362, 14043, 0, -28086⟩ (0 : ℝ) := by
  obtain ⟨d2, d3, d0, d6, d1⟩ := decode_sevenths
  have hd : (decodeQuat ⟨0, 0, 0, 32767⟩ : Quat4 ℝ).dot (decodeQuat ⟨9362, 14043, 0, -28086⟩)
      = -(6 / 7) := by
    simp only [decodeQuat, Quat4.dot, d2, d3, d0, d6, d1]
    norm_num
  have hs : (0.001 : ℝ) ≤ Real.sqrt (1 - -(6 / 7) * -(6 / 7)) :=
    Real.le_sqrt_of_sq_le (by norm_num)
  have hspos : 0 < Real.sqrt (1 - -(6 / 7) * -(6 / 7)) := lt_of_lt_of_le (by norm_num) hs
  have e2 : (1 : ℝ) - - -(6 / 7) * - -(6 / 7) = 1 - -(6 / 7) * -(6 / 7) := by ring
  have hw := slerp_weights (- -(6 / 7)) (by rw [e2]; exact hs)
  rw [e2] at hw
  obtain ⟨w1, w2, -, -⟩ := hw
  have hspec : slerp_negated_r_spec ⟨0, 0, 0, 32767⟩ ⟨9362, 14043, 0, -28086⟩ (0 : ℝ)
      = ⟨0, 0, 0, 32767⟩ := by
    have esin : Real.sin (Real.arccos (6 / 7)) ≠ 0 := by
      rw [Real.sin_arccos]
      have : (1 : ℝ) - (6 / 7) ^ 2 = 1 - -(6 / 7) * -(6 / 7) := by ring
      rw [this]
      exact hspos.ne'
    simp only [slerp_negated_r_spec, d2, d3, d0, d6, d1, acosf_real, sinf_real]
    norm_num [lua_pushquaternion, esin]
  have hcode : quaternion_slerp ⟨0, 0, 0, 32767⟩ ⟨9362, 14043, 0, -28086⟩ (0 : ℝ)
      = ⟨0, 0, 0, -32767⟩ := by
    rw [slerp_trig_neg _ _ 0 _ hd (by norm_num) (by rw [abs_lt]; constructor <;> norm_num) hs]
    have hr : round (-32767 : ℝ) = -32767 :=
      round_eq_of_bounds (by norm_num) (by norm_num)
    simp only [w1, w2, d2, d3, d0, d6, d1]
    norm_num [lua_pushquaternion, hr]
  refine ⟨?_, ?_, hd, hs, hspec, hcode, ?_⟩
  · simp only [decodeQuat, Quat4.norm2, d0, d1]
    norm_num
  · simp only [decodeQuat, Quat4.norm2, d2, d3, d0, d6]
    norm_num
  · rw [hspec, hcode]
    intro h
    cases h

/-! ## Gimbal-lock poles of the Euler conversion: C17 -/

/-- The tuples that `euler(π/2, y, 0)` and `euler(-π/2, y, 0)` hand to the quantizer. -/
theorem euler_work_poles (y : ℝ) :
    quaternion_euler_work (Real.pi / 2) y 0
        = ⟨Real.sqrt 2 / 2 * Real.cos (y / 2), Real.sqrt 2 / 2 * Real.sin (y / 2),
            -(Real.sqrt 2 / 2 * Real.sin (y / 2)), Real.sqrt 2 / 2 * Real.cos (y / 2)⟩
      ∧ quaternion_euler_work (-(Real.pi / 2)) y 0
        = ⟨-(Real.sqrt 2 / 2 * Real.cos (y / 2)), Real.sqrt 2 / 2 * Real.sin (y / 2),
            Real.sqrt 2 / 2 * Real.sin (y / 2), Real.sqrt 2 / 2 * Real.cos (y / 2)⟩ := by
  have e1 : Real.pi / 2 * 0.5 = Real.pi / 4 := by ring
  have e2 : -(Real.pi / 2) * 0.5 = -(Real.pi / 4) := by ring
  have e3 : y * 0.5 = y / 2 := by ring
  constructor
  · simp only [quaternion_euler_work, sinf_real, cosf_real, e1, e3, zero_mul, Real.sin_zero,
      Real.cos_zero, Real.sin_pi_div_four, Real.cos_pi_div_four, Quat4.mk.injEq]
    refine ⟨by ring, by ring, by ring, by ring⟩
  · simp only [quaternion_euler_work, sinf_real, cosf_real, e2, e3, zero_mul, Real.sin_zero,
      Real.cos_zero, Real.sin_neg, Real.cos_neg, Real.sin_pi_div_four, Real.cos_pi_div_four,
      Quat4.mk.injEq]
    refine ⟨by ring, by ring, by ring, by ring⟩

/-- The two pole branches of `toeuler` on nonzero tuples of the shape built at the poles. -/
theorem toeuler_work_poles (a b : ℝ) (h : 0 < a * a + b * b) :
    toeuler_work (⟨a, b, -b, a⟩ : Quat4 ℝ) = ⟨Real.pi / 2, 2 * Complex.arg ⟨a, b⟩, 0⟩
      ∧ toeuler_work (⟨-a, b, b, a⟩ : Quat4 ℝ)
          = ⟨-Real.pi / 2, -2 * Complex.arg ⟨-a, b⟩, 0⟩ := by
  constructor
  · have c1 : a * a - b * -b > (0.5 - 1e-7) * (a * a + b * b + -b * -b + a * a) := by
      norm_num
      linarith
    simp only [toeuler_work, PI_real, atan2f_real]
    rw [if_pos c1]
  · have c1 : ¬ -a * a - b * b > (0.5 - 1e-7) * (-a * -a + b * b + b * b + a * a) := by
      norm_num
      linarith
    have c2 : -a * a - b * b < -(0.5 - 1e-7) * (-a * -a + b * b + b * b + a * a) := by
      norm_num
      linarith
    simp only [toeuler_work, PI_real, atan2f_real]
    rw [if_neg c1, if_pos c2]

/-- The exact `atan2` of the point mirrored in the vertical axis. -/
theorem atan2_polar_mirror {r h : ℝ} (hr : 0 < r) (h1 : -Real.pi < h) (h2 : h < Real.pi) :
    Complex.arg ⟨-(r * Real.cos h), r * Real.sin h⟩
      = if 0 ≤ h then Real.pi - h else -Real.pi - h := by
  split_ifs with h0
  · have := atan2_polar hr (show -Real.pi < Real.pi - h by linarith)
      (show Real.pi - h ≤ Real.pi by linarith)
    rw [Real.cos_pi_sub, Real.sin_pi_sub, mul_neg] at this
    exact this
  · push_neg at h0
    have := atan2_polar hr (show -Real.pi < -Real.pi - h by linarith)
      (show -Real.pi - h ≤ Real.pi by linarith)
    have ec : Real.cos (-Real.pi - h) = -Real.cos h := by
      rw [show -Real.pi - h = -(h + Real.pi) by ring, Real.cos_neg, Real.cos_add_pi]
    have es : Real.sin (-Real.pi - h) = Real.sin h := by
      rw [show -Real.pi - h = -(h + Real.pi) by ring, Real.sin_neg, Real.sin_add_pi, neg_neg]
    rw [ec, es, mul_neg] at this
    exact this

/-- The lane of `-(√2 / 2)`. -/
theorem round_neg_sqrt_two_half : round (-(Real.sqrt 2 / 2) * 32767) = -23170 := by
  have h1 : (1.4142 : ℝ) < Real.sqrt 2 := by
    rw [Real.lt_sqrt (by norm_num)]
    norm_num
  have h2 : Real.sqrt 2 < 1.41425 := by
    rw [Real.sqrt_lt' (by norm_num)]
    norm_num
  apply round_eq_of_bounds
  · push_cast
    norm_num at h2 ⊢
    linarith
  · push_cast
    norm_num at h1 ⊢
    linarith

/-- C17, as stated, fails at the negative pole: `y = 0` lies in `(-π, π)`, and
`toeuler(euler(-π/2, 0, 0))` is `(-π/2, -2π, 0)`, not `(-π/2, 0, 0)`, both on the stored lanes
`(-23170, 0, 0, 23170)` and over exact arithmetic before quantization. -/
theorem toeuler_negative_pole_full_turn :
    (-Real.pi < (0 : ℝ) ∧ (0 : ℝ) < Real.pi)
      ∧ quaternion_euler (-(Real.pi / 2)) 0 0 = ⟨-23170, 0, 0, 23170⟩
      ∧ (quaternion_toeuler (quaternion_euler (-(Real.pi / 2)) 0 0) : Vector3 ℝ)
          = ⟨-(Real.pi / 2), -(2 * Real.pi), 0⟩
      ∧ (toeuler_work (quaternion_euler_work (-(Real.pi / 2)) 0 0) : Vector3 ℝ)
          = ⟨-(Real.pi / 2), -(2 * Real.pi), 0⟩
      ∧ (quaternion_toeuler (quaternion_euler (-(Real.pi / 2)) 0 0) : Vector3 ℝ)
          ≠ ⟨-(Real.pi / 2), 0, 0⟩ := by
  have hpi := Real.pi_pos
  have hw : quaternion_euler_work (-(Real.pi / 2)) 0 0
      = (⟨-(Real.sqrt 2 / 2), 0, 0, Real.sqrt 2 / 2⟩ : Quat4 ℝ) := by
    rw [(euler_work_poles 0).2]
    simp only [zero_div, Real.cos_zero, Real.sin_zero, mul_one, mul_zero]
  have hq : quaternion_euler (-(Real.pi / 2)) 0 0 = ⟨-23170, 0, 0, 23170⟩ := by
    simp only [quaternion_euler, hw, pushQuat, lua_pushquaternion, zero_mul, round_zero,
      round_neg_sqrt_two_half, round_sqrt_two_half]
  have harg : ∀ r : ℝ, 0 < r → Complex.arg ⟨-r, 0⟩ = Real.pi := by
    intro r hr
    have e : (⟨-r, 0⟩ : ℂ) = ((-r : ℝ) : ℂ) := rfl
    rw [e]
    exact Complex.arg_ofReal_of_neg (by linarith)
  have hd : (decode 23170 : ℝ) = 23170 / 32767 ∧ (decode (-23170) : ℝ) = -(23170 / 32767)
      ∧ (decode 0 : ℝ) = 0 := by
    refine ⟨?_, ?_, ?_⟩ <;>
      · rw [decode_eq_of_ge (by norm_num)]
        norm_num
  have hs : (0 : ℝ) < Real.sqrt 2 / 2 := by positivity
  have ht : (quaternion_toeuler (quaternion_euler (-(Real.pi / 2)) 0 0) : Vector3 ℝ)
      = ⟨-(Real.pi / 2), -(2 * Real.pi), 0⟩ := by
    rw [hq]
    simp only [quaternion_toeuler, decodeQuat, hd.1, hd.2.1, hd.2.2]
    have := (toeuler_work_poles (23170 / 32767) 0 (by norm_num)).2
    rw [this, harg _ (by norm_num)]
    simp only [Vector3.mk.injEq, and_true]
    exact ⟨neg_div _ _, neg_mul _ _⟩
  refine ⟨⟨by linarith, hpi⟩, hq, ht, ?_, ?_⟩
  · rw [hw]
    have := (toeuler_work_poles (Real.sqrt 2 / 2) 0 (by positivity)).2
    rw [this, harg _ hs]
    simp only [Vector3.mk.injEq, and_true]
    exact ⟨neg_div _ _, neg_mul _ _⟩
  · rw [ht]
    intro h
    simp only [Vector3.mk.injEq, and_true, true_and] at h
    linarith

/-- Over exact real arithmetic, before quantization, for every `y` in `(-π, π)`: the arithmetic
of `toeuler` takes the tuple built by `euler(π/2, y, 0)` to `(π/2, y, 0)`, and the tuple built by
`euler(-π/2, y, 0)` to `(-π/2, y - 2π, 0)` when `y ≥ 0` and to `(-π/2, y + 2π, 0)` when
`y < 0`. -/
theorem toeuler_euler_poles (y : ℝ) (h1 : -Real.pi < y) (h2 : y < Real.pi) :
    (toeuler_work (quaternion_euler_work (Real.pi / 2) y 0) : Vector3 ℝ) = ⟨Real.pi / 2, y, 0⟩
      ∧ (toeuler_work (quaternion_euler_work (-(Real.pi / 2)) y 0) : Vector3 ℝ)
          = ⟨-(Real.pi / 2), if 0 ≤ y then y - 2 * Real.pi else y + 2 * Real.pi, 0⟩ := by
  have hs : (0 : ℝ) < Real.sqrt 2 / 2 := by positivity
  have hss : Real.sqrt 2 / 2 * (Real.sqrt 2 / 2) = 1 / 2 := by
    rw [div_mul_div_comm, Real.mul_self_sqrt (by norm_num)]
    norm_num
  have hpos : 0 < Real.sqrt 2 / 2 * Real.cos (y / 2) * (Real.sqrt 2 / 2 * Real.cos (y / 2))
      + Real.sqrt 2 / 2 * Real.sin (y / 2) * (Real.sqrt 2 / 2 * Real.sin (y / 2)) := by
    have e : Real.sqrt 2 / 2 * Real.cos (y / 2) * (Real.sqrt 2 / 2 * Real.cos (y / 2))
        + Real.sqrt 2 / 2 * Real.sin (y / 2) * (Real.sqrt 2 / 2 * Real.sin (y / 2))
        = Real.sqrt 2 / 2 * (Real.sqrt 2 / 2)
          * (Real.sin (y / 2) * Real.sin (y / 2) + Real.cos (y / 2) * Real.cos (y / 2)) := by
      ring
    rw [e, hss, sin_mul_self_add_cos_mul_self]
    norm_num
  obtain ⟨p1, p2⟩ := toeuler_work_poles _ _ hpos
  obtain ⟨w1, w2⟩ := euler_work_poles y
  constructor
  · rw [w1, p1, atan2_polar hs (by linarith) (by linarith)]
    simp only [Vector3.mk.injEq, true_and, and_true]
    ring
  · rw [w2, p2, atan2_polar_mirror hs (by linarith) (by linarith)]
    simp only [Vector3.mk.injEq, and_true]
    refine ⟨neg_div _ _, ?_⟩
    by_cases h0 : 0 ≤ y
    · rw [if_pos h0, if_pos (by linarith)]
      ring
    · rw [if_neg h0, if_neg (by push_neg at h0 ⊢; linarith)]
      ring

/-! ## Safety of the divisions in `lookdir`: C18, C19 -/

/-- The fallback right vector is orthogonal to a unit `Z` and has positive squared length. -/
theorem lookdir_fallback_spec (Z : Vector3 ℝ) (hZ : Z.x * Z.x + Z.y * Z.y + Z.z * Z.z = 1) :
    (lookdir_fallback Z).x * Z.x + (lookdir_fallback Z).y * Z.y + (lookdir_fallback Z).z * Z.z = 0
      ∧ 0 < (lookdir_fallback Z).x * (lookdir_fallback Z).x
          + (lookdir_fallback Z).y * (lookdir_fallback Z).y
          + (lookdir_fallback Z).z * (lookdir_fallback Z).z := by
  unfold lookdir_fallback
  split_ifs with h
  · refine ⟨by ring, ?_⟩
    have h' := abs_lt.mp h
    have : Z.x * Z.x < 0.81 := by nlinarith [h'.1, h'.2]
    simp only
    norm_num at this ⊢
    nlinarith
  · refine ⟨by ring, ?_⟩
    push_neg at h
    have : 0.81 ≤ Z.x * Z.x := by
      rw [← abs_mul_abs_self Z.x]
      nlinarith [abs_nonneg Z.x]
    simp only
    norm_num at this ⊢
    nlinarith [mul_self_nonneg Z.z]

/-- With a vanishing cross product of the up hint and `Z`, the right vector of `lookdir` is the
fallback vector divided by its length. -/
theorem lookdir_right_fallback (up Z : Vector3 ℝ) (h : up.cross Z = ⟨0, 0, 0⟩) :
    lookdir_right up Z
      = ⟨(lookdir_fallback Z).x
            / Real.sqrt ((lookdir_fallback Z).x * (lookdir_fallback Z).x
              + (lookdir_fallback Z).y * (lookdir_fallback Z).y
              + (lookdir_fallback Z).z * (lookdir_fallback Z).z),
         (lookdir_fallback Z).y
            / Real.sqrt ((lookdir_fallback Z).x * (lookdir_fallback Z).x
              + (lookdir_fallback Z).y * (lookdir_fallback Z).y
              + (lookdir_fallback Z).z * (lookdir_fallback Z).z),
         (lookdir_fallback Z).z
            / Real.sqrt ((lookdir_fallback Z).x * (lookdir_fallback Z).x
              + (lookdir_fallback Z).y * (lookdir_fallback Z).y
              + (lookdir_fallback Z).z * (lookdir_fallback Z).z)⟩ := by
  simp only [Vector3.cross, Vector3.mk.injEq] at h
  obtain ⟨h1, h2, h3⟩ := h
  simp only [lookdir_right, lookdir_fallback, sqrtf_real, h1, h2, h3, mul_zero, add_zero,
    Real.sqrt_zero, if_true]

/-- Over exact arithmetic `lookdir` with a degenerate up hint builds a unit quaternion whose
`direction` is `normalize(dir)`. -/
theorem lookdir_work_degenerate_spec (dir up : Vector3 ℝ)
    (hdir : 0 < dir.x * dir.x + dir.y * dir.y + dir.z * dir.z)
    (hup : up.cross (lookdir_Z dir) = ⟨0, 0, 0⟩) :
    (lookdir_Z dir).x * (lookdir_Z dir).x + (lookdir_Z dir).y * (lookdir_Z dir).y
        + (lookdir_Z dir).z * (lookdir_Z dir).z = 1
      ∧ (quaternion_lookdir_work dir up).norm2 = 1
      ∧ direction_work (quaternion_lookdir_work dir up)
        = ⟨dir.x / Real.sqrt (dir.x * dir.x + dir.y * dir.y + dir.z * dir.z),
           dir.y / Real.sqrt (dir.x * dir.x + dir.y * dir.y + dir.z * dir.z),
           dir.z / Real.sqrt (dir.x * dir.x + dir.y * dir.y + dir.z * dir.z)⟩ := by
  obtain ⟨dx, dy, dz⟩ := dir
  simp only at hdir
  have hn : 0 < Real.sqrt (dx * dx + dy * dy + dz * dz) := Real.sqrt_pos.mpr hdir
  have hnn := Real.mul_self_sqrt hdir.le
  have e : -dx * -dx + -dy * -dy + -dz * -dz = dx * dx + dy * dy + dz * dz := by ring
  simp only [lookdir_Z, sqrtf_real, e] at hup ⊢
  simp only [quaternion_lookdir_work, sqrtf_real, e, if_neg hn.ne']
  generalize Real.sqrt (dx * dx + dy * dy + dz * dz) = n at hn hnn hup
  have hZ : (-dx / n) * (-dx / n) + (-dy / n) * (-dy / n) + (-dz / n) * (-dz / n) = 1 := by
    field_simp
    linear_combination -hnn
  refine ⟨hZ, ?_⟩
  rw [lookdir_right_fallback _ _ hup]
  obtain ⟨hF, hS⟩ := lookdir_fallback_spec ⟨-dx / n, -dy / n, -dz / n⟩ hZ
  obtain ⟨hX, hXZ⟩ := normalized_spec _ _ _ (-dx / n) (-dy / n) (-dz / n) hS hF
  have hrot := rotation_rows_of_orthonormal ⟨_, _, _⟩ ⟨-dx / n, -dy / n, -dz / n⟩ hX hZ hXZ
  obtain ⟨hq1, hq2⟩ := lookdir_extract_spec _ _ _ hrot
  simp only [Quat4.norm2] at hq1
  simp only [hq1, Real.sqrt_one, div_one]
  refine ⟨hq1, ?_⟩
  rw [hq2]
  simp only [Vector3.mk.injEq]
  refine ⟨?_, ?_, ?_⟩ <;> ring

/-- For nonzero `dir`, `lookdir` is the normalized extraction from the rows
`X = lookdir_right up Z`, `Y = cross(Z, X)` and `Z = lookdir_Z dir`. -/
theorem lookdir_work_rows (dir up : Vector3 ℝ)
    (hdir : 0 < dir.x * dir.x + dir.y * dir.y + dir.z * dir.z) :
    quaternion_lookdir_work dir up
      = ⟨(lookdir_extract (lookdir_right up (lookdir_Z dir))
              ((lookdir_Z dir).cross (lookdir_right up (lookdir_Z dir))) (lookdir_Z dir)).x
            / Real.sqrt (lookdir_extract (lookdir_right up (lookdir_Z dir))
              ((lookdir_Z dir).cross (lookdir_right up (lookdir_Z dir))) (lookdir_Z dir)).norm2,
         (lookdir_extract (lookdir_right up (lookdir_Z dir))
              ((lookdir_Z dir).cross (lookdir_right up (lookdir_Z dir))) (lookdir_Z dir)).y
            / Real.sqrt (lookdir_extract (lookdir_right up (lookdir_Z dir))
              ((lookdir_Z dir).cross (lookdir_right up (lookdir_Z dir))) (lookdir_Z dir)).norm2,
         (lookdir_extract (lookdir_right up (lookdir_Z dir))
              ((lookdir_Z dir).cross (lookdir_right up (lookdir_Z dir))) (lookdir_Z dir)).z
            / Real.sqrt (lookdir_extract (lookdir_right up (lookdir_Z dir))
              ((lookdir_Z dir).cross (lookdir_right up (lookdir_Z dir))) (lookdir_Z dir)).norm2,
         (lookdir_extract (lookdir_right up (lookdir_Z dir))
              ((lookdir_Z dir).cross (lookdir_right up (lookdir_Z dir))) (lookdir_Z dir)).w
            / Real.sqrt (lookdir_extract (lookdir_right up (lookdir_Z dir))
              ((lookdir_Z dir).cross (lookdir_right up (lookdir_Z dir))) (lookdir_Z dir)).norm2⟩
      := by
  have hn : 0 < Real.sqrt (dir.x * dir.x + dir.y * dir.y + dir.z * dir.z) :=
    Real.sqrt_pos.mpr hdir
  have e : -dir.x * -dir.x + -dir.y * -dir.y + -dir.z * -dir.z
      = dir.x * dir.x + dir.y * dir.y + dir.z * dir.z := by ring
  simp only [quaternion_lookdir_work, lookdir_Z, sqrtf_real, e, if_neg hn.ne', Vector3.cross,
    Quat4.norm2]

/-! ## Euler angles away from the poles, before quantization: C20 -/

/-- The tuple built by `euler` has squared norm `1` for all angles. -/
theorem euler_work_unit (x y z : ℝ) : (quaternion_euler_work x y z).norm2 = 1 := by
  obtain ⟨hN, -⟩ := euler_core (Real.cos (x * 0.5))
    (Real.sin (x * 0.5)) (Real.cos (y * 0.5)) (Real.sin (y * 0.5)) (Real.cos (z * 0.5))
    (Real.sin (z * 0.5)) (sin_mul_self_add_cos_mul_self _) (sin_mul_self_add_cos_mul_self _)
    (sin_mul_self_add_cos_mul_self _)
  simp only [quaternion_euler_work, Quat4.norm2, sinf_real, cosf_real]
  exact hN

/-- The quantity that `toeuler` tests against the pole thresholds, on the tuple built by
`euler`, is `sin(x) / 2`. -/
theorem euler_work_pole_test (x y z : ℝ) :
    (quaternion_euler_work x y z).x * (quaternion_euler_work x y z).w
        - (quaternion_euler_work x y z).y * (quaternion_euler_work x y z).z
      = Real.sin x / 2 := by
  obtain ⟨-, hT, -⟩ := euler_core (Real.cos (x * 0.5))
    (Real.sin (x * 0.5)) (Real.cos (y * 0.5)) (Real.sin (y * 0.5)) (Real.cos (z * 0.5))
    (Real.sin (z * 0.5)) (sin_mul_self_add_cos_mul_self _) (sin_mul_self_add_cos_mul_self _)
    (sin_mul_self_add_cos_mul_self _)
  simp only [quaternion_euler_work, sinf_real, cosf_real]
  rw [hT]
  have := Real.sin_two_mul (x * 0.5)
  rw [show 2 * (x * 0.5) = x by ring] at this
  linear_combination (-1 / 2) * this

/-- The non-pole branch of `toeuler` on a tuple that passes neither pole test. -/
theorem toeuler_work_nonpole (q : Quat4 ℝ)
    (h1 : ¬ q.x * q.w - q.y * q.z > (0.5 - 1e-7) * q.norm2)
    (h2 : ¬ q.x * q.w - q.y * q.z < -(0.5 - 1e-7) * q.norm2) :
    toeuler_work q
      = ⟨Real.arcsin (2 * (q.w * q.x - q.y * q.z)),
         Complex.arg ⟨1 - 2 * (q.x * q.x + q.y * q.y), 2 * q.w * q.y + 2 * q.z * q.x⟩,
         Complex.arg ⟨1 - 2 * (q.z * q.z + q.x * q.x), 2 * q.w * q.z + 2 * q.x * q.y⟩⟩ := by
  simp only [Quat4.norm2] at h1 h2
  simp only [toeuler_work, asinf_real, atan2f_real, if_neg h1, if_neg h2]

/-- The three angles that the non-pole branch of `toeuler` computes from the tuple built by
`euler`, for `x` in `(-π/2, π/2)` and `y`, `z` in `(-π, π]`. -/
theorem euler_work_nonpole_angles (x y z : ℝ) (hx1 : -(Real.pi / 2) < x) (hx2 : x < Real.pi / 2)
    (hy1 : -Real.pi < y) (hy2 : y ≤ Real.pi) (hz1 : -Real.pi < z) (hz2 : z ≤ Real.pi) :
    Real.arcsin (2 * ((quaternion_euler_work x y z).w * (quaternion_euler_work x y z).x
        - (quaternion_euler_work x y z).y * (quaternion_euler_work x y z).z)) = x
      ∧ Complex.arg ⟨1 - 2 * ((quaternion_euler_work x y z).x * (quaternion_euler_work x y z).x
            + (quaternion_euler_work x y z).y * (quaternion_euler_work x y z).y),
          2 * (quaternion_euler_work x y z).w * (quaternion_euler_work x y z).y
            + 2 * (quaternion_euler_work x y z).z * (quaternion_euler_work x y z).x⟩ = y
      ∧ Complex.arg ⟨1 - 2 * ((quaternion_euler_work x y z).z * (quaternion_euler_work x y z).z
            + (quaternion_euler_work x y z).x * (quaternion_euler_work x y z).x),
          2 * (quaternion_euler_work x y z).w * (quaternion_euler_work x y z).z
            + 2 * (quaternion_euler_work x y z).x * (quaternion_euler_work x y z).y⟩ = z := by
  obtain ⟨-, -, hS, hA1, hA2, hB1, hB2⟩ := euler_core (Real.cos (x * 0.5))
    (Real.sin (x * 0.5)) (Real.cos (y * 0.5)) (Real.sin (y * 0.5)) (Real.cos (z * 0.5))
    (Real.sin (z * 0.5)) (sin_mul_self_add_cos_mul_self _) (sin_mul_self_add_cos_mul_self _)
    (sin_mul_self_add_cos_mul_self _)
  have sin2 : ∀ a : ℝ, 2 * Real.sin (a * 0.5) * Real.cos (a * 0.5) = Real.sin a := by
    intro a
    rw [← Real.sin_two_mul]
    congr 1
    ring
  have cos2 : ∀ a : ℝ, Real.cos (a * 0.5) * Real.cos (a * 0.5)
      - Real.sin (a * 0.5) * Real.sin (a * 0.5) = Real.cos a := by
    intro a
    have := Real.cos_two_mul' (a * 0.5)
    rw [show 2 * (a * 0.5) = a by ring] at this
    rw [this]
    ring
  have hcx : 0 < Real.cos x := Real.cos_pos_of_mem_Ioo ⟨hx1, hx2⟩
  simp only [quaternion_euler_work, sinf_real, cosf_real]
  rw [hS, hA1, hA2, hB1, hB2, sin2, sin2, sin2, cos2, cos2, cos2,
    Real.arcsin_sin hx1.le hx2.le, atan2_polar hcx hy1 hy2, atan2_polar hcx hz1 hz2]
  exact ⟨rfl, rfl, rfl⟩

/-- C20. Over exact real arithmetic (before quantization), `euler(x, y, z)` produces a unit
quaternion for all angles, and for all `x` in `(-π/2 + 0.01, π/2 - 0.01)` and `y`, `z` in
`(-π, π)`, `toeuler` applied to that quaternion passes neither pole test, so takes the non-pole
branch, and returns exactly `(x, y, z)`. -/
theorem euler_unit_nonpole_roundtrip (x y z : ℝ)
    (hx1 : -(Real.pi / 2) + 0.01 < x) (hx2 : x < Real.pi / 2 - 0.01)
    (hy1 : -Real.pi < y) (hy2 : y < Real.pi) (hz1 : -Real.pi < z) (hz2 : z < Real.pi) :
    (∀ a b c : ℝ, (quaternion_euler_work a b c).norm2 = 1)
      ∧ ¬ (quaternion_euler_work x y z).x * (quaternion_euler_work x y z).w
            - (quaternion_euler_work x y z).y * (quaternion_euler_work x y z).z
          > (0.5 - 1e-7) * (quaternion_euler_work x y z).norm2
      ∧ ¬ (quaternion_euler_work x y z).x * (quaternion_euler_work x y z).w
            - (quaternion_euler_work x y z).y * (quaternion_euler_work x y z).z
          < -(0.5 - 1e-7) * (quaternion_euler_work x y z).norm2
      ∧ toeuler_work (quaternion_euler_work x y z)
          = ⟨Real.arcsin (2 * ((quaternion_euler_work x y z).w * (quaternion_euler_work x y z).x
              - (quaternion_euler_work x y z).y * (quaternion_euler_work x y z).z)),
             Complex.arg
              ⟨1 - 2 * ((quaternion_euler_work x y z).x * (quaternion_euler_work x y z).x
                  + (quaternion_euler_work x y z).y * (quaternion_euler_work x y z).y),
                2 * (quaternion_euler_work x y z).w * (quaternion_euler_work x y z).y
                  + 2 * (quaternion_euler_work x y z).z * (quaternion_euler_work x y z).x⟩,
             Complex.arg
              ⟨1 - 2 * ((quaternion_euler_work x y z).z * (quaternion_euler_work x y z).z
                  + (quaternion_euler_work x y z).x * (quaternion_euler_work x y z).x),
                2 * (quaternion_euler_work x y z).w * (quaternion_euler_work x y z).z
                  + 2 * (quaternion_euler_work x y z).x * (quaternion_euler_work x y z).y⟩⟩
      ∧ toeuler_work (quaternion_euler_work x y z) = ⟨x, y, z⟩ := by
  have hsx := sin_lt_pole (x := x) (by rw [abs_lt]; constructor <;> linarith)
  rw [abs_lt] at hsx
  have p1 : ¬ (quaternion_euler_work x y z).x * (quaternion_euler_work x y z).w
        - (quaternion_euler_work x y z).y * (quaternion_euler_work x y z).z
      > (0.5 - 1e-7) * (quaternion_euler_work x y z).norm2 := by
    rw [euler_work_pole_test, euler_work_unit]
    norm_num
    linarith [hsx.2]
  have p2 : ¬ (quaternion_euler_work x y z).x * (quaternion_euler_work x y z).w
        - (quaternion_euler_work x y z).y * (quaternion_euler_work x y z).z
      < -(0.5 - 1e-7) * (quaternion_euler_work x y z).norm2 := by
    rw [euler_work_pole_test, euler_work_unit]
    norm_num
    linarith [hsx.1]
  have hb := toeuler_work_nonpole _ p1 p2
  obtain ⟨a1, a2, a3⟩ := euler_work_nonpole_angles x y z (by linarith) (by linarith) hy1 hy2.le
    hz1 hz2.le
  refine ⟨euler_work_unit, p1, p2, hb, ?_⟩
  rw [hb, a1, a2, a3]

/-- Witness for C20 at `(-1, 3, -3)`. -/
theorem euler_unit_nonpole_roundtrip_witness :
    toeuler_work (quaternion_euler_work (-1 : ℝ) 3 (-3)) = ⟨-1, 3, -3⟩ := by
  have hpi := Real.pi_gt_three
  exact (euler_unit_nonpole_roundtrip (-1) 3 (-3) (by norm_num; linarith)
    (by norm_num; linarith) (by linarith) (by linarith) (by linarith) (by linarith)).2.2.2.2

/-! ## Near-parallel fallback of the interpolation: C21 -/

/-- The midpoint branch of `slerp`: for a dot product `d` with `|d| < 1` and
`sqrt(1 - d*d) < 0.001` the result is the stored midpoint of the first operand, negated when
`d < 0`, and the second operand. -/
theorem slerp_midpoint (q r : Quaternion) (t d : ℝ)
    (hd : (decodeQuat q : Quat4 ℝ).dot (decodeQuat r) = d)
    (h1 : |d| < 1) (h2 : Real.sqrt (1 - d * d) < 0.001) :
    quaternion_slerp q r t
      = lua_pushquaternion
          ((if d < 0 then (decode q.q0 : ℝ) * -1 else decode q.q0) * 0.5 + decode r.q0 * 0.5)
          ((if d < 0 then (decode q.q1 : ℝ) * -1 else decode q.q1) * 0.5 + decode r.q1 * 0.5)
          ((if d < 0 then (decode q.q2 : ℝ) * -1 else decode q.q2) * 0.5 + decode r.q2 * 0.5)
          ((if d < 0 then (decode q.q3 : ℝ) * -1 else decode q.q3) * 0.5 + decode r.q3 * 0.5)
      := by
  simp only [decodeQuat, Quat4.dot] at hd
  have e2 : 1 - -d * -d = 1 - d * d := by ring
  have e1 : d * -1 = -d := by ring
  have hs : |Real.sqrt (1 - d * d)| < 0.001 := by
    rw [abs_of_nonneg (Real.sqrt_nonneg _)]
    exact h2
  by_cases h0 : d < 0
  · simp only [quaternion_slerp, hd, ge_iff_le, not_le.mpr h1, if_false, h0, decide_True,
      sqrtf_real, e1, e2, hs, if_true]
  · simp only [quaternion_slerp, hd, ge_iff_le, not_le.mpr h1, if_false, h0, decide_False,
      sqrtf_real, hs, if_true, Bool.false_eq_true]

/-! ## Conjugate as an involution on decoded components: C22 -/

/-- The lane of a decoded component, negated or not, stays within `-32767..32767`. -/
theorem round_decode_bounds (lane : Int) (h : lane ≤ 32767) :
    (-32767 ≤ round ((decode lane : ℝ) * 32767) ∧ round ((decode lane : ℝ) * 32767) ≤ 32767)
      ∧ -32767 ≤ round (-(decode lane : ℝ) * 32767)
      ∧ round (-(decode lane : ℝ) * 32767) ≤ 32767 := by
  have hlo : (-1 : ℝ) ≤ decode lane := le_max_right _ _
  have hhi : (decode lane : ℝ) ≤ 1 := by
    unfold decode luaui_maxf
    apply max_le
    · rw [div_le_iff₀ (by norm_num)]
      have : ((lane : Int) : ℝ) ≤ ((32767 : Int) : ℝ) := by exact_mod_cast h
      push_cast at this
      linarith
    · norm_num
  have up : ∀ c : ℝ, c ≤ 1 → round (c * 32767) ≤ 32767 := by
    intro c hc
    have h1 : c * 32767 ≤ ((32767 : Int) : ℝ) := by push_cast; linarith
    have h2 := round_le (c * 32767) 32767
    by_contra hgt
    push_neg at hgt
    have h3 : 32768 ≤ round (c * 32767) := by omega
    have h4 : ((32768 : Int) : ℝ) ≤ ((round (c * 32767) : Int) : ℝ) := by exact_mod_cast h3
    push_cast at h1 h2 h4
    rw [abs_of_nonpos (by linarith), abs_of_nonpos (by linarith)] at h2
    linarith
  refine ⟨⟨round_mul_ge_of_ge hlo, up _ hhi⟩, round_mul_ge_of_ge (by linarith), ?_⟩
  exact up _ (by linarith)

/-- C22. `conjugate` negates `x`, `y`, `z` and keeps `w` of the decoded input, each component
re-quantized by `round(component*32767)`; for every compressed quaternion `q` with lanes in
`-32768..32767`, `-32768` included, `unpack(conjugate(q))` is the conjugate of `unpack(q)` and
`unpack(conjugate(conjugate(q)))` equals `unpack(q)`. -/
theorem conjugate_involution (q : Quaternion) (hq : q.valid) :
    (quaternion_conjugate_work q : Quat4 ℝ) = (decodeQuat q : Quat4 ℝ).conj
      ∧ quaternion_conjugate ℝ q
          = ⟨round (-(decode q.q0 : ℝ) * 32767), round (-(decode q.q1 : ℝ) * 32767),
              round (-(decode q.q2 : ℝ) * 32767), round ((decode q.q3 : ℝ) * 32767)⟩
      ∧ (quaternion_unpack (quaternion_conjugate ℝ q) : Quat4 ℝ)
          = (quaternion_unpack q : Quat4 ℝ).conj
      ∧ (quaternion_unpack (quaternion_conjugate ℝ (quaternion_conjugate ℝ q)) : Quat4 ℝ)
          = quaternion_unpack q := by
  obtain ⟨⟨-, a0⟩, ⟨-, a1⟩, ⟨-, a2⟩, ⟨-, a3⟩⟩ := hq
  have hu : ∀ p : Quaternion, (quaternion_unpack p : Quat4 ℝ) = decodeQuat p := fun _ => rfl
  have hc : quaternion_conjugate ℝ q
      = ⟨round (-(decode q.q0 : ℝ) * 32767), round (-(decode q.q1 : ℝ) * 32767),
          round (-(decode q.q2 : ℝ) * 32767), round ((decode q.q3 : ℝ) * 32767)⟩ := rfl
  have b0 := (round_decode_bounds q.q0 a0).2.2
  have b1 := (round_decode_bounds q.q1 a1).2.2
  have b2 := (round_decode_bounds q.q2 a2).2.2
  refine ⟨rfl, hc, ?_, ?_⟩
  · rw [hc, hu, hu]
    simp only [decodeQuat, Quat4.conj, Quat4.mk.injEq]
    exact ⟨decode_round_neg_decode _ a0, decode_round_neg_decode _ a1,
      decode_round_neg_decode _ a2, decode_round_decode _⟩
  · have hcc : quaternion_conjugate ℝ (quaternion_conjugate ℝ q)
        = ⟨round (-(decode (round (-(decode q.q0 : ℝ) * 32767)) : ℝ) * 32767),
            round (-(decode (round (-(decode q.q1 : ℝ) * 32767)) : ℝ) * 32767),
            round (-(decode (round (-(decode q.q2 : ℝ) * 32767)) : ℝ) * 32767),
            round ((decode (round ((decode q.q3 : ℝ) * 32767)) : ℝ) * 32767)⟩ := rfl
    rw [hcc, hu, hu]
    simp only [decodeQuat, Quat4.mk.injEq]
    refine ⟨?_, ?_, ?_, ?_⟩
    · rw [decode_round_neg_decode _ b0, decode_round_neg_decode _ a0, neg_neg]
    · rw [decode_round_neg_decode _ b1, decode_round_neg_decode _ a1, neg_neg]
    · rw [decode_round_neg_decode _ b2, decode_round_neg_decode _ a2, neg_neg]
    · rw [decode_round_decode, decode_round_decode]

/-- Witness for C22 at the lanes `(-32768, 5, 32767, -32768)`. -/
theorem conjugate_involution_witness :
    (quaternion_unpack (quaternion_conjugate ℝ (quaternion_conjugate ℝ
        ⟨-32768, 5, 32767, -32768⟩)) : Quat4 ℝ)
      = quaternion_unpack ⟨-32768, 5, 32767, -32768⟩ :=
  (conjugate_involution ⟨-32768, 5, 32767, -32768⟩ (by decide)).2.2.2

/-! ## Overflow, underflow and rounding noise in `pack` and `lookdir`: C2, C5, C19 -/

/-- C5, as stated, fails: `dir = (2^-100, 0, 0)` is not the zero vector and the default up hint
`(0, 1, 0)` is not parallel to it, but the squared length of `dir` underflows to `0` in `float`
arithmetic, `lookdir` takes the zero-length exit and hands `(0, 0, 0, 1)` to the quantizer; the
forward vector of the stored quaternion is `(0, 0, -1)`, at distance `1` from
`normalize(dir) = (1, 0, 0)` in the first component. -/
theorem lookdir_tiny_dir_is_identity :
    (F32.fin false 8388608 (-123)).toRat = 1 / 2 ^ 100
      ∧ ((⟨1 / 2 ^ 100, 0, 0⟩ : Vector3 ℝ) ≠ ⟨0, 0, 0⟩
        ∧ (⟨0, 1, 0⟩ : Vector3 ℝ).cross ⟨1 / 2 ^ 100, 0, 0⟩ ≠ ⟨0, 0, 0⟩)
      ∧ F32.fin false 8388608 (-123) * F32.fin false 8388608 (-123) = 0
      ∧ quaternion_lookdir_work_f32 ⟨F32.fin false 8388608 (-123), 0, 0⟩ ⟨0, 1, 0⟩
          = ⟨0, 0, 0, 1⟩
      ∧ pushQuat_f32 ⟨0, 0, 0, 1⟩ = ⟨0, 0, 0, 32767⟩
      ∧ (quaternion_direction ⟨0, 0, 0, 32767⟩ : Vector3 ℝ) = ⟨0, 0, -1⟩
      ∧ (1 / 2 ^ 100 : ℝ)
          / Real.sqrt (1 / 2 ^ 100 * (1 / 2 ^ 100) + 0 * 0 + 0 * 0) = 1
      ∧ ¬ |(quaternion_direction ⟨0, 0, 0, 32767⟩ : Vector3 ℝ).x - 1| ≤ 1e-3 := by
  have hdir : (quaternion_direction ⟨0, 0, 0, 32767⟩ : Vector3 ℝ) = ⟨0, 0, -1⟩ := by
    simp only [quaternion_direction, direction_work, decodeQuat]
    rw [decode_eq_of_ge (by norm_num), decode_eq_of_ge (by norm_num)]
    norm_num
  refine ⟨by decide!, ⟨?_, ?_⟩, by decide!, by decide!, by decide!, hdir, ?_, ?_⟩
  · intro h
    have := congrArg Vector3.x h
    norm_num at this
  · intro h
    have := congrArg Vector3.z h
    norm_num [Vector3.cross] at this
  · rw [mul_zero, add_zero, add_zero, Real.sqrt_mul_self (by positivity), div_self (by positivity)]
  · rw [hdir]
    norm_num

/-- C5, amended. For every `dir` and `up` of length between `1e-15` and `1e15` with
`|cross(up, dir)| ≥ 0.001 * |up| * |dir|` (the angle between them is at least about `0.001`
radians from `0` and from `π`), the tuple that `lookdir(dir, up)` hands to the quantizer is a
unit quaternion whose forward vector, as computed by `direction` and equal to the rotation of
`(0, 0, -1)`, is `normalize(dir)` over exact arithmetic; the forward vector of the compressed
quaternion is within `1e-3` of `normalize(dir)` in each component. The bounds keep the squares
of the `float` code from overflowing and underflowing and its cross product well above the
rounding noise. -/
theorem lookdir_forward_in_range (dir up : Vector3 ℝ)
    (hd1 : 1e-30 ≤ dir.dot dir) (_hd2 : dir.dot dir ≤ 1e30)
    (hu1 : 1e-30 ≤ up.dot up) (_hu2 : up.dot up ≤ 1e30)
    (hang : 1e-6 * (up.dot up * dir.dot dir) ≤ (up.cross dir).dot (up.cross dir)) :
    (quaternion_lookdir_work dir up).norm2 = 1
      ∧ direction_work (quaternion_lookdir_work dir up)
          = rotate (quaternion_lookdir_work dir up) ⟨0, 0, -1⟩
      ∧ direction_work (quaternion_lookdir_work dir up)
          = ⟨dir.x / Real.sqrt (dir.x * dir.x + dir.y * dir.y + dir.z * dir.z),
             dir.y / Real.sqrt (dir.x * dir.x + dir.y * dir.y + dir.z * dir.z),
             dir.z / Real.sqrt (dir.x * dir.x + dir.y * dir.y + dir.z * dir.z)⟩
      ∧ |(quaternion_direction (quaternion_lookdir dir (some up)) : Vector3 ℝ).x
            - dir.x / Real.sqrt (dir.x * dir.x + dir.y * dir.y + dir.z * dir.z)| ≤ 1e-3
      ∧ |(quaternion_direction (quaternion_lookdir dir (some up)) : Vector3 ℝ).y
            - dir.y / Real.sqrt (dir.x * dir.x + dir.y * dir.y + dir.z * dir.z)| ≤ 1e-3
      ∧ |(quaternion_direction (quaternion_lookdir dir (some up)) : Vector3 ℝ).z
            - dir.z / Real.sqrt (dir.x * dir.x + dir.y * dir.y + dir.z * dir.z)| ≤ 1e-3 := by
  have hdir : 0 < dir.x * dir.x + dir.y * dir.y + dir.z * dir.z := by
    simp only [Vector3.dot] at hd1
    exact lt_of_lt_of_le (by norm_num) hd1
  have hup : 0 < (up.cross dir).x * (up.cross dir).x + (up.cross dir).y * (up.cross dir).y
      + (up.cross dir).z * (up.cross dir).z := by
    have h1 : (0 : ℝ) < up.dot up := lt_of_lt_of_le (by norm_num) hu1
    have h2 : (0 : ℝ) < dir.dot dir := lt_of_lt_of_le (by norm_num) hd1
    have h3 : (0 : ℝ) < 1e-6 * (up.dot up * dir.dot dir) := by positivity
    have := lt_of_lt_of_le h3 hang
    simpa only [Vector3.dot] using this
  obtain ⟨hn, hd⟩ := lookdir_work_spec dir up hdir hup
  obtain ⟨qx, qy, qz⟩ := direction_quantized_close _ hn
  rw [hd] at qx qy qz
  exact ⟨hn, direction_work_eq_rotate _ hn, hd, qx, qy, qz⟩

/-- Witness for C5: looking along `(3, 0, 4)` with the up hint `(0, 1, 0)`. -/
theorem lookdir_forward_in_range_witness :
    direction_work (quaternion_lookdir_work (⟨3, 0, 4⟩ : Vector3 ℝ) ⟨0, 1, 0⟩)
      = ⟨3 / Real.sqrt (3 * 3 + 0 * 0 + 4 * 4), 0 / Real.sqrt (3 * 3 + 0 * 0 + 4 * 4),
         4 / Real.sqrt (3 * 3 + 0 * 0 + 4 * 4)⟩ :=
  (lookdir_forward_in_range ⟨3, 0, 4⟩ ⟨0, 1, 0⟩ (by norm_num [Vector3.dot])
    (by norm_num [Vector3.dot]) (by norm_num [Vector3.dot]) (by norm_num [Vector3.dot])
    (by norm_num [Vector3.dot, Vector3.cross])).2.2.1

/-- C19, evaluated where it fails: `dir = up = (3, 5, 7)`. Over exact arithmetic
`cross(up, Z)` is the zero vector, but in `float` arithmetic the rounded `Z` is not parallel to
`up`: the cross product of line 198 is `(-2^-22, 0, 0)`, its length `2^-22` is not `0`, the
fallback of lines 201-213 is skipped, and the quaternion stored, lanes
`(0, 31171, -9674, -2902)`, has a forward vector whose first component is more than `0.16` below
that of `normalize(dir)`. -/
theorem lookdir_parallel_up_skips_fallback :
    ((⟨3, 5, 7⟩ : Vector3 ℝ) ≠ ⟨0, 0, 0⟩
        ∧ (⟨3, 5, 7⟩ : Vector3 ℝ).cross (lookdir_Z ⟨3, 5, 7⟩) = ⟨0, 0, 0⟩)
      ∧ lookdir_Z_f32 ⟨3, 5, 7⟩
          = ⟨F32.fin true 11049232 (-25), F32.fin true 9207693 (-24),
              F32.fin true 12890771 (-24)⟩
      ∧ lookdir_cross_f32 ⟨3, 5, 7⟩ ⟨3, 5, 7⟩ = ⟨F32.fin true 8388608 (-45), 0, 0⟩
      ∧ lookdir_cross_length_f32 ⟨3, 5, 7⟩ ⟨3, 5, 7⟩ = F32.fin false 8388608 (-45)
      ∧ F32.feq (lookdir_cross_length_f32 ⟨3, 5, 7⟩ ⟨3, 5, 7⟩) 0 = false
      ∧ quaternion_lookdir_work_f32 ⟨3, 5, 7⟩ ⟨3, 5, 7⟩
          = ⟨0, F32.fin false 15960281 (-24), F32.fin true 9906797 (-25),
              F32.fin true 11888157 (-27)⟩
      ∧ pushQuat_f32 (quaternion_lookdir_work_f32 ⟨3, 5, 7⟩ ⟨3, 5, 7⟩)
          = ⟨0, 31171, -9674, -2902⟩
      ∧ (quaternion_direction ⟨0, 31171, -9674, -2902⟩ : Vector3 ℝ).x + 0.16
          < 3 / Real.sqrt (3 * 3 + 5 * 5 + 7 * 7) := by
  refine ⟨⟨?_, ?_⟩, by decide!, by decide!, by decide!, by decide!, by decide!, by decide!, ?_⟩
  · intro h
    have := congrArg Vector3.x h
    norm_num at this
  · simp only [Vector3.cross, lookdir_Z, sqrtf_real, Vector3.mk.injEq]
    refine ⟨by ring, by ring, by ring⟩
  · have hx : (quaternion_direction ⟨0, 31171, -9674, -2902⟩ : Vector3 ℝ).x
        = -2 * (0 / 32767) * (-9674 / 32767) - 2 * (-2902 / 32767) * (31171 / 32767) := by
      simp only [quaternion_direction, direction_work, decodeQuat]
      rw [decode_eq_of_ge (by norm_num), decode_eq_of_ge (by norm_num),
        decode_eq_of_ge (by norm_num), decode_eq_of_ge (by norm_num)]
      norm_num
    have hs : Real.sqrt (3 * 3 + 5 * 5 + 7 * 7) < 9.12 := by
      rw [Real.sqrt_lt' (by norm_num)]
      norm_num
    have hpos : 0 < Real.sqrt (3 * 3 + 5 * 5 + 7 * 7) := Real.sqrt_pos.mpr (by norm_num)
    rw [hx, lt_div_iff₀ hpos]
    nlinarith

/-! ## Interpolation in float arithmetic: C16, C21 -/

/-- The branches of `quaternion_slerp` in `float` arithmetic, with the tests of lines 303, 308
and 319 written on the named intermediate values. -/
theorem slerp_f32_branches (acosf sinf : F32 → F32) (q r : Quaternion) (t : F32) :
    quaternion_slerp_f32 acosf sinf q r t
      = if 1 ≤ F32.abs (slerp_dot_f32 q r) then SlerpResult.kept q
        else if F32.abs (slerp_sinHalfTheta_f32 q r) < 0.001 then
          SlerpResult.pushed
            ((if slerp_dot_f32 q r < 0 then decode_f32 q.q0 * -1 else decode_f32 q.q0) * 0.5
              + decode_f32 r.q0 * 0.5)
            ((if slerp_dot_f32 q r < 0 then decode_f32 q.q1 * -1 else decode_f32 q.q1) * 0.5
              + decode_f32 r.q1 * 0.5)
            ((if slerp_dot_f32 q r < 0 then decode_f32 q.q2 * -1 else decode_f32 q.q2) * 0.5
              + decode_f32 r.q2 * 0.5)
            ((if slerp_dot_f32 q r < 0 then decode_f32 q.q3 * -1 else decode_f32 q.q3) * 0.5
              + decode_f32 r.q3 * 0.5)
        else
          SlerpResult.pushed
            ((if slerp_dot_f32 q r < 0 then decode_f32 q.q0 * -1 else decode_f32 q.q0)
                * (sinf ((1 - t) * acosf (if slerp_dot_f32 q r < 0 then slerp_dot_f32 q r * -1
                    else slerp_dot_f32 q r)) / slerp_sinHalfTheta_f32 q r)
              + decode_f32 r.q0
                * (sinf (t * acosf (if slerp_dot_f32 q r < 0 then slerp_dot_f32 q r * -1
                    else slerp_dot_f32 q r)) / slerp_sinHalfTheta_f32 q r))
            ((if slerp_dot_f32 q r < 0 then decode_f32 q.q1 * -1 else decode_f32 q.q1)
                * (sinf ((1 - t) * acosf (if slerp_dot_f32 q r < 0 then slerp_dot_f32 q r * -1
                    else slerp_dot_f32 q r)) / slerp_sinHalfTheta_f32 q r)
              + decode_f32 r.q1
                * (sinf (t * acosf (if slerp_dot_f32 q r < 0 then slerp_dot_f32 q r * -1
                    else slerp_dot_f32 q r)) / slerp_sinHalfTheta_f32 q r))
            ((if slerp_dot_f32 q r < 0 then decode_f32 q.q2 * -1 else decode_f32 q.q2)
                * (sinf ((1 - t) * acosf (if slerp_dot_f32 q r < 0 then slerp_dot_f32 q r * -1
                    else slerp_dot_f32 q r)) / slerp_sinHalfTheta_f32 q r)
              + decode_f32 r.q2
                * (sinf (t * acosf (if slerp_dot_f32 q r < 0 then slerp_dot_f32 q r * -1
                    else slerp_dot_f32 q r)) / slerp_sinHalfTheta_f32 q r))
            ((if slerp_dot_f32 q r < 0 then decode_f32 q.q3 * -1 else decode_f32 q.q3)
                * (sinf ((1 - t) * acosf (if slerp_dot_f32 q r < 0 then slerp_dot_f32 q r * -1
                    else slerp_dot_f32 q r)) / slerp_sinHalfTheta_f32 q r)
              + decode_f32 r.q3
                * (sinf (t * acosf (if slerp_dot_f32 q r < 0 then slerp_dot_f32 q r * -1
                    else slerp_dot_f32 q r)) / slerp_sinHalfTheta_f32 q r)) := by
  by_cases h : slerp_dot_f32 q r < 0
  · simp only [quaternion_slerp_f32, slerp_sinHalfTheta_f32, slerp_dot_f32, decode_f32] at h ⊢
    simp only [h, decide_True, if_true]
  · simp only [quaternion_slerp_f32, slerp_sinHalfTheta_f32, slerp_dot_f32, decode_f32] at h ⊢
    simp only [h, decide_False, if_false, Bool.false_eq_true]


/-- C21, as stated, fails: for the lanes `q = (255, 21, 0, 32766)` and `r = (255, 23, 0, 32766)`
the exact dot product `d = 1 - 25/32767^2` has `|d| < 1` and `sqrt(1 - d^2) < 0.001`, and the
midpoint is stored as `(255, 22, 0, 32766)`; but the dot product that the code computes in
`float` arithmetic is `1`, so `slerp(q, r, t)` leaves `q` itself for every `t`. -/
theorem slerp_fallback_early_return :
    (|(decodeQuat ⟨255, 21, 0, 32766⟩ : Quat4 ℝ).dot (decodeQuat ⟨255, 23, 0, 32766⟩)| < 1
        ∧ Real.sqrt (1 - ((decodeQuat ⟨255, 21, 0, 32766⟩ : Quat4 ℝ).dot
            (decodeQuat ⟨255, 23, 0, 32766⟩)) ^ 2) < 0.001)
      ∧ quaternion_slerp ⟨255, 21, 0, 32766⟩ ⟨255, 23, 0, 32766⟩ (0 : ℝ)
          = ⟨255, 22, 0, 32766⟩
      ∧ slerp_dot_f32 ⟨255, 21, 0, 32766⟩ ⟨255, 23, 0, 32766⟩ = 1
      ∧ (∀ (acosf sinf : F32 → F32) (t : F32),
          quaternion_slerp_f32 acosf sinf ⟨255, 21, 0, 32766⟩ ⟨255, 23, 0, 32766⟩ t
            = SlerpResult.kept ⟨255, 21, 0, 32766⟩)
      ∧ (⟨255, 21, 0, 32766⟩ : Quaternion) ≠ ⟨255, 22, 0, 32766⟩ := by
  have hd : (decodeQuat ⟨255, 21, 0, 32766⟩ : Quat4 ℝ).dot (decodeQuat ⟨255, 23, 0, 32766⟩)
      = 1073676264 / 1073676289 := by
    simp only [decodeQuat, Quat4.dot]
    rw [decode_eq_of_ge (by norm_num), decode_eq_of_ge (by norm_num),
      decode_eq_of_ge (by norm_num), decode_eq_of_ge (by norm_num),
      decode_eq_of_ge (by norm_num)]
    norm_num
  have h1 : |(1073676264 / 1073676289 : ℝ)| < 1 := by
    rw [abs_lt]
    constructor <;> norm_num
  have h2 : Real.sqrt (1 - (1073676264 / 1073676289 : ℝ) * (1073676264 / 1073676289))
      < 0.001 := by
    rw [Real.sqrt_lt' (by norm_num)]
    norm_num
  refine ⟨⟨by rw [hd]; exact h1, ?_⟩, ?_, by decide!, ?_, by decide⟩
  · rw [hd, pow_two]
    exact h2
  · rw [slerp_midpoint _ _ 0 _ hd h1 h2, if_neg (by norm_num)]
    rw [decode_eq_of_ge (by norm_num), decode_eq_of_ge (by norm_num),
      decode_eq_of_ge (by norm_num), decode_eq_of_ge (by norm_num),
      decode_eq_of_ge (by norm_num)]
    simp only [lua_pushquaternion, Quaternion.mk.injEq]
    refine ⟨?_, ?_, ?_, ?_⟩ <;> apply round_eq_of_bounds <;> norm_num
  · intro acosf sinf t
    rw [slerp_f32_branches, if_pos (by decide!)]

/-- C21, amended. When the dot product that the code computes in `float` arithmetic fails the
test `fabsf(dot) >= 1.f` of line 303 and the `sinHalfTheta` that it computes passes the test
`fabsf(sinHalfTheta) < .001f` of line 319, the result does not depend on `t`: for every `t` the
tuple handed to the quantizer is the midpoint `q' * 0.5 + r * 0.5`, computed in `float`
arithmetic, of `r` and of `q'`, which is `q` with all components multiplied by `-1` when the
dot product is negative and `q` otherwise; whatever `acosf` and `sinf` return. -/
theorem slerp_f32_fallback_ignores_t (acosf sinf : F32 → F32) (q r : Quaternion)
    (h1 : ¬ 1 ≤ F32.abs (slerp_dot_f32 q r))
    (h2 : F32.abs (slerp_sinHalfTheta_f32 q r) < 0.001) :
    (∀ t : F32, quaternion_slerp_f32 acosf sinf q r t
        = SlerpResult.pushed
            ((if slerp_dot_f32 q r < 0 then decode_f32 q.q0 * -1 else decode_f32 q.q0) * 0.5
              + decode_f32 r.q0 * 0.5)
            ((if slerp_dot_f32 q r < 0 then decode_f32 q.q1 * -1 else decode_f32 q.q1) * 0.5
              + decode_f32 r.q1 * 0.5)
            ((if slerp_dot_f32 q r < 0 then decode_f32 q.q2 * -1 else decode_f32 q.q2) * 0.5
              + decode_f32 r.q2 * 0.5)
            ((if slerp_dot_f32 q r < 0 then decode_f32 q.q3 * -1 else decode_f32 q.q3) * 0.5
              + decode_f32 r.q3 * 0.5))
      ∧ ∀ t1 t2 : F32,
          quaternion_slerp_f32 acosf sinf q r t1 = quaternion_slerp_f32 acosf sinf q r t2 := by
  constructor
  · intro t
    rw [slerp_f32_branches, if_neg h1, if_pos h2]
  · intro t1 t2
    rw [slerp_f32_branches, slerp_f32_branches, if_neg h1, if_pos h2, if_neg h1, if_pos h2]

/-- Witness for C21: the lanes `q = (250, 2, 0, 32766)`, `r = (260, -3, 0, 32766)`, whose `float`
dot product is `1 - 2^-21` and whose `sinHalfTheta` is `2^-10`, below `.001f`. -/
theorem slerp_f32_fallback_ignores_t_witness :
    slerp_dot_f32 ⟨250, 2, 0, 32766⟩ ⟨260, -3, 0, 32766⟩ = F32.fin false 16777208 (-24)
      ∧ slerp_sinHalfTheta_f32 ⟨250, 2, 0, 32766⟩ ⟨260, -3, 0, 32766⟩
          = F32.fin false 8388608 (-33)
      ∧ ∀ (acosf sinf : F32 → F32) (t1 t2 : F32),
          quaternion_slerp_f32 acosf sinf ⟨250, 2, 0, 32766⟩ ⟨260, -3, 0, 32766⟩ t1
            = quaternion_slerp_f32 acosf sinf ⟨250, 2, 0, 32766⟩ ⟨260, -3, 0, 32766⟩ t2 :=
  ⟨by decide!, by decide!, fun acosf sinf =>
    (slerp_f32_fallback_ignores_t acosf sinf ⟨250, 2, 0, 32766⟩ ⟨260, -3, 0, 32766⟩
      (by decide!) (by decide!)).2⟩

/-- C16, amended. When the dot product `d` that the code computes in `float` arithmetic is
negative and fails the test `fabsf(dot) >= 1.f` of line 303, and the `sinHalfTheta` that it
computes, `sqrtf(1 - (-d)*(-d))`, fails the test `fabsf(sinHalfTheta) < .001f` of line 319,
`slerp(q, r, t)` negates the components of `q` and the dot product: the tuple handed to the
quantizer is `(-q) * a + r * b`, computed in `float` arithmetic, with `theta = acosf(-d)`,
`a = sinf((1 - t) * theta) / sinHalfTheta` and `b = sinf(t * theta) / sinHalfTheta`; the second
operand `r` enters the weighted sum un-negated; whatever `acosf` and `sinf` return. -/
theorem slerp_f32_shorter_arc (acosf sinf : F32 → F32) (q r : Quaternion) (t : F32)
    (h0 : slerp_dot_f32 q r < 0) (h1 : ¬ 1 ≤ F32.abs (slerp_dot_f32 q r))
    (h2 : ¬ F32.abs (slerp_sinHalfTheta_f32 q r) < 0.001) :
    slerp_sinHalfTheta_f32 q r
        = F32.sqrt (1 - slerp_dot_f32 q r * -1 * (slerp_dot_f32 q r * -1))
      ∧ ∀ theta a b : F32, theta = acosf (slerp_dot_f32 q r * -1) →
          a = sinf ((1 - t) * theta) / slerp_sinHalfTheta_f32 q r →
          b = sinf (t * theta) / slerp_sinHalfTheta_f32 q r →
          quaternion_slerp_f32 acosf sinf q r t
            = SlerpResult.pushed (decode_f32 q.q0 * -1 * a + decode_f32 r.q0 * b)
                (decode_f32 q.q1 * -1 * a + decode_f32 r.q1 * b)
                (decode_f32 q.q2 * -1 * a + decode_f32 r.q2 * b)
                (decode_f32 q.q3 * -1 * a + decode_f32 r.q3 * b) := by
  constructor
  · simp only [slerp_sinHalfTheta_f32, if_pos h0]
  · intro theta a b htheta ha hb
    rw [slerp_f32_branches, if_neg h1, if_neg h2, ha, hb, htheta]
    simp only [if_pos h0]

/-- Witness for C16 at `q = (0,0,0,1)`, `r = (2/7, 3/7, 0, -6/7)` (lanes
`(9362, 14043, 0, -28086)`) and `t = 0.5`: the `float` dot product is negative. -/
theorem slerp_f32_shorter_arc_witness :
    slerp_dot_f32 ⟨0, 0, 0, 32767⟩ ⟨9362, 14043, 0, -28086⟩ = F32.fin true 14380471 (-24)
      ∧ slerp_sinHalfTheta_f32 ⟨0, 0, 0, 32767⟩ ⟨9362, 14043, 0, -28086⟩
          = F32.fin false 8641587 (-24)
      ∧ ∀ (acosf sinf : F32 → F32) (theta a b : F32),
          theta = acosf (slerp_dot_f32 ⟨0, 0, 0, 32767⟩ ⟨9362, 14043, 0, -28086⟩ * -1) →
          a = sinf ((1 - 0.5) * theta)
              / slerp_sinHalfTheta_f32 ⟨0, 0, 0, 32767⟩ ⟨9362, 14043, 0, -28086⟩ →
          b = sinf (0.5 * theta)
              / slerp_sinHalfTheta_f32 ⟨0, 0, 0, 32767⟩ ⟨9362, 14043, 0, -28086⟩ →
          quaternion_slerp_f32 acosf sinf ⟨0, 0, 0, 32767⟩ ⟨9362, 14043, 0, -28086⟩ 0.5
            = SlerpResult.pushed (decode_f32 0 * -1 * a + decode_f32 9362 * b)
                (decode_f32 0 * -1 * a + decode_f32 14043 * b)
                (decode_f32 0 * -1 * a + decode_f32 0 * b)
                (decode_f32 32767 * -1 * a + decode_f32 (-28086) * b) :=
  ⟨by decide!, by decide!, fun acosf sinf =>
    (slerp_f32_shorter_arc acosf sinf ⟨0, 0, 0, 32767⟩ ⟨9362, 14043, 0, -28086⟩ 0.5
      (by decide!) (by decide!) (by decide!)).2⟩

/-! ## Angle-axis round trip through the quantizer: C9 -/

/-- A number between `cos (u + h)` and `cos (u - h)` has its `arccos` within `h` of `u`. -/
theorem arccos_close {u h w : ℝ} (hh : 0 ≤ h) (h0 : 0 ≤ u - h) (h1 : u + h ≤ Real.pi)
    (hw1 : Real.cos (u + h) ≤ w) (hw2 : w ≤ Real.cos (u - h)) :
    |Real.arccos w - u| ≤ h := by
  have hwl : -1 ≤ w := le_trans (Real.neg_one_le_cos _) hw1
  have hwu : w ≤ 1 := le_trans hw2 (Real.cos_le_one _)
  rw [Real.arccos_eq_pi_div_two_sub_arcsin, abs_le]
  constructor
  · have : Real.arcsin w ≤ Real.pi / 2 - (u - h) := by
      rw [Real.arcsin_le_iff_le_sin ⟨hwl, hwu⟩ ⟨by linarith, by linarith⟩,
        Real.sin_pi_div_two_sub]
      exact hw2
    linarith
  · have : Real.pi / 2 - (u + h) ≤ Real.arcsin w := by
      rw [Real.le_arcsin_iff_sin_le ⟨by linarith, by linarith⟩ ⟨hwl, hwu⟩,
        Real.sin_pi_div_two_sub]
      exact hw1
    linarith

/-- The cosine drops by `2 * sin (u + k) * sin k` over a step of `2 * k`. -/
theorem cos_sub_cos_step (u k : ℝ) :
    Real.cos u - Real.cos (u + 2 * k) = 2 * Real.sin (u + k) * Real.sin k := by
  rw [Real.cos_sub_cos]
  have e1 : (u + (u + 2 * k)) / 2 = u + k := by ring
  have e2 : (u - (u + 2 * k)) / 2 = -k := by ring
  rw [e1, e2, Real.sin_neg]
  ring

/-- Lower bound on the sine away from `0` and `π`: `a - a ^ 3 / 4 < sin v` for `v` in
`[a, π - a]`, `0 < a ≤ 1`. -/
theorem sin_lower_mid {a v : ℝ} (ha : 0 < a) (ha1 : a ≤ 1) (h1 : a ≤ v)
    (h2 : v ≤ Real.pi - a) : a - a ^ 3 / 4 < Real.sin v := by
  have hs : a - a ^ 3 / 4 < Real.sin a := Real.sin_gt_sub_cube ha ha1
  have hpi := Real.pi_gt_three
  by_cases hv : v ≤ Real.pi / 2
  · have := Real.sin_le_sin_of_le_of_le_pi_div_two (x := a) (y := v) (by linarith) hv h1
    linarith
  · push_neg at hv
    have := Real.sin_le_sin_of_le_of_le_pi_div_two (x := a) (y := Real.pi - v)
      (by linarith) (by linarith) (by linarith)
    rw [Real.sin_pi_sub] at this
    linarith

/-- The angle that `toangleaxis` computes from a `w` component within `1/65534` of `cos u`,
for `u` in `(0.15, π/2)`, is within `1e-3` of `2 * u`. -/
theorem angle_of_perturbed_cos {u w : ℝ} (hu1 : 0.15 < u) (hu2 : u < Real.pi / 2)
    (hw : |w - Real.cos u| ≤ 1 / 65534) :
    |2 * Real.arccos w - 2 * u| ≤ 1e-3 := by
  have hpi := Real.pi_gt_three
  have hk : (0.000249 : ℝ) < Real.sin 0.00025 := by
    have := Real.sin_gt_sub_cube (x := 0.00025) (by norm_num) (by norm_num)
    norm_num at this ⊢
    linarith
  have s1 := sin_lower_mid (a := 0.1) (v := u + 0.00025) (by norm_num) (by norm_num)
    (by linarith) (by linarith)
  have s2 := sin_lower_mid (a := 0.1) (v := u - 0.0005 + 0.00025) (by norm_num) (by norm_num)
    (by linarith) (by linarith)
  norm_num at s1 s2
  have c1 := cos_sub_cos_step u 0.00025
  have c2 := cos_sub_cos_step (u - 0.0005) 0.00025
  have e1 : u - 0.0005 + 2 * 0.00025 = u := by ring
  have e2 : u + 2 * 0.00025 = u + 0.0005 := by ring
  rw [e1] at c2
  rw [e2] at c1
  obtain ⟨hw1, hw2⟩ := abs_le.mp hw
  have key := arccos_close (u := u) (h := 0.0005) (w := w) (by norm_num) (by linarith) (by linarith)
    (by nlinarith) (by nlinarith)
  rw [show 2 * Real.arccos w - 2 * u = 2 * (Real.arccos w - u) by ring, abs_mul,
    abs_of_pos (by norm_num : (0 : ℝ) < 2)]
  norm_num at key ⊢
  linarith

/-- Axis component that `toangleaxis` computes from perturbed components: with `s0 ≥ 0.149`
the true sine, `s` the square root computed from the perturbed `w`, and `x` within `1/65534`
of `s0 * ux`, the quotient `x / s` is within `1e-3` of `ux`. -/
theorem axis_of_perturbed {s0 s x ux : ℝ} (hs0 : 0.149 ≤ s0) (hs : 0.148 ≤ s)
    (hss : |s0 * s0 - s * s| ≤ 3.06e-5) (hx : |x - s0 * ux| ≤ 1 / 65534) (hux : |ux| ≤ 1) :
    |x / s - ux| ≤ 1e-3 := by
  have hspos : 0 < s := lt_of_lt_of_le (by norm_num) hs
  have hd : |s0 - s| ≤ 1.04e-4 := by
    have e : s0 * s0 - s * s = (s0 - s) * (s0 + s) := by ring
    rw [e, abs_mul, abs_of_pos (by linarith : 0 < s0 + s)] at hss
    have hnn := abs_nonneg (s0 - s)
    nlinarith
  have e : x / s - ux = ((x - s0 * ux) + ux * (s0 - s)) / s := by
    field_simp
    ring
  rw [e, abs_div, abs_of_pos hspos, div_le_iff₀ hspos]
  have h1 : |ux * (s0 - s)| ≤ 1.04e-4 := by
    rw [abs_mul]
    have := abs_nonneg (s0 - s)
    have := abs_nonneg ux
    nlinarith
  have h2 := abs_add (x - s0 * ux) (ux * (s0 - s))
  norm_num at hx h1 hd ⊢
  nlinarith

/-- What `toangleaxis` computes from components within `1/65534` of those of the rotation by
`2 * u` about the unit axis `(ux, uy, uz)`, for `u` in `(0.15, π/2)`: the angle within `1e-3` of
`2 * u` and each axis component within `1e-3` of the unit axis. -/
theorem toangleaxis_perturbed {u x y z w ux uy uz : ℝ} (hu1 : 0.15 < u)
    (hu2 : u < Real.pi / 2) (hunit : ux * ux + uy * uy + uz * uz = 1)
    (hx : |x - Real.sin u * ux| ≤ 1 / 65534) (hy : |y - Real.sin u * uy| ≤ 1 / 65534)
    (hz : |z - Real.sin u * uz| ≤ 1 / 65534) (hw : |w - Real.cos u| ≤ 1 / 65534) :
    |(toangleaxis_work (⟨x, y, z, w⟩ : Quat4 ℝ)).angle - 2 * u| ≤ 1e-3
      ∧ |(toangleaxis_work (⟨x, y, z, w⟩ : Quat4 ℝ)).x - ux| ≤ 1e-3
      ∧ |(toangleaxis_work (⟨x, y, z, w⟩ : Quat4 ℝ)).y - uy| ≤ 1e-3
      ∧ |(toangleaxis_work (⟨x, y, z, w⟩ : Quat4 ℝ)).z - uz| ≤ 1e-3 := by
  have hpi := Real.pi_gt_three
  have hs0 := sin_lower_mid (a := 0.15) (v := u) (by norm_num) (by norm_num) hu1.le
    (by linarith)
  norm_num at hs0
  have hs0 : 0.149 ≤ Real.sin u := by norm_num; linarith
  have hc0 : 0 ≤ Real.cos u := Real.cos_nonneg_of_neg_pi_div_two_le_of_le (by linarith) hu2.le
  have hc1 : Real.cos u ≤ 1 := Real.cos_le_one u
  have hsc := Real.sin_sq_add_cos_sq u
  obtain ⟨hw1, hw2⟩ := abs_le.mp hw
  have hss : |Real.sin u * Real.sin u - (1 - w * w)| ≤ 3.06e-5 := by
    have e : Real.sin u * Real.sin u - (1 - w * w) = (w - Real.cos u) * (w + Real.cos u) := by
      linear_combination hsc
    rw [e, abs_mul]
    have h2 : |w + Real.cos u| ≤ 2 + 1 / 65534 := by
      rw [abs_le]
      constructor <;> linarith
    have := abs_nonneg (w - Real.cos u)
    have := abs_nonneg (w + Real.cos u)
    norm_num at hw h2 ⊢
    nlinarith
  have hpos : 0 ≤ 1 - w * w := by
    have := (abs_le.mp hss).2
    norm_num at this hs0
    nlinarith
  have hs : 0.148 ≤ Real.sqrt (1 - w * w) := by
    apply Real.le_sqrt_of_sq_le
    have := (abs_le.mp hss).2
    norm_num at this hs0 ⊢
    nlinarith
  have hss2 : |Real.sin u * Real.sin u
      - Real.sqrt (1 - w * w) * Real.sqrt (1 - w * w)| ≤ 3.06e-5 := by
    rw [Real.mul_self_sqrt hpos]
    exact hss
  have hnlt : ¬ Real.sqrt (1 - w * w) < 0.0001 := by
    rw [not_lt]
    norm_num at hs ⊢
    linarith
  have hax : ∀ c : ℝ, c * (1 / Real.sqrt (1 - w * w)) = c / Real.sqrt (1 - w * w) := by
    intro c
    rw [mul_one_div]
  have hu : ∀ c : ℝ, c * c ≤ 1 → |c| ≤ 1 := by
    intro c hc
    rw [abs_le]
    constructor
    · linarith [mul_self_nonneg (c + 1)]
    · linarith [mul_self_nonneg (c - 1)]
  simp only [toangleaxis_work, sqrtf_real, acosf_real, hnlt, if_false, hax]
  refine ⟨angle_of_perturbed_cos hu1 hu2 hw, ?_, ?_, ?_⟩
  · exact axis_of_perturbed hs0 hs hss2 hx
      (hu ux (by linarith [mul_self_nonneg uy, mul_self_nonneg uz]))
  · exact axis_of_perturbed hs0 hs hss2 hy
      (hu uy (by linarith [mul_self_nonneg ux, mul_self_nonneg uz]))
  · exact axis_of_perturbed hs0 hs hss2 hz
      (hu uz (by linarith [mul_self_nonneg ux, mul_self_nonneg uy]))

/-- C9, amended. For every axis of magnitude `> 0.01` (and at most `1e18`, so that its squared
length is a finite float) and every angle in `(0.3, π - 0.01)`: the tuple that
`angleaxis(angle, ax, ay, az)` builds is, over exact real arithmetic, taken by the arithmetic of
`toangleaxis` back to the same angle and the unit axis `(ax, ay, az) / |(ax, ay, az)|`; and
through the quantizer, `toangleaxis(angleaxis(angle, ax, ay, az))` returns an angle within `1e-3`
of `angle` and an axis within `1e-3` of that unit axis in each component. -/
theorem angleaxis_roundtrip_quantized (angle ax ay az : ℝ)
    (hlen : 0.01 < Real.sqrt (ax * ax + ay * ay + az * az))
    (_hmax : Real.sqrt (ax * ax + ay * ay + az * az) ≤ 1e18)
    (h1 : 0.3 < angle) (h2 : angle < Real.pi - 0.01) :
    toangleaxis_work (quaternion_angleaxis_work angle ax ay az)
        = ⟨angle, ax / Real.sqrt (ax * ax + ay * ay + az * az),
            ay / Real.sqrt (ax * ax + ay * ay + az * az),
            az / Real.sqrt (ax * ax + ay * ay + az * az)⟩
      ∧ |(quaternion_toangleaxis (quaternion_angleaxis angle ax ay az) : AngleAxis ℝ).angle
            - angle| ≤ 1e-3
      ∧ |(quaternion_toangleaxis (quaternion_angleaxis angle ax ay az) : AngleAxis ℝ).x
            - ax / Real.sqrt (ax * ax + ay * ay + az * az)| ≤ 1e-3
      ∧ |(quaternion_toangleaxis (quaternion_angleaxis angle ax ay az) : AngleAxis ℝ).y
            - ay / Real.sqrt (ax * ax + ay * ay + az * az)| ≤ 1e-3
      ∧ |(quaternion_toangleaxis (quaternion_angleaxis angle ax ay az) : AngleAxis ℝ).z
            - az / Real.sqrt (ax * ax + ay * ay + az * az)| ≤ 1e-3 := by
  refine ⟨angleaxis_roundtrip_exact angle ax ay az hlen (by linarith) h2, ?_⟩
  have hpi := Real.pi_gt_three
  have hL : 0 < Real.sqrt (ax * ax + ay * ay + az * az) := lt_trans (by norm_num) hlen
  have hLL : Real.sqrt (ax * ax + ay * ay + az * az) * Real.sqrt (ax * ax + ay * ay + az * az)
      = ax * ax + ay * ay + az * az :=
    Real.mul_self_sqrt (by nlinarith [mul_self_nonneg ax, mul_self_nonneg ay, mul_self_nonneg az])
  generalize hLe : Real.sqrt (ax * ax + ay * ay + az * az) = L at hL hLL ⊢
  have hunit : ax / L * (ax / L) + ay / L * (ay / L) + az / L * (az / L) = 1 := by
    field_simp
    linarith
  have hu1 : 0.15 < angle * 0.5 := by norm_num at h1 ⊢; linarith
  have hu2 : angle * 0.5 < Real.pi / 2 := by norm_num at h2 ⊢; linarith
  have he : 2 * (angle * 0.5) = angle := by ring
  have hsb := Real.sin_le_one (angle * 0.5)
  have hsb2 := Real.neg_one_le_sin (angle * 0.5)
  have hc0 : 0 ≤ Real.cos (angle * 0.5) :=
    Real.cos_nonneg_of_neg_pi_div_two_le_of_le (by linarith) hu2.le
  have hcomp : ∀ c : ℝ, c * c ≤ 1 → -1 ≤ Real.sin (angle * 0.5) * c := by
    intro c hc
    nlinarith [mul_self_nonneg (Real.sin (angle * 0.5) + c),
      mul_self_nonneg (Real.sin (angle * 0.5) - c), Real.sin_sq_add_cos_sq (angle * 0.5),
      mul_self_nonneg (Real.cos (angle * 0.5))]
  have hq : ∀ c : ℝ, Real.sin (angle * 0.5) / L * c = Real.sin (angle * 0.5) * (c / L) := by
    intro c
    field_simp
  have key := toangleaxis_perturbed hu1 hu2 hunit
    (decode_round_close (hcomp (ax / L)
      (by nlinarith [mul_self_nonneg (ay / L), mul_self_nonneg (az / L)])))
    (decode_round_close (hcomp (ay / L)
      (by nlinarith [mul_self_nonneg (ax / L), mul_self_nonneg (az / L)])))
    (decode_round_close (hcomp (az / L)
      (by nlinarith [mul_self_nonneg (ax / L), mul_self_nonneg (ay / L)])))
    (decode_round_close (c := Real.cos (angle * 0.5)) (by linarith))
  rw [he] at key
  simpa only [quaternion_toangleaxis, quaternion_angleaxis, quaternion_angleaxis_work, pushQuat,
    lua_pushquaternion, decodeQuat, sinf_real, cosf_real, sqrtf_real, hLe, gt_iff_lt, hL, if_true,
    hq] using key

/-- Witness for C9 at the angle `1` about the axis `(0, 0, 2)`. -/
theorem angleaxis_roundtrip_quantized_witness :
    |(quaternion_toangleaxis (quaternion_angleaxis (1 : ℝ) 0 0 2) : AngleAxis ℝ).angle - 1|
      ≤ 1e-3 :=
  (angleaxis_roundtrip_quantized 1 0 0 2
    (by
      rw [show (0 : ℝ) * 0 + 0 * 0 + 2 * 2 = 2 ^ 2 by norm_num, Real.sqrt_sq (by norm_num)]
      norm_num)
    (by
      rw [show (0 : ℝ) * 0 + 0 * 0 + 2 * 2 = 2 ^ 2 by norm_num, Real.sqrt_sq (by norm_num)]
      norm_num)
    (by norm_num)
    (by have := Real.pi_gt_three; norm_num; linarith)).2.1

/-! ## Perturbation of `atan2` and `asin` under quantization -/

/-- An angle in `(-π/2, π/2)` whose sine is at most `sin h` in absolute value is at most `h` in
absolute value. -/
theorem abs_le_of_abs_sin_le {d h : ℝ} (hd1 : -(Real.pi / 2) < d) (hd2 : d < Real.pi / 2)
    (hh : 0 ≤ h) (hs : |Real.sin d| ≤ Real.sin h) : |d| ≤ h := by
  obtain ⟨hs1, hs2⟩ := abs_le.mp hs
  rw [abs_le]
  constructor
  · by_contra hn
    push_neg at hn
    have := Real.sin_lt_sin_of_lt_of_le_pi_div_two (x := d) (y := -h) hd1.le (by linarith) hn
    rw [Real.sin_neg] at this
    linarith
  · by_contra hn
    push_neg at hn
    have := Real.sin_lt_sin_of_lt_of_le_pi_div_two (x := h) (y := d) (by linarith) hd2.le hn
    linarith

/-- An angle in `[-2π, 2π]` with positive cosine and sine at most `sin h` in absolute value is
within `h` of `0`, of `2π` or of `-2π`. -/
theorem near_turn_of_abs_sin_le {d h : ℝ} (hd1 : -(2 * Real.pi) ≤ d) (hd2 : d ≤ 2 * Real.pi)
    (hh : 0 ≤ h) (hc : 0 < Real.cos d)
    (hs : |Real.sin d| ≤ Real.sin h) :
    |d| ≤ h ∨ |d - 2 * Real.pi| ≤ h ∨ |d + 2 * Real.pi| ≤ h := by
  have hpi := Real.pi_pos
  by_cases c1 : Real.pi / 2 ≤ d
  · right
    left
    have h3 : Real.pi + Real.pi / 2 < d := by
      by_contra hn
      push_neg at hn
      have := Real.cos_nonpos_of_pi_div_two_le_of_le c1 hn
      linarith
    apply abs_le_of_abs_sin_le (by linarith) (by linarith) hh
    rw [Real.sin_sub_two_pi]
    exact hs
  · push_neg at c1
    by_cases c2 : d ≤ -(Real.pi / 2)
    · right
      right
      have h3 : d < -(Real.pi + Real.pi / 2) := by
        by_contra hn
        push_neg at hn
        have := Real.cos_nonpos_of_pi_div_two_le_of_le (x := -d) (by linarith) (by linarith)
        rw [Real.cos_neg] at this
        linarith
      apply abs_le_of_abs_sin_le (by linarith) (by linarith) hh
      rw [Real.sin_add_two_pi]
      exact hs
    · push_neg at c2
      left
      exact abs_le_of_abs_sin_le c2 c1 hh hs

/-- The exact `atan2` of a point within distance `η` of the point at radius `ρ` and angle `φ`
is within `h` of `φ` up to a full turn, as soon as `η ≤ sin h * (ρ - η)`. -/
theorem arg_perturbed {ρ φ a b η h : ℝ} (hφ1 : -Real.pi ≤ φ) (hφ2 : φ ≤ Real.pi)
    (hh : 0 ≤ h) (hh2 : h ≤ Real.pi / 2) (hη : 0 ≤ η) (hρ : η < ρ)
    (hab : (a - ρ * Real.cos φ) * (a - ρ * Real.cos φ)
      + (b - ρ * Real.sin φ) * (b - ρ * Real.sin φ) ≤ η * η)
    (hs : η ≤ Real.sin h * (ρ - η)) :
    |Complex.arg ⟨a, b⟩ - φ| ≤ h ∨ |Complex.arg ⟨a, b⟩ - φ - 2 * Real.pi| ≤ h
      ∨ |Complex.arg ⟨a, b⟩ - φ + 2 * Real.pi| ≤ h := by
  have hpi := Real.pi_pos
  have hsc := sin_mul_self_add_cos_mul_self φ
  have hsh : 0 ≤ Real.sin h := Real.sin_nonneg_of_nonneg_of_le_pi hh (by linarith)
  -- the tangential and the radial part of the point
  have hNM : (b * Real.cos φ - a * Real.sin φ) * (b * Real.cos φ - a * Real.sin φ)
      + (a * Real.cos φ + b * Real.sin φ - ρ) * (a * Real.cos φ + b * Real.sin φ - ρ)
      = (a - ρ * Real.cos φ) * (a - ρ * Real.cos φ)
        + (b - ρ * Real.sin φ) * (b - ρ * Real.sin φ) := by
    linear_combination (a * a + b * b - ρ * ρ) * hsc
  generalize hNe : b * Real.cos φ - a * Real.sin φ = N at hNM
  generalize hMe : a * Real.cos φ + b * Real.sin φ = M at hNM
  have hN : |N| ≤ η := by
    rw [abs_le]
    constructor <;> nlinarith [mul_self_nonneg (M - ρ)]
  have hM : ρ - η ≤ M := by nlinarith [mul_self_nonneg N]
  have hM0 : 0 < M := by linarith
  have hrr : Complex.abs ⟨a, b⟩ * Complex.abs ⟨a, b⟩ = N * N + M * M := by
    rw [Complex.mul_self_abs, Complex.normSq_mk, ← hNe, ← hMe]
    linear_combination (-(a * a) - b * b) * hsc
  have hr0 : 0 ≤ Complex.abs ⟨a, b⟩ := Complex.abs.nonneg _
  have hrM : M ≤ Complex.abs ⟨a, b⟩ := by nlinarith [mul_self_nonneg N]
  have hr : 0 < Complex.abs ⟨a, b⟩ := by linarith
  have hz : (⟨a, b⟩ : ℂ) ≠ 0 := by
    intro h0
    rw [h0, map_zero] at hr
    exact lt_irrefl _ hr
  have hcos : Real.cos (Complex.arg ⟨a, b⟩) = a / Complex.abs ⟨a, b⟩ := Complex.cos_arg hz
  have hsin : Real.sin (Complex.arg ⟨a, b⟩) = b / Complex.abs ⟨a, b⟩ := Complex.sin_arg _
  have h1 := Complex.neg_pi_lt_arg ⟨a, b⟩
  have h2 := Complex.arg_le_pi ⟨a, b⟩
  generalize Complex.arg ⟨a, b⟩ = θ at hcos hsin h1 h2 ⊢
  generalize Complex.abs ⟨a, b⟩ = r at hcos hsin hrr hr0 hrM hr
  have hsd : Real.sin (θ - φ) = N / r := by
    rw [Real.sin_sub, hsin, hcos, ← hNe]
    field_simp
  have hcd : Real.cos (θ - φ) = M / r := by
    rw [Real.cos_sub, hsin, hcos, ← hMe]
    field_simp
  have key := near_turn_of_abs_sin_le (d := θ - φ) (h := h) (by linarith) (by linarith) hh
    (by rw [hcd]; positivity)
    (by
      rw [hsd, abs_div, abs_of_pos hr, div_le_iff₀ hr]
      calc |N| ≤ η := hN
        _ ≤ Real.sin h * (ρ - η) := hs
        _ ≤ Real.sin h * r := mul_le_mul_of_nonneg_left (by linarith) hsh)
  exact key

/-- The square of a number bounded by `e` in absolute value is at most `e * e`. -/
theorem mul_self_le_of_abs_le {d e : ℝ} (h : |d| ≤ e) : d * d ≤ e * e := by
  obtain ⟨h1, h2⟩ := abs_le.mp h
  nlinarith [mul_nonneg (sub_nonneg.mpr h2) (by linarith : (0 : ℝ) ≤ e + d)]

/-- The branch that `toeuler` takes when the first pole test passes. -/
theorem toeuler_work_pole_pos {x y z w : ℝ}
    (h : x * w - y * z > (0.5 - 1e-7) * (x * x + y * y + z * z + w * w)) :
    toeuler_work (⟨x, y, z, w⟩ : Quat4 ℝ) = ⟨Real.pi / 2, 2 * Complex.arg ⟨x, y⟩, 0⟩ := by
  simp only [toeuler_work, PI_real, atan2f_real]
  rw [if_pos h]

/-- The branch that `toeuler` takes when the second pole test passes. -/
theorem toeuler_work_pole_neg {x y z w : ℝ}
    (h : x * w - y * z < -(0.5 - 1e-7) * (x * x + y * y + z * z + w * w)) :
    toeuler_work (⟨x, y, z, w⟩ : Quat4 ℝ) = ⟨-Real.pi / 2, -2 * Complex.arg ⟨x, y⟩, 0⟩ := by
  have h1 : ¬ x * w - y * z > (0.5 - 1e-7) * (x * x + y * y + z * z + w * w) := by
    have := mul_self_nonneg x
    have := mul_self_nonneg y
    have := mul_self_nonneg z
    have := mul_self_nonneg w
    norm_num at h ⊢
    linarith
  simp only [toeuler_work, PI_real, atan2f_real]
  rw [if_neg h1, if_pos h]

/-- Closeness facts shared by the two poles: a point within `1/65534` in each coordinate of the
point at radius `ρ = √(1/2)` and angle `φ` has squared radius at least `0.4`, and its `atan2` is
within `5e-5` of `φ` up to a full turn. -/
theorem pole_point_close {ρ φ a b : ℝ} (hρ : ρ * ρ = 1 / 2) (hρ0 : 0 < ρ)
    (hφ1 : -Real.pi ≤ φ) (hφ2 : φ ≤ Real.pi)
    (da : |a - ρ * Real.cos φ| ≤ 1 / 65534) (db : |b - ρ * Real.sin φ| ≤ 1 / 65534) :
    0.4 ≤ a * a + b * b
      ∧ (|Complex.arg ⟨a, b⟩ - φ| ≤ 5e-5 ∨ |Complex.arg ⟨a, b⟩ - φ - 2 * Real.pi| ≤ 5e-5
        ∨ |Complex.arg ⟨a, b⟩ - φ + 2 * Real.pi| ≤ 5e-5) := by
  have hpi := Real.pi_gt_three
  have hsc := sin_mul_self_add_cos_mul_self φ
  have hρ1 : 0.7 ≤ ρ := by
    by_contra hn
    push_neg at hn
    nlinarith
  have hρ2 : ρ ≤ 1 := by
    by_contra hn
    push_neg at hn
    nlinarith
  have hA : |ρ * Real.cos φ| ≤ 1 := by
    rw [abs_mul, abs_of_pos hρ0]
    have := Real.abs_cos_le_one φ
    have := abs_nonneg (Real.cos φ)
    nlinarith
  have hB : |ρ * Real.sin φ| ≤ 1 := by
    rw [abs_mul, abs_of_pos hρ0]
    have := Real.abs_sin_le_one φ
    have := abs_nonneg (Real.sin φ)
    nlinarith
  have pa := prod_close _ _ _ _ hA hA da da
  have pb := prod_close _ _ _ _ hB hB db db
  have hAB : ρ * Real.cos φ * (ρ * Real.cos φ) + ρ * Real.sin φ * (ρ * Real.sin φ) = 1 / 2 := by
    linear_combination (Real.sin φ * Real.sin φ + Real.cos φ * Real.cos φ) * hρ + (1 / 2) * hsc
  constructor
  · have := (abs_le.mp pa).1
    have := (abs_le.mp pb).1
    norm_num at *
    linarith
  · have sa := mul_self_le_of_abs_le da
    have sb := mul_self_le_of_abs_le db
    have hsin : (4.99e-5 : ℝ) ≤ Real.sin 5e-5 := by
      have := Real.sin_gt_sub_cube (x := 5e-5) (by norm_num) (by norm_num)
      norm_num at this ⊢
      linarith
    apply arg_perturbed (ρ := ρ) (φ := φ) (η := 2.2e-5) (h := 5e-5) hφ1 hφ2 (by norm_num) (by norm_num; linarith)
      (by norm_num) (by norm_num at hρ1 ⊢; linarith)
    · norm_num at sa sb ⊢
      linarith
    · have : (4.99e-5 : ℝ) * (ρ - 2.2e-5) ≤ Real.sin 5e-5 * (ρ - 2.2e-5) :=
        mul_le_mul_of_nonneg_right hsin (by norm_num at hρ1 ⊢; linarith)
      norm_num at this hρ1 ⊢
      linarith

/-- What `toeuler` computes from components within `1/65534` of those built at the positive
pole, `(ρ cos φ, ρ sin φ, -ρ sin φ, ρ cos φ)` with `ρ = √(1/2)` and `φ` in `(-π/2, π/2)`. -/
theorem toeuler_pole_pos_perturbed {ρ φ x y z w : ℝ} (hρ : ρ * ρ = 1 / 2) (hρ0 : 0 < ρ)
    (hφ1 : -(Real.pi / 2) < φ) (hφ2 : φ < Real.pi / 2)
    (dx : |x - ρ * Real.cos φ| ≤ 1 / 65534) (dy : |y - ρ * Real.sin φ| ≤ 1 / 65534)
    (dz : |z - -(ρ * Real.sin φ)| ≤ 1 / 65534) (dw : |w - ρ * Real.cos φ| ≤ 1 / 65534) :
    (toeuler_work (⟨x, y, z, w⟩ : Quat4 ℝ)).x = Real.pi / 2
      ∧ |(toeuler_work (⟨x, y, z, w⟩ : Quat4 ℝ)).y - 2 * φ| ≤ 1e-4
      ∧ (toeuler_work (⟨x, y, z, w⟩ : Quat4 ℝ)).z = 0 := by
  have hpi := Real.pi_gt_three
  obtain ⟨hu, harg⟩ := pole_point_close hρ hρ0 (by linarith) (by linarith) dx dy
  have h1 : |x - w| ≤ 2 / 65534 := by
    rw [abs_le] at dx dw ⊢
    constructor <;> linarith [dx.1, dx.2, dw.1, dw.2]
  have h2 : |y + z| ≤ 2 / 65534 := by
    rw [abs_le] at dy dz ⊢
    constructor <;> linarith [dy.1, dy.2, dz.1, dz.2]
  have s1 := mul_self_le_of_abs_le h1
  have s2 := mul_self_le_of_abs_le h2
  have ht : x * w - y * z > (0.5 - 1e-7) * (x * x + y * y + z * z + w * w) := by
    have := mul_self_nonneg z
    have := mul_self_nonneg w
    norm_num at s1 s2 hu ⊢
    nlinarith
  rw [toeuler_work_pole_pos ht]
  refine ⟨rfl, ?_, rfl⟩
  have t1 := Complex.neg_pi_lt_arg ⟨x, y⟩
  have t2 := Complex.arg_le_pi ⟨x, y⟩
  simp only
  generalize Complex.arg ⟨x, y⟩ = θ at harg t1 t2 ⊢
  rcases harg with h | h | h
  · rw [abs_le] at h ⊢
    constructor <;> norm_num at h ⊢ <;> linarith [h.1, h.2]
  · rw [abs_le] at h
    norm_num at h
    linarith [h.1]
  · rw [abs_le] at h
    norm_num at h
    linarith [h.2]

/-- What `toeuler` computes from components within `1/65534` of those built at the negative
pole, `(-ρ cos φ, ρ sin φ, ρ sin φ, ρ cos φ)` with `ρ = √(1/2)` and `φ` in `(-π/2, π/2)`: the
second angle is within `1e-4` of `2φ - 2π` or of `2φ + 2π`. -/
theorem toeuler_pole_neg_perturbed {ρ φ x y z w : ℝ} (hρ : ρ * ρ = 1 / 2) (hρ0 : 0 < ρ)
    (hφ1 : -(Real.pi / 2) < φ) (hφ2 : φ < Real.pi / 2)
    (dx : |x - -(ρ * Real.cos φ)| ≤ 1 / 65534) (dy : |y - ρ * Real.sin φ| ≤ 1 / 65534)
    (dz : |z - ρ * Real.sin φ| ≤ 1 / 65534) (dw : |w - ρ * Real.cos φ| ≤ 1 / 65534) :
    (toeuler_work (⟨x, y, z, w⟩ : Quat4 ℝ)).x = -(Real.pi / 2)
      ∧ (|(toeuler_work (⟨x, y, z, w⟩ : Quat4 ℝ)).y - (2 * φ - 2 * Real.pi)| ≤ 1e-4
        ∨ |(toeuler_work (⟨x, y, z, w⟩ : Quat4 ℝ)).y - (2 * φ + 2 * Real.pi)| ≤ 1e-4)
      ∧ (toeuler_work (⟨x, y, z, w⟩ : Quat4 ℝ)).z = 0 := by
  have hpi := Real.pi_gt_three
  -- the mirrored angle, in `[-π, π]`
  obtain ⟨ψ, hψ1, hψ2, hcψ, hsψ, hψ⟩ : ∃ ψ : ℝ, -Real.pi ≤ ψ ∧ ψ ≤ Real.pi
      ∧ Real.cos ψ = -Real.cos φ ∧ Real.sin ψ = Real.sin φ
      ∧ (ψ = Real.pi - φ ∨ ψ = -Real.pi - φ) := by
    by_cases h0 : 0 ≤ φ
    · exact ⟨Real.pi - φ, by linarith, by linarith, Real.cos_pi_sub φ, Real.sin_pi_sub φ,
        Or.inl rfl⟩
    · push_neg at h0
      refine ⟨-Real.pi - φ, by linarith, by linarith, ?_, ?_, Or.inr rfl⟩
      · rw [show -Real.pi - φ = -(φ + Real.pi) by ring, Real.cos_neg, Real.cos_add_pi]
      · rw [show -Real.pi - φ = -(φ + Real.pi) by ring, Real.sin_neg, Real.sin_add_pi, neg_neg]
  have dx2 : |x - ρ * Real.cos ψ| ≤ 1 / 65534 := by
    rw [hcψ, mul_neg]
    exact dx
  have dy2 : |y - ρ * Real.sin ψ| ≤ 1 / 65534 := by
    rw [hsψ]
    exact dy
  obtain ⟨hu, harg⟩ := pole_point_close hρ hρ0 hψ1 hψ2 dx2 dy2
  have h1 : |x + w| ≤ 2 / 65534 := by
    rw [abs_le] at dx dw ⊢
    constructor <;> linarith [dx.1, dx.2, dw.1, dw.2]
  have h2 : |y - z| ≤ 2 / 65534 := by
    rw [abs_le] at dy dz ⊢
    constructor <;> linarith [dy.1, dy.2, dz.1, dz.2]
  have s1 := mul_self_le_of_abs_le h1
  have s2 := mul_self_le_of_abs_le h2
  have ht : x * w - y * z < -(0.5 - 1e-7) * (x * x + y * y + z * z + w * w) := by
    have := mul_self_nonneg z
    have := mul_self_nonneg w
    norm_num at s1 s2 hu ⊢
    nlinarith
  rw [toeuler_work_pole_neg ht]
  refine ⟨neg_div _ _, ?_, rfl⟩
  have t1 := Complex.neg_pi_lt_arg ⟨x, y⟩
  have t2 := Complex.arg_le_pi ⟨x, y⟩
  simp only
  generalize Complex.arg ⟨x, y⟩ = θ at harg t1 t2 ⊢
  have key : |θ - Real.pi + φ| ≤ 5e-5 ∨ |θ + Real.pi + φ| ≤ 5e-5 := by
    rcases hψ with e | e
    · rw [e] at harg
      rcases harg with h | h | h
      · left
        rw [show θ - Real.pi + φ = θ - (Real.pi - φ) by ring]
        exact h
      · rw [abs_le] at h
        norm_num at h
        linarith [h.1]
      · right
        rw [show θ + Real.pi + φ = θ - (Real.pi - φ) + 2 * Real.pi by ring]
        exact h
    · rw [e] at harg
      rcases harg with h | h | h
      · right
        rw [show θ + Real.pi + φ = θ - (-Real.pi - φ) by ring]
        exact h
      · left
        rw [show θ - Real.pi + φ = θ - (-Real.pi - φ) - 2 * Real.pi by ring]
        exact h
      · rw [abs_le] at h
        norm_num at h
        linarith [h.2]
  rcases key with h | h
  · left
    rw [abs_le] at h ⊢
    constructor <;> norm_num at h ⊢ <;> linarith [h.1, h.2]
  · right
    rw [abs_le] at h ⊢
    constructor <;> norm_num at h ⊢ <;> linarith [h.1, h.2]

/-! ## Gimbal-lock poles through the quantizer: C17 -/

/-- C17, amended. Through the quantizer, for every `y` in `(-π, π)`:
`toeuler(euler(π/2, y, 0))` returns `(π/2, y', 0)` with `y'` within `1e-4` of `y`, and
`toeuler(euler(-π/2, y, 0))` returns `(-π/2, y', 0)` with `y'` within `1e-4` of `y - 2π` or of
`y + 2π`, that is, equal to `y` up to a full turn (first angle fixed to `±π/2`, second
computed via `atan2`, third forced to `0`). -/
theorem toeuler_euler_poles_quantized (y : ℝ) (h1 : -Real.pi < y) (h2 : y < Real.pi) :
    ((quaternion_toeuler (quaternion_euler (Real.pi / 2) y 0) : Vector3 ℝ).x = Real.pi / 2
        ∧ |(quaternion_toeuler (quaternion_euler (Real.pi / 2) y 0) : Vector3 ℝ).y - y| ≤ 1e-4
        ∧ (quaternion_toeuler (quaternion_euler (Real.pi / 2) y 0) : Vector3 ℝ).z = 0)
      ∧ ((quaternion_toeuler (quaternion_euler (-(Real.pi / 2)) y 0) : Vector3 ℝ).x
            = -(Real.pi / 2)
        ∧ (|(quaternion_toeuler (quaternion_euler (-(Real.pi / 2)) y 0) : Vector3 ℝ).y
              - (y - 2 * Real.pi)| ≤ 1e-4
          ∨ |(quaternion_toeuler (quaternion_euler (-(Real.pi / 2)) y 0) : Vector3 ℝ).y
              - (y + 2 * Real.pi)| ≤ 1e-4)
        ∧ (quaternion_toeuler (quaternion_euler (-(Real.pi / 2)) y 0) : Vector3 ℝ).z = 0) := by
  have hs : (0 : ℝ) < Real.sqrt 2 / 2 := by positivity
  have hss : Real.sqrt 2 / 2 * (Real.sqrt 2 / 2) = 1 / 2 := by
    rw [div_mul_div_comm, Real.mul_self_sqrt (by norm_num)]
    norm_num
  have hle : Real.sqrt 2 / 2 ≤ 1 := by
    by_contra hn
    push_neg at hn
    nlinarith
  have hc : -1 ≤ Real.sqrt 2 / 2 * Real.cos (y / 2)
      ∧ -1 ≤ -(Real.sqrt 2 / 2 * Real.cos (y / 2)) := by
    have c1 := Real.neg_one_le_cos (y / 2)
    have c2 := Real.cos_le_one (y / 2)
    constructor <;> nlinarith
  have hsn : -1 ≤ Real.sqrt 2 / 2 * Real.sin (y / 2)
      ∧ -1 ≤ -(Real.sqrt 2 / 2 * Real.sin (y / 2)) := by
    have c1 := Real.neg_one_le_sin (y / 2)
    have c2 := Real.sin_le_one (y / 2)
    constructor <;> nlinarith
  have e : 2 * (y / 2) = y := by ring
  obtain ⟨w1, w2⟩ := euler_work_poles y
  constructor
  · have key := toeuler_pole_pos_perturbed hss hs (show -(Real.pi / 2) < y / 2 by linarith)
      (show y / 2 < Real.pi / 2 by linarith) (decode_round_close hc.1)
      (decode_round_close hsn.1) (decode_round_close hsn.2) (decode_round_close hc.1)
    rw [e] at key
    simpa only [quaternion_toeuler, quaternion_euler, w1, pushQuat, lua_pushquaternion,
      decodeQuat] using key
  · have key := toeuler_pole_neg_perturbed hss hs (show -(Real.pi / 2) < y / 2 by linarith)
      (show y / 2 < Real.pi / 2 by linarith) (decode_round_close hc.2)
      (decode_round_close hsn.1) (decode_round_close hsn.1) (decode_round_close hc.1)
    rw [e] at key
    simpa only [quaternion_toeuler, quaternion_euler, w2, pushQuat, lua_pushquaternion,
      decodeQuat] using key

/-- Witness for C17 at `y = 0`. -/
theorem toeuler_euler_poles_quantized_witness :
    (-Real.pi < (0 : ℝ) ∧ (0 : ℝ) < Real.pi)
      ∧ (quaternion_toeuler (quaternion_euler (Real.pi / 2) 0 0) : Vector3 ℝ).x = Real.pi / 2
      ∧ |(quaternion_toeuler (quaternion_euler (Real.pi / 2) 0 0) : Vector3 ℝ).y - 0| ≤ 1e-4 :=
  ⟨⟨neg_lt_zero.mpr Real.pi_pos, Real.pi_pos⟩,
    (toeuler_euler_poles_quantized 0 (neg_lt_zero.mpr Real.pi_pos) Real.pi_pos).1.1,
    (toeuler_euler_poles_quantized 0 (neg_lt_zero.mpr Real.pi_pos) Real.pi_pos).1.2.1⟩

/-! ## Euler round trip through the quantizer: C8 -/

/-- Products of two components move by at most `3.06e-5` under quantization. -/
theorem prod_close_sharp (a b a' b' : ℝ) (ha : |a| ≤ 1) (hb : |b| ≤ 1)
    (ha' : |a' - a| ≤ 1 / 65534) (hb' : |b' - b| ≤ 1 / 65534) :
    |a' * b' - a * b| ≤ 3.06e-5 := by
  have e : a' * b' - a * b = (a' - a) * (b' - b) + (a' - a) * b + a * (b' - b) := by ring
  have h1 : |(a' - a) * (b' - b)| ≤ 1 / 65534 * (1 / 65534) := by
    rw [abs_mul]
    exact mul_le_mul ha' hb' (abs_nonneg _) (by norm_num)
  have h2 : |(a' - a) * b| ≤ 1 / 65534 * 1 := by
    rw [abs_mul]
    exact mul_le_mul ha' hb (abs_nonneg _) (by norm_num)
  have h3 : |a * (b' - b)| ≤ 1 * (1 / 65534) := by
    rw [abs_mul]
    exact mul_le_mul ha hb' (abs_nonneg _) (by norm_num)
  rw [e]
  refine le_trans (abs_add_three _ _ _) ?_
  norm_num at h1 h2 h3 ⊢
  linarith

/-- Lower bound on the cosine at distance at least `a` from the poles `±π/2`. -/
theorem cos_lower_away {a v : ℝ} (ha : 0 < a) (ha1 : a ≤ 1) (h : |v| ≤ Real.pi / 2 - a) :
    a - a ^ 3 / 4 < Real.cos v := by
  obtain ⟨h1, h2⟩ := abs_le.mp h
  have := sin_lower_mid (v := Real.pi / 2 - v) ha ha1 (by linarith) (by linarith)
  rw [Real.sin_pi_div_two_sub] at this
  exact this

/-- The sine at distance at least `0.2` from the poles `±π/2` is at most `0.981` in absolute
value. -/
theorem sin_le_away {x : ℝ} (h : |x| ≤ Real.pi / 2 - 0.2) : |Real.sin x| ≤ 0.981 := by
  have hpi := Real.pi_gt_three
  obtain ⟨h1, h2⟩ := abs_le.mp h
  have hc : Real.cos 0.2 ≤ 0.981 := by
    have hb := Real.cos_bound (x := 0.2) (by norm_num [abs_le])
    rw [abs_le] at hb
    have := hb.2
    norm_num [abs_of_pos] at this ⊢
    linarith
  have e : Real.sin (Real.pi / 2 - 0.2) = Real.cos 0.2 := Real.sin_pi_div_two_sub _
  rw [abs_le]
  constructor
  · have := Real.sin_le_sin_of_le_of_le_pi_div_two (x := -(Real.pi / 2 - 0.2)) (y := x)
      (by linarith) (by linarith) (by linarith)
    rw [Real.sin_neg, e] at this
    linarith
  · have := Real.sin_le_sin_of_le_of_le_pi_div_two (x := x) (y := Real.pi / 2 - 0.2)
      (by linarith) (by linarith) (by linarith)
    rw [e] at this
    linarith

/-- The exact `asin` of a number within `1.3e-4` of `sin x0`, for `x0` at distance at least
`0.2` from the poles `±π/2`, is within `1e-3` of `x0`. -/
theorem arcsin_perturbed {x0 s : ℝ} (hx : |x0| ≤ Real.pi / 2 - 0.2)
    (hs : |s - Real.sin x0| ≤ 1.3e-4) : |Real.arcsin s - x0| ≤ 1e-3 := by
  have hpi := Real.pi_gt_three
  obtain ⟨h1, h2⟩ := abs_le.mp hx
  obtain ⟨hs1, hs2⟩ := abs_le.mp hs
  have hk : (0.000499 : ℝ) < Real.sin 0.0005 := by
    have := Real.sin_gt_sub_cube (x := 0.0005) (by norm_num) (by norm_num)
    norm_num at this ⊢
    linarith
  have c1 := cos_lower_away (a := 0.19) (v := x0 + 0.0005) (by norm_num) (by norm_num)
    (by rw [abs_le]; constructor <;> linarith)
  have c2 := cos_lower_away (a := 0.19) (v := x0 - 0.0005) (by norm_num) (by norm_num)
    (by rw [abs_le]; constructor <;> linarith)
  norm_num at c1 c2
  have e1 : Real.sin (x0 + 1e-3) - Real.sin x0 = 2 * Real.sin 0.0005 * Real.cos (x0 + 0.0005) := by
    rw [Real.sin_sub_sin]
    congr 2
    · congr 1
      ring_nf
    · ring_nf
  have e2 : Real.sin x0 - Real.sin (x0 - 1e-3) = 2 * Real.sin 0.0005 * Real.cos (x0 - 0.0005) := by
    rw [Real.sin_sub_sin]
    congr 2
    · congr 1
      ring_nf
    · ring_nf
  rw [abs_le]
  constructor
  · have : x0 - 1e-3 ≤ Real.arcsin s := by
      rw [Real.le_arcsin_iff_sin_le' ⟨by norm_num; linarith, by norm_num; linarith⟩]
      norm_num at hk c2 hs1 e2 ⊢
      nlinarith
    linarith
  · have : Real.arcsin s ≤ x0 + 1e-3 := by
      rw [Real.arcsin_le_iff_le_sin' ⟨by norm_num; linarith, by norm_num; linarith⟩]
      norm_num at hk c1 hs2 e1 ⊢
      nlinarith
    linarith

/-- The exact `atan2` of a point within `1.23e-4` in each coordinate of the point at radius
`ρ ≥ 0.198` and angle `φ`, with `|φ| ≤ π - 0.01`, is within `1e-3` of `φ`. -/
theorem atan2_quantized_close {ρ φ a b : ℝ} (hρ : 0.198 ≤ ρ) (hφ : |φ| ≤ Real.pi - 0.01)
    (da : |a - ρ * Real.cos φ| ≤ 1.23e-4) (db : |b - ρ * Real.sin φ| ≤ 1.23e-4) :
    |Complex.arg ⟨a, b⟩ - φ| ≤ 1e-3 := by
  have hpi := Real.pi_gt_three
  obtain ⟨h1, h2⟩ := abs_le.mp hφ
  have sa := mul_self_le_of_abs_le da
  have sb := mul_self_le_of_abs_le db
  have hsin : (9.99e-4 : ℝ) ≤ Real.sin 1e-3 := by
    have := Real.sin_gt_sub_cube (x := 1e-3) (by norm_num) (by norm_num)
    norm_num at this ⊢
    linarith
  have harg := arg_perturbed (ρ := ρ) (φ := φ) (a := a) (b := b) (η := 1.74e-4) (h := 1e-3)
    (by linarith) (by linarith) (by norm_num) (by norm_num; linarith) (by norm_num)
    (by norm_num at hρ ⊢; linarith)
    (by norm_num at sa sb ⊢; linarith)
    (by
      have : (9.99e-4 : ℝ) * (ρ - 1.74e-4) ≤ Real.sin 1e-3 * (ρ - 1.74e-4) :=
        mul_le_mul_of_nonneg_right hsin (by norm_num at hρ ⊢; linarith)
      norm_num at this hρ ⊢
      linarith)
  have t1 := Complex.neg_pi_lt_arg ⟨a, b⟩
  have t2 := Complex.arg_le_pi ⟨a, b⟩
  generalize Complex.arg ⟨a, b⟩ = θ at harg t1 t2 ⊢
  rcases harg with h | h | h
  · exact h
  · rw [abs_le] at h
    norm_num at h h1 h2
    linarith [h.1]
  · rw [abs_le] at h
    norm_num at h h1 h2
    linarith [h.2]

/-- Sums and differences of two product perturbations, doubled. -/
theorem two_close_sharp {p q : ℝ} (hp : |p| ≤ 3.06e-5) (hq : |q| ≤ 3.06e-5) :
    |2 * (p - q)| ≤ 1.23e-4 ∧ |2 * p + 2 * q| ≤ 1.23e-4 ∧ |-(2 * (p + q))| ≤ 1.23e-4 := by
  rw [abs_le] at hp hq
  norm_num at hp hq ⊢
  refine ⟨abs_le.mpr ⟨?_, ?_⟩, abs_le.mpr ⟨?_, ?_⟩, abs_le.mpr ⟨?_, ?_⟩⟩ <;>
    linarith only [hp.1, hp.2, hq.1, hq.2]

/-- Neither pole test of `toeuler` passes on components whose products are within `3.06e-5` of
those of a unit tuple with `|2 (W X - Y Z)| ≤ 0.981`. -/
theorem nonpole_tests_perturbed {X Y Z W x y z w : ℝ}
    (hunit : X * X + Y * Y + Z * Z + W * W = 1) (hs : |2 * (X * W - Y * Z)| ≤ 0.981)
    (pxx : |x * x - X * X| ≤ 3.06e-5) (pyy : |y * y - Y * Y| ≤ 3.06e-5)
    (pzz : |z * z - Z * Z| ≤ 3.06e-5) (pww : |w * w - W * W| ≤ 3.06e-5)
    (pxw : |x * w - X * W| ≤ 3.06e-5) (pyz : |y * z - Y * Z| ≤ 3.06e-5) :
    ¬ x * w - y * z > (0.5 - 1e-7) * (x * x + y * y + z * z + w * w)
      ∧ ¬ x * w - y * z < -(0.5 - 1e-7) * (x * x + y * y + z * z + w * w) := by
  rw [abs_le] at hs pxx pyy pzz pww pxw pyz
  norm_num at hs pxx pyy pzz pww pxw pyz ⊢
  constructor <;>
    linarith only [hunit, hs.1, hs.2, pxx.1, pxx.2, pyy.1, pyy.2, pzz.1, pzz.2, pww.1, pww.2,
      pxw.1, pxw.2, pyz.1, pyz.2]

/-- What `toeuler` computes from components within `1/65534` of a unit tuple `(X, Y, Z, W)`
whose products are those of the Euler angles `(x0, y0, z0)`, with `x0` at distance at least
`0.2` from the poles and `y0`, `z0` at distance at least `0.01` from `±π`: each angle within
`1e-3`. -/
theorem toeuler_nonpole_perturbed {X Y Z W x y z w x0 y0 z0 : ℝ}
    (hunit : X * X + Y * Y + Z * Z + W * W = 1)
    (hS : 2 * (W * X - Y * Z) = Real.sin x0)
    (hA1 : 2 * W * Y + 2 * Z * X = Real.cos x0 * Real.sin y0)
    (hA2 : 1 - 2 * (X * X + Y * Y) = Real.cos x0 * Real.cos y0)
    (hB1 : 2 * W * Z + 2 * X * Y = Real.cos x0 * Real.sin z0)
    (hB2 : 1 - 2 * (Z * Z + X * X) = Real.cos x0 * Real.cos z0)
    (hx0 : |x0| ≤ Real.pi / 2 - 0.2) (hy0 : |y0| ≤ Real.pi - 0.01)
    (hz0 : |z0| ≤ Real.pi - 0.01)
    (dx : |x - X| ≤ 1 / 65534) (dy : |y - Y| ≤ 1 / 65534)
    (dz : |z - Z| ≤ 1 / 65534) (dw : |w - W| ≤ 1 / 65534) :
    |(toeuler_work (⟨x, y, z, w⟩ : Quat4 ℝ)).x - x0| ≤ 1e-3
      ∧ |(toeuler_work (⟨x, y, z, w⟩ : Quat4 ℝ)).y - y0| ≤ 1e-3
      ∧ |(toeuler_work (⟨x, y, z, w⟩ : Quat4 ℝ)).z - z0| ≤ 1e-3 := by
  have hX := abs_le_one_of_norm2 hunit
  have hY := abs_le_one_of_norm2 (x := Y) (y := X) (z := Z) (w := W) (by linarith only [hunit])
  have hZ := abs_le_one_of_norm2 (x := Z) (y := X) (z := Y) (w := W) (by linarith only [hunit])
  have hW := abs_le_one_of_norm2 (x := W) (y := X) (z := Y) (w := Z) (by linarith only [hunit])
  have pxx := prod_close_sharp X X x x hX hX dx dx
  have pyy := prod_close_sharp Y Y y y hY hY dy dy
  have pzz := prod_close_sharp Z Z z z hZ hZ dz dz
  have pww := prod_close_sharp W W w w hW hW dw dw
  have pxw := prod_close_sharp X W x w hX hW dx dw
  have pwx := prod_close_sharp W X w x hW hX dw dx
  have pyz := prod_close_sharp Y Z y z hY hZ dy dz
  have pwy := prod_close_sharp W Y w y hW hY dw dy
  have pzx := prod_close_sharp Z X z x hZ hX dz dx
  have pwz := prod_close_sharp W Z w z hW hZ dw dz
  have pxy := prod_close_sharp X Y x y hX hY dx dy
  have hsx : |2 * (X * W - Y * Z)| ≤ 0.981 := by
    rw [show 2 * (X * W - Y * Z) = 2 * (W * X - Y * Z) by ring, hS]
    exact sin_le_away hx0
  have hcx := cos_lower_away (a := 0.2) (v := x0) (by norm_num) (by norm_num) hx0
  have hρ : (0.198 : ℝ) ≤ Real.cos x0 := by
    norm_num at hcx ⊢
    linarith only [hcx]
  obtain ⟨h1, h2⟩ := nonpole_tests_perturbed hunit hsx pxx pyy pzz pww pxw pyz
  simp only [toeuler_work, asinf_real, atan2f_real, if_neg h1, if_neg h2]
  refine ⟨?_, ?_, ?_⟩
  · apply arcsin_perturbed hx0
    rw [← hS, show 2 * (w * x - y * z) - 2 * (W * X - Y * Z)
      = 2 * ((w * x - W * X) - (y * z - Y * Z)) by ring]
    refine le_trans (two_close_sharp pwx pyz).1 (by norm_num)
  · apply atan2_quantized_close hρ hy0
    · rw [← hA2, show 1 - 2 * (x * x + y * y) - (1 - 2 * (X * X + Y * Y))
        = -(2 * ((x * x - X * X) + (y * y - Y * Y))) by ring]
      exact (two_close_sharp pxx pyy).2.2
    · rw [← hA1, show 2 * w * y + 2 * z * x - (2 * W * Y + 2 * Z * X)
        = 2 * (w * y - W * Y) + 2 * (z * x - Z * X) by ring]
      exact (two_close_sharp pwy pzx).2.1
  · apply atan2_quantized_close hρ hz0
    · rw [← hB2, show 1 - 2 * (z * z + x * x) - (1 - 2 * (Z * Z + X * X))
        = -(2 * ((z * z - Z * Z) + (x * x - X * X))) by ring]
      exact (two_close_sharp pzz pxx).2.2
    · rw [← hB1, show 2 * w * z + 2 * x * y - (2 * W * Z + 2 * X * Y)
        = 2 * (w * z - W * Z) + 2 * (x * y - X * Y) by ring]
      exact (two_close_sharp pwz pxy).2.1

/-- C8, amended. Through the quantizer: for all angles with `|x| ≤ π/2 - 0.2` and
`|y| ≤ π - 0.01`, `|z| ≤ π - 0.01`, `toeuler(euler(x, y, z))` returns a triple that equals
`(x, y, z)` within `1e-3` in each angle. -/
theorem euler_roundtrip_quantized (x y z : ℝ) (hx : |x| ≤ Real.pi / 2 - 0.2)
    (hy : |y| ≤ Real.pi - 0.01) (hz : |z| ≤ Real.pi - 0.01) :
    |(quaternion_toeuler (quaternion_euler x y z) : Vector3 ℝ).x - x| ≤ 1e-3
      ∧ |(quaternion_toeuler (quaternion_euler x y z) : Vector3 ℝ).y - y| ≤ 1e-3
      ∧ |(quaternion_toeuler (quaternion_euler x y z) : Vector3 ℝ).z - z| ≤ 1e-3 := by
  obtain ⟨hN, -, hS, hA1, hA2, hB1, hB2⟩ := euler_core (Real.cos (x * 0.5))
    (Real.sin (x * 0.5)) (Real.cos (y * 0.5)) (Real.sin (y * 0.5)) (Real.cos (z * 0.5))
    (Real.sin (z * 0.5)) (sin_mul_self_add_cos_mul_self _) (sin_mul_self_add_cos_mul_self _)
    (sin_mul_self_add_cos_mul_self _)
  have sin2 : ∀ a : ℝ, 2 * Real.sin (a * 0.5) * Real.cos (a * 0.5) = Real.sin a := by
    intro a
    rw [← Real.sin_two_mul]
    congr 1
    ring
  have cos2 : ∀ a : ℝ, Real.cos (a * 0.5) * Real.cos (a * 0.5)
      - Real.sin (a * 0.5) * Real.sin (a * 0.5) = Real.cos a := by
    intro a
    have := Real.cos_two_mul' (a * 0.5)
    rw [show 2 * (a * 0.5) = a by ring] at this
    rw [this]
    ring
  rw [sin2] at hS
  rw [cos2, sin2] at hA1 hB1
  rw [cos2, cos2] at hA2 hB2
  have bX := abs_le_one_of_norm2 hN
  have bY := abs_le_one_of_norm2 (y := Real.cos (y * 0.5) * Real.sin (x * 0.5)
      * Real.cos (z * 0.5) + Real.sin (y * 0.5) * Real.cos (x * 0.5) * Real.sin (z * 0.5))
    (x := Real.sin (y * 0.5) * Real.cos (x * 0.5) * Real.cos (z * 0.5)
      - Real.cos (y * 0.5) * Real.sin (x * 0.5) * Real.sin (z * 0.5))
    (z := Real.cos (y * 0.5) * Real.cos (x * 0.5) * Real.sin (z * 0.5)
      - Real.sin (y * 0.5) * Real.sin (x * 0.5) * Real.cos (z * 0.5))
    (w := Real.cos (y * 0.5) * Real.cos (x * 0.5) * Real.cos (z * 0.5)
      + Real.sin (y * 0.5) * Real.sin (x * 0.5) * Real.sin (z * 0.5))
    (by linarith only [hN])
  have bZ := abs_le_one_of_norm2 (y := Real.cos (y * 0.5) * Real.sin (x * 0.5)
      * Real.cos (z * 0.5) + Real.sin (y * 0.5) * Real.cos (x * 0.5) * Real.sin (z * 0.5))
    (z := Real.sin (y * 0.5) * Real.cos (x * 0.5) * Real.cos (z * 0.5)
      - Real.cos (y * 0.5) * Real.sin (x * 0.5) * Real.sin (z * 0.5))
    (x := Real.cos (y * 0.5) * Real.cos (x * 0.5) * Real.sin (z * 0.5)
      - Real.sin (y * 0.5) * Real.sin (x * 0.5) * Real.cos (z * 0.5))
    (w := Real.cos (y * 0.5) * Real.cos (x * 0.5) * Real.cos (z * 0.5)
      + Real.sin (y * 0.5) * Real.sin (x * 0.5) * Real.sin (z * 0.5))
    (by linarith only [hN])
  have bW := abs_le_one_of_norm2 (y := Real.cos (y * 0.5) * Real.sin (x * 0.5)
      * Real.cos (z * 0.5) + Real.sin (y * 0.5) * Real.cos (x * 0.5) * Real.sin (z * 0.5))
    (z := Real.sin (y * 0.5) * Real.cos (x * 0.5) * Real.cos (z * 0.5)
      - Real.cos (y * 0.5) * Real.sin (x * 0.5) * Real.sin (z * 0.5))
    (w := Real.cos (y * 0.5) * Real.cos (x * 0.5) * Real.sin (z * 0.5)
      - Real.sin (y * 0.5) * Real.sin (x * 0.5) * Real.cos (z * 0.5))
    (x := Real.cos (y * 0.5) * Real.cos (x * 0.5) * Real.cos (z * 0.5)
      + Real.sin (y * 0.5) * Real.sin (x * 0.5) * Real.sin (z * 0.5))
    (by linarith only [hN])
  have key := toeuler_nonpole_perturbed hN hS hA1 hA2 hB1 hB2 hx hy hz
    (decode_round_close (abs_le.mp bX).1) (decode_round_close (abs_le.mp bY).1)
    (decode_round_close (abs_le.mp bZ).1) (decode_round_close (abs_le.mp bW).1)
  simpa only [quaternion_toeuler, quaternion_euler, quaternion_euler_work, pushQuat,
    lua_pushquaternion, decodeQuat, sinf_real, cosf_real] using key

/-- Witness for C8 at `(0.5, 1, -2)`. -/
theorem euler_roundtrip_quantized_witness :
    |(quaternion_toeuler (quaternion_euler (0.5 : ℝ) 1 (-2)) : Vector3 ℝ).y - 1| ≤ 1e-3 :=
  (euler_roundtrip_quantized 0.5 1 (-2)
    (by have := Real.pi_gt_three; rw [abs_of_pos (by norm_num)]; norm_num; linarith)
    (by have := Real.pi_gt_three; rw [abs_of_pos (by norm_num)]; norm_num; linarith)
    (by
      have := Real.pi_gt_three
      rw [abs_of_neg (by norm_num)]
      norm_num
      linarith)).2.1

end LuauQuat
